import Mathlib

/-!
# QuickChunk: chunk reader, sender dialogue and receiver network handler

A shallow embedding of `quickchunk.c` (`reader_thr`, `worker_thr`),
`client.c` (`wait_and_get_response`, `send_data`, `client_check_and_upload`,
`client_send_exit`) and `server.c` (`are_hashes_equal`,
`on_incoming_connection`).

Conventions of the embedding.

* A byte is a `Nat`; a file and a socket stream are `List Nat`.
* `gsize`, `guint64` are 64-bit unsigned values, `gint64` and `long` are
  64-bit signed; arithmetic that can wrap is written with `% 2 ^ 64`.
* The hash function (`XXH3_128bits`, an external library) and the build
  constant `PROJECT_VERSION` are parameters.
* Each peer is a function of the bytes it receives from the other peer and
  returns the bytes it writes; a session is a pair of streams on which both
  functions agree.
* The threads of one process (`reader_thr`, `worker_thr`) are a step function
  on the state they share, run under a schedule: a list of steps.
-/

namespace QuickChunk

/-! ## Definitions: the program, then the notions used to state its properties -/

/-- `QC_CHUNK_SIZE`, 200 MB. -/
def QC_CHUNK_SIZE : Nat := 200 * 1000000

/-- `QC_MAX_READER_QUEUE`. -/
def QC_MAX_READER_QUEUE : Nat := 20

/-- `VERSION_LENGTH`. -/
def VERSION_LENGTH : Nat := 32

/-- `QC_ACK_MESSAGE`, the ASCII bytes of "ACK". -/
def QC_ACK_MESSAGE : List Nat := [65, 67, 75]

/-- `QC_NOK_MESSAGE`, the ASCII bytes of "NOK". -/
def QC_NOK_MESSAGE : List Nat := [78, 79, 75]

/-- `QC_EQL_MESSAGE`, the ASCII bytes of "EQL". -/
def QC_EQL_MESSAGE : List Nat := [69, 81, 76]

/-- `enum QCResponse`. -/
inductive QCResponse where
  | QC_RESPONSE_ACK
  | QC_RESPONSE_NOK
  | QC_RESPONSE_EQL
deriving DecidableEq, Repr

/-- `XXH128_hash_t`: two 64-bit halves, `low64` first in memory. -/
structure XXH128_hash_t where
  low64 : Nat
  high64 : Nat
deriving DecidableEq, Repr

/-- `struct chunk`. -/
structure chunk where
  num : Int
  hash : XXH128_hash_t
  size : Nat
  data : List Nat
deriving DecidableEq, Repr

/-- The `w` little-endian bytes of the object representation of `v`. -/
def toLE : Nat → Nat → List Nat
  | 0, _ => []
  | w + 1, v => (v % 256) :: toLE w (v / 256)

/-- The unsigned value of a little-endian byte string. -/
def ofLE : List Nat → Nat
  | [] => 0
  | b :: bs => b + 256 * ofLE bs

/-- The 8 bytes of a `gsize` / `guint64`. -/
def bytes_u64 (v : Nat) : List Nat := toLE 8 (v % 2 ^ 64)

/-- The 8 bytes of a `gint64` (two's complement). -/
def bytes_i64 (v : Int) : List Nat := toLE 8 (v % 2 ^ 64).toNat

/-- The `gint64` with the same 64-bit representation as the unsigned `v`. -/
def i64_of_u64 (v : Nat) : Int :=
  if v < 2 ^ 63 then (v : Int) else (v : Int) - 2 ^ 64

/-- The `gint64` stored in 8 bytes. -/
def i64_of_bytes (bs : List Nat) : Int := i64_of_u64 (ofLE bs)

/-- The 16 bytes of an `XXH128_hash_t`: `low64`, then `high64`. -/
def bytes_hash (h : XXH128_hash_t) : List Nat :=
  bytes_u64 h.low64 ++ bytes_u64 h.high64

/-- The `XXH128_hash_t` stored in 16 bytes. -/
def hash_of_bytes (bs : List Nat) : XXH128_hash_t :=
  { low64 := ofLE (bs.take 8), high64 := ofLE (bs.drop 8) }

/-- The `size` the reader gives the chunk that starts at file position `pos`
(quickchunk.c, lines 103-107); the sum `ftell(fp) + QC_CHUNK_SIZE` is
computed in `unsigned long`. -/
def reader_chunk_size (filesize pos : Nat) : Nat :=
  if (pos + QC_CHUNK_SIZE) % 2 ^ 64 < filesize then QC_CHUNK_SIZE
  else filesize - pos

/-- The result of `fread(chnk->data, 1, size, fp)` at file position `pos`. -/
def fread (file : List Nat) (pos size : Nat) : List Nat :=
  (file.drop pos).take size

/-- `get_hash128`: the 128-bit hash of the `size` bytes of `buf`, computed by the
library function `XXH3_128bits`; each half is a 64-bit value. `none` is
`g_error("hash size 0")`. -/
def get_hash128 (XXH3_128bits : List Nat → XXH128_hash_t) (buf : List Nat)
    (size : Nat) : Option XXH128_hash_t :=
  if size ≠ 0 then
    let h := XXH3_128bits (buf.take size)
    some { low64 := h.low64 % 2 ^ 64, high64 := h.high64 % 2 ^ 64 }
  else none

/-- The `while (ftell(fp) < cs->filesize)` loop of `reader_thr`, from file
position `pos` with `chnk_num` chunks already pushed. It returns the chunks
in the order they are pushed on the queue, or `none` where the source calls
`g_error` (short read, hash of size 0). -/
def reader_loop (XXH3_128bits : List Nat → XXH128_hash_t) (file : List Nat)
    (pos chnk_num : Nat) : Option (List chunk) :=
  if _h : pos < file.length then
    let num := (chnk_num + 1) % 2 ^ 64
    let size := reader_chunk_size file.length pos
    let data := fread file pos size
    if _hn : data.length ≠ size then none
    else
      match get_hash128 XXH3_128bits data size with
      | none => none
      | some hash =>
        match reader_loop XXH3_128bits file (pos + data.length) num with
        | none => none
        | some rest =>
          some ({ num := i64_of_u64 num, hash := hash, size := size, data := data } :: rest)
  else some []
termination_by file.length - pos
decreasing_by
  have hsz : 0 < reader_chunk_size file.length pos := by
    unfold reader_chunk_size QC_CHUNK_SIZE
    split <;> omega
  have hlen : (fread file pos (reader_chunk_size file.length pos)).length
      = min (reader_chunk_size file.length pos) (file.length - pos) := by
    simp [fread]
  have hpos : 0 < (fread file pos (reader_chunk_size file.length pos)).length := by
    rw [hlen]; omega
  show file.length - (pos + (fread file pos (reader_chunk_size file.length pos)).length)
    < file.length - pos
  omega

/-- `reader_thr`: the file is read from position 0, `chnk_num` starts at 0. -/
def reader_thr (XXH3_128bits : List Nat → XXH128_hash_t) (file : List Nat) :
    Option (List chunk) :=
  reader_loop XXH3_128bits file 0 0

/-- The test `strcmp(a, b) == 0` (also `g_strcmp0` on non-NULL arguments): the
two byte strings agree up to and including their first NUL byte. The end of a
list stands for the terminating NUL of the string. -/
def strcmp_eq : List Nat → List Nat → Bool
  | [], [] => true
  | [], b :: _ => b == 0
  | a :: _, [] => a == 0
  | a :: as, b :: bs =>
    if a != b then false else if a == 0 then true else strcmp_eq as bs

/-- The array `gchar version_str[VERSION_LENGTH] = PROJECT_VERSION`: the
characters of the literal, the rest of the array zero. -/
def version_str (PROJECT_VERSION : List Nat) : List Nat :=
  PROJECT_VERSION ++ List.replicate (VERSION_LENGTH - PROJECT_VERSION.length) 0

/-- The call `g_input_stream_read_all(stream, buf, n, &bytes_read, ..)` on a
stream whose remaining bytes are `input`, followed by the source's test
`bytes_read != n`: the `n` bytes read and the rest of the stream, or `none`
when the stream ends before `n` bytes. -/
def read_all (n : Nat) (input : List Nat) : Option (List Nat × List Nat) :=
  if input.length < n then none else some (input.take n, input.drop n)

/-- The sender's part of `struct cs_data` and `struct cs_client`, with the two
directions of its socket. -/
structure client_state where
  /-- Whether `init_client` has run: `cs->client->client` and both streams are set. -/
  connected : Bool
  misc_sent : Bool
  /-- The bytes still to come on `input_stream`. -/
  input : List Nat
  /-- The bytes written to `output_stream` so far. -/
  output : List Nat
deriving DecidableEq, Repr

/-- How a call on the sender ends: it returns a `gint`, or `g_error` aborts
the process. -/
inductive client_result where
  | returned (ret : Int) (st : client_state)
  | aborted (st : client_state)
deriving DecidableEq, Repr

/-- `init_client`: connects on the first call (a failed connect is `g_error`,
outside this model), does nothing afterwards. -/
def init_client (st : client_state) : client_state :=
  if !st.connected then { st with connected := true } else st

/-- `wait_and_get_response`: reads `strlen(QC_ACK_MESSAGE)` bytes and
classifies them; `none` is `g_error` (short read or unknown message). -/
def wait_and_get_response (input : List Nat) : Option (QCResponse × List Nat) :=
  match read_all QC_ACK_MESSAGE.length input with
  | none => none
  | some (msg_received, rest) =>
    if strcmp_eq msg_received QC_ACK_MESSAGE then some (.QC_RESPONSE_ACK, rest)
    else if strcmp_eq msg_received QC_NOK_MESSAGE then some (.QC_RESPONSE_NOK, rest)
    else if strcmp_eq msg_received QC_EQL_MESSAGE then some (.QC_RESPONSE_EQL, rest)
    else none

/-- `send_data` on the sender's output stream: all of `data` is written and 0
returned; on a stream that was never opened nothing is written and the
result is -1. -/
def send_data (st : client_state) (data : List Nat) : Int × client_state :=
  if st.connected then (0, { st with output := st.output ++ data }) else (-1, st)

/-- `client_check_and_upload`. -/
def client_check_and_upload (PROJECT_VERSION : List Nat) (filesize : Nat)
    (st : client_state) (chnk : chunk) : client_result :=
  -- if (!cs->misc_sent): version, filesize
  let pre : Int × client_state :=
    if !st.misc_sent then
      let r := send_data st (version_str PROJECT_VERSION)
      if r.1 != 0 then (-1, r.2)
      else
        let r := send_data r.2 (bytes_u64 filesize)
        if r.1 != 0 then (-1, r.2) else (0, { r.2 with misc_sent := true })
    else (0, st)
  if pre.1 != 0 then .returned (-1) pre.2
  else
    let r := send_data pre.2 (bytes_i64 chnk.num)
    if r.1 != 0 then .returned (-1) r.2
    else
      let r := send_data r.2 (bytes_u64 chnk.size)
      if r.1 != 0 then .returned (-1) r.2
      else
        let r := send_data r.2 (bytes_hash chnk.hash)
        if r.1 != 0 then .returned (-1) r.2
        else
          let st := r.2
          match wait_and_get_response st.input with
          | none => .aborted st
          | some (resp, rest) =>
            let st := { st with input := rest }
            if resp = .QC_RESPONSE_NOK then .returned (-1) st
            else
              let r : Int × client_state :=
                if resp = .QC_RESPONSE_EQL then (0, st)
                else send_data st (chnk.data.take chnk.size)
              if r.1 != 0 then .returned (-1) r.2
              else
                let st := r.2
                match wait_and_get_response st.input with
                | none => .aborted st
                | some (resp, rest) =>
                  let st := { st with input := rest }
                  if resp ≠ .QC_RESPONSE_ACK then .returned (-1) st
                  else .returned 0 st

/-- `client_send_exit`: writes the `gint64` -1. On a client that never
connected `output_stream` is NULL, the write fails and `g_error` aborts. -/
def client_send_exit (st : client_state) : client_result :=
  if st.connected then .returned 0 { st with output := st.output ++ bytes_i64 (-1) }
  else .aborted st

/-- The client branch of `worker_thr` on the chunks that
`g_async_queue_timeout_pop` hands it before its loop test fails, in that
order: for each one `init_client`, then `client_check_and_upload` (a non-zero
result is `g_error("Upload Error")`); once the loop is left,
`client_send_exit`. Which of the reader's chunks the loop pops is decided by
the loop test of line 149 in the interleaving with `reader_thr`: that part of
`worker_thr` is `queue_step`, and `worker_thr_popped` gives the chunks. -/
def worker_thr_client (PROJECT_VERSION : List Nat) (filesize : Nat) :
    List chunk → client_state → client_result
  | [], st => client_send_exit st
  | chnk :: rest, st =>
    match client_check_and_upload PROJECT_VERSION filesize (init_client st) chnk with
    | .aborted st1 => .aborted st1
    | .returned ret st1 =>
      if ret != 0 then .aborted st1
      else worker_thr_client PROJECT_VERSION filesize rest st1

/-- `are_hashes_equal`. -/
def are_hashes_equal (hash1 hash2 : XXH128_hash_t) : Bool :=
  (hash1.low64 == hash2.low64) && (hash1.high64 == hash2.high64)

/-- The calls `fseek(fp, offset, SEEK_SET); fwrite(data, 1, size, fp)` on a file
with contents `file`: the bytes from `offset` on are overwritten; a gap
between the end of the file and `offset` reads as zero bytes. -/
def fwrite_at (file : List Nat) (offset : Nat) (data : List Nat) : List Nat :=
  file.take offset ++ List.replicate (offset - file.length) 0 ++ data
    ++ file.drop (offset + data.length)

/-- A record of one chunk the network handler has served, kept for stating
properties: the header it received, the value of `offset` when the iteration
began, its first answer, and the arguments of its `fseek`/`fwrite` if it wrote. -/
structure served where
  num : Int
  size : Nat
  hash : XXH128_hash_t
  offset : Nat
  reply : List Nat
  written : Option (Nat × List Nat)
deriving DecidableEq, Repr

/-- The state of `on_incoming_connection`: the contents of `fp`, the locals and
flags it updates, and the two directions of the connection. `offset` is a
`long`; it stays below `2 ^ 63` on every file a `long` can measure, so it is
kept as a natural number. -/
structure server_state where
  file : List Nat
  offset : Nat
  misc_received : Bool
  /-- The bytes still to come on `input_stream`. -/
  input : List Nat
  /-- The bytes written to `output_stream` so far. -/
  output : List Nat
  /-- The chunks served so far, oldest first. -/
  log : List served
deriving DecidableEq, Repr

/-- How `on_incoming_connection` ends. -/
inductive server_result where
  /-- The loop was left by `break` (negative `num`); `fclose`, `return FALSE`. -/
  | closed (st : server_state)
  /-- The process was aborted by `g_error`. -/
  | aborted (st : server_state)
  /-- The handler is in `g_cond_wait` for `update_current_finished`, and
  `worker_thr` has no further chunk to publish. -/
  | waiting (st : server_state)
deriving DecidableEq, Repr

/-- The preamble block `if (!cs->misc_received) { .. }` of the handler
(server.c, lines 56-97); `none` is `g_error`. The source does not test
`bytes_read` after reading the version; a version field cut short by the end
of the stream leaves no byte for the file size, whose read then fails, so a
short field is `none` here as well. -/
def server_preamble (PROJECT_VERSION : List Nat) (filesize : Nat)
    (st : server_state) : Option server_state :=
  if !st.misc_received then
    match read_all VERSION_LENGTH st.input with
    | none => none
    | some (version_str, rest) =>
      if !strcmp_eq version_str PROJECT_VERSION then none
      else
        match read_all 8 rest with
        | none => none
        | some (b, rest) =>
          let remote_filesize := ofLE b
          if remote_filesize ≠ filesize then none
          else some { st with input := rest, misc_received := true }
  else some st

/-- What reading one chunk header gives. -/
inductive header_result where
  /-- A negative `num`: end of transmission. -/
  | eot (rest : List Nat)
  /-- A `g_error` while reading or validating. -/
  | error
  /-- A header that passed every check. -/
  | header (num : Int) (size : Nat) (hash : XXH128_hash_t) (rest : List Nat)
deriving DecidableEq, Repr

/-- The three reads "chunk num", "chunk size", "chunk hash" of the handler with
their checks (server.c, lines 99-159). -/
def server_header (current_num : Int) (input : List Nat) : header_result :=
  match read_all 8 input with
  | none => .error
  | some (b, rest) =>
    let num := i64_of_bytes b
    if num < 0 then .eot rest
    else if num ≠ current_num then .error
    else
      match read_all 8 rest with
      | none => .error
      | some (b, rest) =>
        let size := ofLE b
        if size ≤ 0 ∨ size > QC_CHUNK_SIZE then .error
        else
          match read_all 16 rest with
          | none => .error
          | some (b, rest) =>
            let hash := hash_of_bytes b
            if hash.low64 = 0 ∧ hash.high64 = 0 then .error
            else .header num size hash rest

/-- The hash comparison and what follows it in one iteration (server.c, lines
165-224): answer "EQL", or answer "ACK", read the payload and write it at
`offset`; then advance `offset` and send the final "ACK". `none` is `g_error`
(the payload could not be read in full). -/
def server_serve (current_hash : XXH128_hash_t) (num : Int) (size : Nat)
    (hash : XXH128_hash_t) (st : server_state) : Option server_state :=
  if are_hashes_equal current_hash hash then
    some { st with
      output := st.output ++ QC_EQL_MESSAGE ++ QC_ACK_MESSAGE
      offset := st.offset + size
      log := st.log ++ [{ num := num, size := size, hash := hash, offset := st.offset,
                          reply := QC_EQL_MESSAGE, written := none }] }
  else
    match read_all size st.input with
    | none => none
    | some (data, rest) =>
      some { st with
        input := rest
        output := st.output ++ QC_ACK_MESSAGE ++ QC_ACK_MESSAGE
        file := fwrite_at st.file st.offset data
        offset := st.offset + size
        log := st.log ++ [{ num := num, size := size, hash := hash, offset := st.offset,
                            reply := QC_ACK_MESSAGE, written := some (st.offset, data) }] }

/-- `on_incoming_connection`. The first argument lists the pairs
`(current_num, current_hash)` that `worker_thr` publishes, one per chunk it
pops, in order; each pass of the `while (TRUE)` loop first waits for the next
one. -/
def on_incoming_connection (PROJECT_VERSION : List Nat) (filesize : Nat) :
    List (Int × XXH128_hash_t) → server_state → server_result
  | [], st => .waiting st
  | (current_num, current_hash) :: pairs, st =>
    match server_preamble PROJECT_VERSION filesize st with
    | none => .aborted st
    | some st1 =>
      match server_header current_num st1.input with
      | .error => .aborted st1
      | .eot rest => .closed { st1 with input := rest }
      | .header num size hash rest =>
        match server_serve current_hash num size hash { st1 with input := rest } with
        | none => .aborted { st1 with input := rest, output := st1.output ++ QC_ACK_MESSAGE }
        | some st2 => on_incoming_connection PROJECT_VERSION filesize pairs st2

/-- The pairs the server branch of `worker_thr` publishes for the chunks it
pops: `current_num = chnk->num`, `current_hash = chnk->hash`. -/
def worker_thr_server (chunks : List chunk) : List (Int × XXH128_hash_t) :=
  chunks.map fun chnk => (chnk.num, chnk.hash)

/-- The handler's state when the connection is accepted. -/
def server_init (file input : List Nat) : server_state :=
  { file := file, offset := 0, misc_received := false, input := input,
    output := [], log := [] }

/-- The sender's state when `worker_thr` starts. -/
def client_init (input : List Nat) : client_state :=
  { connected := false, misc_sent := false, input := input, output := [] }

/-- The chunk `reader_thr` builds at file position `pos` after `chnk_num`
chunks. -/
def chunk_at (XXH3_128bits : List Nat → XXH128_hash_t) (file : List Nat)
    (pos chnk_num : Nat) : chunk :=
  let size := reader_chunk_size file.length pos
  let data := fread file pos size
  let h := XXH3_128bits (data.take size)
  { num := i64_of_u64 ((chnk_num + 1) % 2 ^ 64),
    hash := { low64 := h.low64 % 2 ^ 64, high64 := h.high64 % 2 ^ 64 },
    size := size, data := data }

/-- The first `q` chunks of the file from position `pos` on, as a structural
recursion: the unrolled reader loop. -/
def chunks_from (XXH3_128bits : List Nat → XXH128_hash_t) (file : List Nat) :
    Nat → Nat → Nat → List chunk
  | 0, _, _ => []
  | q + 1, pos, chnk_num =>
    chunk_at XXH3_128bits file pos chnk_num ::
      chunks_from XXH3_128bits file q (pos + reader_chunk_size file.length pos)
        ((chnk_num + 1) % 2 ^ 64)

/-- The number of chunks of `len` bytes: `len / QC_CHUNK_SIZE` rounded up. -/
def chunk_count (len : Nat) : Nat := (len + QC_CHUNK_SIZE - 1) / QC_CHUNK_SIZE

/-- A hash function for the worked examples: sum of the bytes plus one, and
the number of bytes. -/
def sample_hash (d : List Nat) : XXH128_hash_t := ⟨d.sum + 1, d.length⟩

/-- The three bytes of a response. -/
def response_bytes : QCResponse → List Nat
  | .QC_RESPONSE_ACK => QC_ACK_MESSAGE
  | .QC_RESPONSE_NOK => QC_NOK_MESSAGE
  | .QC_RESPONSE_EQL => QC_EQL_MESSAGE

/-- The bytes of the session preamble, written unless `misc_sent` is set. -/
def preamble_bytes (PROJECT_VERSION : List Nat) (filesize : Nat) (misc_sent : Bool) : List Nat :=
  if misc_sent then [] else version_str PROJECT_VERSION ++ bytes_u64 filesize

/-- The bytes of a chunk header: `num`, `size`, `hash`. -/
def header_bytes (c : chunk) : List Nat :=
  bytes_i64 c.num ++ bytes_u64 c.size ++ bytes_hash c.hash

/-- The sender's state once the preamble (if due) and the header of `c` are
written. -/
def header_sent (ver : List Nat) (filesize : Nat) (st : client_state) (c : chunk) :
    client_state :=
  { st with
    misc_sent := true
    output := st.output ++ preamble_bytes ver filesize st.misc_sent ++ header_bytes c }

/-- The payload the sender writes after the first response `resp`. -/
def payload_bytes (resp : QCResponse) (c : chunk) : List Nat :=
  if resp = .QC_RESPONSE_EQL then [] else c.data.take c.size

/-- The sender's state once the first response is read and the payload (if
asked for) is written. -/
def payload_sent (ver : List Nat) (filesize : Nat) (st : client_state) (c : chunk)
    (resp : QCResponse) (rest : List Nat) : client_state :=
  { header_sent ver filesize st c with
    input := rest
    output := (header_sent ver filesize st c).output ++ payload_bytes resp c }

/-- The state a sender call ends in. -/
def client_result.state : client_result → client_state
  | .returned _ st => st
  | .aborted st => st

/-- A chunk whose fields fit their C types and whose buffer has `size` bytes. -/
structure chunk.wf (c : chunk) : Prop where
  num_lo : -2 ^ 63 ≤ c.num
  num_hi : c.num < 2 ^ 63
  size_lt : c.size < 2 ^ 64
  low_lt : c.hash.low64 < 2 ^ 64
  high_lt : c.hash.high64 < 2 ^ 64
  data_length : c.data.length = c.size

/-- The state the handler ends in. -/
def server_result.state : server_result → server_state
  | .closed st => st
  | .aborted st => st
  | .waiting st => st

/-- Whether the handler ended in `g_error`. -/
def server_result.is_aborted : server_result → Bool
  | .aborted _ => true
  | _ => false

/-- What the handler has done so far: the file, its cursor, the chunks
served and the bytes answered. -/
structure receiver_view where
  file : List Nat
  offset : Nat
  log : List served
  output : List Nat
deriving DecidableEq, Repr

/-- The view of a handler state. -/
def server_state.view (st : server_state) : receiver_view :=
  { file := st.file, offset := st.offset, log := st.log, output := st.output }

/-- The first answer to the header of `c` of a receiver whose own chunk has
hash `current_hash`. -/
def reply_bytes (c : chunk) (current_hash : XXH128_hash_t) : List Nat :=
  if are_hashes_equal current_hash c.hash then QC_EQL_MESSAGE else QC_ACK_MESSAGE

/-- The payload that follows the header of `c` in a session with a receiver
whose own chunk has hash `current_hash`. -/
def frame_payload (c : chunk) (current_hash : XXH128_hash_t) : List Nat :=
  if are_hashes_equal current_hash c.hash then [] else c.data

/-- The effect on the receiver of serving the sender's chunk `c` against its
own hash `current_hash`. -/
def serve_view (c : chunk) (current_hash : XXH128_hash_t) (v : receiver_view) :
    receiver_view :=
  if are_hashes_equal current_hash c.hash then
    { v with
      offset := v.offset + c.size
      output := v.output ++ (QC_EQL_MESSAGE ++ QC_ACK_MESSAGE)
      log := v.log ++ [{ num := c.num, size := c.size, hash := c.hash, offset := v.offset,
                         reply := QC_EQL_MESSAGE, written := none }] }
  else
    { file := fwrite_at v.file v.offset c.data
      offset := v.offset + c.size
      output := v.output ++ (QC_ACK_MESSAGE ++ QC_ACK_MESSAGE)
      log := v.log ++ [{ num := c.num, size := c.size, hash := c.hash, offset := v.offset,
                         reply := QC_ACK_MESSAGE, written := some (v.offset, c.data) }] }

/-- The bytes the sender writes for its chunks `cs` in a session with a
receiver whose own chunks are `rs`: for each chunk the preamble (before the
first one), the header, and the payload iff the hashes differ. -/
def frames (ver : List Nat) (filesize : Nat) : Bool → List chunk → List chunk → List Nat
  | b, c :: cs, r :: rs =>
    preamble_bytes ver filesize b ++ header_bytes c ++ frame_payload c r.hash
      ++ frames ver filesize true cs rs
  | _, _, _ => []

/-- The bytes the receiver answers in that session: per chunk "EQL" or "ACK",
then "ACK". -/
def replies : List chunk → List chunk → List Nat
  | c :: cs, r :: rs => reply_bytes c r.hash ++ QC_ACK_MESSAGE ++ replies cs rs
  | _, _ => []

/-- The effect on the receiver of the whole session. -/
def sync_view : List chunk → List chunk → receiver_view → receiver_view
  | c :: cs, r :: rs, v => sync_view cs rs (serve_view c r.hash v)
  | _, _, v => v

/-- The header of `c` passes the receiver's checks against its own chunk `r`. -/
def header_ok (c r : chunk) : Prop :=
  c.num = r.num ∧ 0 ≤ c.num ∧ 1 ≤ c.size ∧ c.size ≤ QC_CHUNK_SIZE ∧
    ¬ (c.hash.low64 = 0 ∧ c.hash.high64 = 0)

/-- A session between a sender holding `sfile` and a receiver holding `rfile`
that completes without a fatal error, on the schedules on which each worker
pops every chunk of its reader before it leaves its loop (`scheduled_session`
is the notion for any schedule). `cs` and `rs` are the chunks the two readers
push; the sender's `worker_thr` uploads every chunk with result 0 and sends
the end-of-stream mark; `to_server` is what it has written and `to_client`
what it was given to read; the receiver's handler, run on `to_server`, does
not end in `g_error` and has written `to_client`. -/
structure session (ver : List Nat) (X : List Nat → XXH128_hash_t) (sfile rfile : List Nat)
    (cs rs : List chunk) (to_server to_client : List Nat) (R : server_result) : Prop where
  sender_chunks : reader_thr X sfile = some cs
  receiver_chunks : reader_thr X rfile = some rs
  sender : ∃ stc, worker_thr_client ver sfile.length cs (client_init to_client)
    = .returned 0 stc ∧ stc.output = to_server
  receiver : on_incoming_connection ver rfile.length (worker_thr_server rs)
    (server_init rfile to_server) = R
  not_aborted : R.is_aborted = false
  answered : R.state.output = to_client

/-- A version string for the worked examples: "0.1". -/
def sample_version : List Nat := [48, 46, 49]

/-- The chunk of the three-byte file `[1, 2, 3]` under `sample_hash`. -/
def sample_chunk_s : chunk := { num := 1, hash := ⟨7, 3⟩, size := 3, data := [1, 2, 3] }

/-- The chunk of the three-byte file `[1, 2, 4]` under `sample_hash`. -/
def sample_chunk_r : chunk := { num := 1, hash := ⟨8, 3⟩, size := 3, data := [1, 2, 4] }

/-- What the sender of `[1, 2, 3]` writes in a session with the receiver of
`[1, 2, 4]`: preamble, header, payload, end-of-stream mark. -/
def sample_to_server : List Nat :=
  version_str sample_version ++ bytes_u64 3 ++ header_bytes sample_chunk_s ++ [1, 2, 3]
    ++ bytes_i64 (-1)

/-- What the receiver answers in that session: "ACK", "ACK". -/
def sample_to_client : List Nat := QC_ACK_MESSAGE ++ QC_ACK_MESSAGE

/-- The handler's state at the end of the example session. -/
def sample_final : server_state :=
  { file := [1, 2, 3], offset := 3, misc_received := true, input := bytes_i64 (-1),
    output := sample_to_client,
    log := [{ num := 1, size := 3, hash := ⟨7, 3⟩, offset := 0, reply := QC_ACK_MESSAGE,
              written := some (0, [1, 2, 3]) }] }

/-- The record of serving the sender's chunk `c` at cursor `off` against the
receiver's hash `cur`. -/
def served_record (c : chunk) (cur : XXH128_hash_t) (off : Nat) : served :=
  if are_hashes_equal cur c.hash then
    { num := c.num, size := c.size, hash := c.hash, offset := off,
      reply := QC_EQL_MESSAGE, written := none }
  else
    { num := c.num, size := c.size, hash := c.hash, offset := off,
      reply := QC_ACK_MESSAGE, written := some (off, c.data) }

/-- The records of a whole session that starts with the cursor at `off`. -/
def session_log : List chunk → List chunk → Nat → List served
  | c :: cs, r :: rs, off => served_record c r.hash off :: session_log cs rs (off + c.size)
  | _, _, _ => []

/-- The receiver's first response to the header of `c`. -/
def first_response (c : chunk) (cur : XXH128_hash_t) : QCResponse :=
  if are_hashes_equal cur c.hash then .QC_RESPONSE_EQL else .QC_RESPONSE_ACK

/-- Where `reader_thr` is in its loop (quickchunk.c, lines 94-139). -/
inductive reader_pc where
  /-- At the head of `while (ftell(fp) < cs->filesize)`, or in the loop of
  line 95 that waits for room in the queue. -/
  | checking
  /-- It has left the loop of line 95 and is building the next chunk (lines
  99-130); the push of line 132 comes next. -/
  | ready
  /-- It has left its loop and set `is_readthread_finished` (line 139). -/
  | finished
deriving DecidableEq, Repr

/-- Where `worker_thr` is in its loop (quickchunk.c, lines 149-187). -/
inductive loop_pc where
  /-- About to evaluate `g_async_queue_length(cs->async_queue)`, the left
  operand of the loop test of line 149. -/
  | at_length
  /-- The length it read was 0: about to read `cs->is_readthread_finished`,
  the right operand of the test. -/
  | at_flag
  /-- In the loop body, about to call `g_async_queue_timeout_pop` (line 151). -/
  | at_pop
  /-- Inside `g_async_queue_timeout_pop` on a queue it found empty: counted in
  `waiting_threads` and blocked in `g_cond_wait_until`. -/
  | in_pop
  /-- It has popped a chunk and runs lines 153-186 on it. -/
  | holding (c : chunk)
  /-- The loop test failed: it is past the loop (line 189). -/
  | exited
deriving DecidableEq, Repr

/-- The pipeline of one process: `reader_thr`, the `GAsyncQueue` and
`worker_thr`. -/
structure queue_state where
  /-- The chunks `reader_thr` has still to push, in file order. -/
  pending : List chunk
  /-- The items of the `GAsyncQueue`, oldest first. -/
  queue : List chunk
  /-- The field `waiting_threads` of the `GAsyncQueue`: the threads blocked in
  a pop. -/
  waiting_threads : Nat
  is_readthread_finished : Bool
  reader : reader_pc
  worker : loop_pc
  /-- The chunks the worker has popped, oldest first. -/
  popped : List chunk
deriving DecidableEq, Repr

/-- The steps of the reader and the worker on the queue. -/
inductive queue_action where
  /-- The reader evaluates the loop condition of line 95 once. -/
  | reader_check
  /-- The reader pushes the chunk it has built (line 132). -/
  | reader_push
  /-- The reader finds `ftell(fp) == cs->filesize`, leaves its loop and sets
  `is_readthread_finished` (line 139). -/
  | reader_finish
  /-- The worker reads the queue length in its loop test (line 149). -/
  | worker_length
  /-- The worker reads `is_readthread_finished` in its loop test (line 149). -/
  | worker_flag
  /-- The worker enters `g_async_queue_timeout_pop` (line 151). -/
  | worker_pop
  /-- The worker, blocked in the pop, runs again: it was signalled by a push or
  its `QC_WAIT_TIME` ran out. -/
  | worker_wake
  /-- The worker has dealt with the chunk it holds and is back at its loop
  test. -/
  | worker_done
deriving DecidableEq, Repr

/-- The library call `g_async_queue_length` (GLib): the number of items in the
queue minus the number of threads waiting in a pop, a `gint`. -/
def g_async_queue_length (st : queue_state) : Int :=
  (st.queue.length : Int) - (st.waiting_threads : Int)

/-- One step of the two threads; `none` when the step is not enabled.

The reader (lines 94-139) checks `g_async_queue_length(..) >=
QC_MAX_READER_QUEUE` until it fails, pushes the next chunk, and sets
`is_readthread_finished` after the last one.

The worker (line 149) evaluates `g_async_queue_length(..) ||
!cs->is_readthread_finished` as two separate reads, the flag only when the
length was 0. `g_async_queue_timeout_pop` takes the oldest item if there is
one; on an empty queue it increments `waiting_threads` and blocks, and when the
thread runs again it decrements `waiting_threads` and takes the oldest item if
there is one by then, else returns NULL (GLib, `g_async_queue_pop_intern_unlocked`).
Every queue operation holds the queue's mutex, so each is one step. -/
def queue_step (st : queue_state) : queue_action → Option queue_state
  | .reader_check =>
    match st.reader, st.pending with
    | .checking, _ :: _ =>
      if g_async_queue_length st ≥ (QC_MAX_READER_QUEUE : Int) then some st
      else some { st with reader := .ready }
    | _, _ => none
  | .reader_push =>
    match st.reader, st.pending with
    | .ready, c :: rest =>
      some { st with pending := rest, queue := st.queue ++ [c], reader := .checking }
    | _, _ => none
  | .reader_finish =>
    match st.reader, st.pending with
    | .checking, [] => some { st with is_readthread_finished := true, reader := .finished }
    | _, _ => none
  | .worker_length =>
    match st.worker with
    | .at_length =>
      if g_async_queue_length st ≠ 0 then some { st with worker := .at_pop }
      else some { st with worker := .at_flag }
    | _ => none
  | .worker_flag =>
    match st.worker with
    | .at_flag =>
      if !st.is_readthread_finished then some { st with worker := .at_pop }
      else some { st with worker := .exited }
    | _ => none
  | .worker_pop =>
    match st.worker, st.queue with
    | .at_pop, c :: rest =>
      some { st with queue := rest, worker := .holding c, popped := st.popped ++ [c] }
    | .at_pop, [] =>
      some { st with waiting_threads := st.waiting_threads + 1, worker := .in_pop }
    | _, _ => none
  | .worker_wake =>
    match st.worker, st.queue with
    | .in_pop, c :: rest =>
      some { st with queue := rest, waiting_threads := st.waiting_threads - 1,
                     worker := .holding c, popped := st.popped ++ [c] }
    | .in_pop, [] =>
      some { st with waiting_threads := st.waiting_threads - 1, worker := .at_length }
    | _, _ => none
  | .worker_done =>
    match st.worker with
    | .holding _ => some { st with worker := .at_length }
    | _ => none

/-- A run of steps. -/
def queue_run : queue_state → List queue_action → Option queue_state
  | st, [] => some st
  | st, a :: as =>
    match queue_step st a with
    | none => none
    | some st' => queue_run st' as

/-- The pipeline when the two threads start: `g_async_queue_new()`, every flag
clear (`g_new0`), and `chunks` the chunks `reader_thr` is going to build. -/
def queue_init (chunks : List chunk) : queue_state :=
  { pending := chunks, queue := [], waiting_threads := 0, is_readthread_finished := false,
    reader := .checking, worker := .at_length, popped := [] }

/-- The invariant of the pipeline started on `chunks`: no chunk is lost or
reordered; `waiting_threads` counts the worker exactly while it is blocked in
its pop; the queue holds at most `QC_MAX_READER_QUEUE` items more than there
are waiting threads, and fewer while the reader is about to push; the flag is
set exactly when the reader has left its loop, with nothing left to push; and
the worker is past its loop only with the flag set. -/
def queue_inv (chunks : List chunk) (st : queue_state) : Prop :=
  st.popped ++ st.queue ++ st.pending = chunks ∧
  st.waiting_threads = (if st.worker = .in_pop then 1 else 0) ∧
  st.queue.length ≤ QC_MAX_READER_QUEUE + st.waiting_threads ∧
  (st.reader = .ready → st.queue.length < QC_MAX_READER_QUEUE + st.waiting_threads) ∧
  (st.is_readthread_finished = true ↔ st.reader = .finished) ∧
  (st.reader = .finished → st.pending = []) ∧
  (st.worker = .exited → st.is_readthread_finished = true)

/-- Where the server branch of `worker_thr` is. -/
inductive worker_pc where
  /-- At the top of its loop, before `g_async_queue_timeout_pop`. -/
  | idle
  /-- It has popped a chunk and not yet published it (quickchunk.c, line 153). -/
  | holding (c : chunk)
  /-- It has published and is in `while (!cs->server_one_chunk_finished)`. -/
  | waiting
deriving DecidableEq, Repr

/-- Where `on_incoming_connection` is. -/
inductive handler_pc where
  /-- The service is not started yet (`init_server` has not run). -/
  | not_started
  /-- In `while (!cs->server->update_current_finished)` (server.c, line 45). -/
  | waiting
  /-- It has captured a pair and runs the chunk dialogue (lines 56-224). -/
  | serving
  /-- It has left its loop (`break`) or the process was aborted. -/
  | stopped
deriving DecidableEq, Repr

/-- The shared rendezvous variables of `struct cs_server` and `struct cs_data`,
the two program positions, and counters kept for stating properties. -/
structure rendezvous_state where
  /-- The chunks still in the queue, in order. -/
  chunks : List chunk
  current_num : Int
  current_hash : XXH128_hash_t
  update_current_finished : Bool
  server_one_chunk_finished : Bool
  worker : worker_pc
  handler : handler_pc
  /-- The chunks the worker has popped, oldest first. -/
  popped : List chunk
  /-- The pairs the handler has captured, oldest first. -/
  captured : List (Int × XXH128_hash_t)
  /-- How often the worker has published a pair. -/
  published : Nat
  /-- How often the handler has set `server_one_chunk_finished`. -/
  finished : Nat
  /-- How often the worker has left its wait. -/
  released : Nat
deriving DecidableEq, Repr

/-- The steps of the two threads. -/
inductive rendezvous_action where
  /-- The worker pops the next chunk (quickchunk.c, line 151). -/
  | worker_pop
  /-- The worker publishes the chunk it holds (lines 155-160). -/
  | worker_publish
  /-- `init_server` starts the service and the handler thread (line 163). -/
  | handler_start
  /-- The worker leaves its wait and clears the flag (lines 166-172). -/
  | worker_release
  /-- The handler leaves its wait, clears the flag and captures the pair
  (server.c, lines 45-53). -/
  | handler_capture
  /-- The handler has sent the final "ACK" and sets `server_one_chunk_finished`
  (lines 226-229). -/
  | handler_finish
  /-- The handler leaves the loop by `break` or `g_error` (lines 56-224). -/
  | handler_stop
deriving DecidableEq, Repr

/-- One step of the interleaving; `none` when the step is not enabled. -/
def rendezvous_step (st : rendezvous_state) : rendezvous_action → Option rendezvous_state
  | .worker_pop =>
    match st.worker, st.chunks with
    | .idle, c :: rest =>
      some { st with chunks := rest, worker := .holding c, popped := st.popped ++ [c] }
    | _, _ => none
  | .worker_publish =>
    match st.worker with
    | .holding c =>
      some { st with current_num := c.num, current_hash := c.hash,
                     update_current_finished := true, worker := .waiting,
                     published := st.published + 1 }
    | _ => none
  | .handler_start =>
    match st.worker, st.handler with
    | .waiting, .not_started => some { st with handler := .waiting }
    | _, _ => none
  | .worker_release =>
    match st.worker with
    | .waiting =>
      if st.server_one_chunk_finished then
        some { st with server_one_chunk_finished := false, worker := .idle,
                       released := st.released + 1 }
      else none
    | _ => none
  | .handler_capture =>
    match st.handler with
    | .waiting =>
      if st.update_current_finished then
        some { st with update_current_finished := false, handler := .serving,
                       captured := st.captured ++ [(st.current_num, st.current_hash)] }
      else none
    | _ => none
  | .handler_finish =>
    match st.handler with
    | .serving =>
      some { st with server_one_chunk_finished := true, handler := .waiting,
                     finished := st.finished + 1 }
    | _ => none
  | .handler_stop =>
    match st.handler with
    | .serving => some { st with handler := .stopped }
    | _ => none

/-- A run of steps. -/
def rendezvous_run : rendezvous_state → List rendezvous_action → Option rendezvous_state
  | st, [] => some st
  | st, a :: as =>
    match rendezvous_step st a with
    | none => none
    | some st' => rendezvous_run st' as

/-- The receiver at start: the reader's chunks in the queue, every flag clear
(`g_new0`). -/
def rendezvous_init (chunks : List chunk) : rendezvous_state :=
  { chunks := chunks, current_num := 0, current_hash := ⟨0, 0⟩,
    update_current_finished := false, server_one_chunk_finished := false,
    worker := .idle, handler := .not_started, popped := [], captured := [],
    published := 0, finished := 0, released := 0 }

/-- The pair the worker publishes for a chunk. -/
def chunk.pair (c : chunk) : Int × XXH128_hash_t := (c.num, c.hash)

/-- The lockstep invariant of the rendezvous, by phase of the ping-pong
(`chunks0` is the queue content at start). -/
def lockstep (chunks0 : List chunk) (st : rendezvous_state) : Prop :=
  st.popped ++ st.chunks = chunks0 ∧ st.published ≤ st.popped.length ∧
  ((st.worker = .idle ∧ (st.handler = .not_started ∨ st.handler = .waiting) ∧
      st.update_current_finished = false ∧ st.server_one_chunk_finished = false ∧
      st.popped.map chunk.pair = st.captured ∧ st.published = st.popped.length ∧
      st.finished = st.published ∧ st.released = st.published) ∨
   (∃ c, st.worker = .holding c ∧ (st.handler = .not_started ∨ st.handler = .waiting) ∧
      st.update_current_finished = false ∧ st.server_one_chunk_finished = false ∧
      st.popped.map chunk.pair = st.captured ++ [c.pair] ∧
      st.published + 1 = st.popped.length ∧
      st.finished = st.published ∧ st.released = st.published) ∨
   (st.worker = .waiting ∧ (st.handler = .not_started ∨ st.handler = .waiting) ∧
      st.update_current_finished = true ∧ st.server_one_chunk_finished = false ∧
      st.popped.map chunk.pair = st.captured ++ [(st.current_num, st.current_hash)] ∧
      st.published = st.popped.length ∧
      st.finished + 1 = st.published ∧ st.released = st.finished) ∨
   (st.worker = .waiting ∧ (st.handler = .serving ∨ st.handler = .stopped) ∧
      st.update_current_finished = false ∧ st.server_one_chunk_finished = false ∧
      st.popped.map chunk.pair = st.captured ∧ st.published = st.popped.length ∧
      st.finished + 1 = st.published ∧ st.released = st.finished) ∨
   (st.worker = .waiting ∧ st.handler = .waiting ∧
      st.update_current_finished = false ∧ st.server_one_chunk_finished = true ∧
      st.popped.map chunk.pair = st.captured ∧ st.published = st.popped.length ∧
      st.finished = st.published ∧ st.released + 1 = st.finished))

/-- The rendezvous after one full cycle on the one-chunk queue of the example. -/
def sample_rendezvous : rendezvous_state :=
  { chunks := [], current_num := 1, current_hash := ⟨8, 3⟩,
    update_current_finished := false, server_one_chunk_finished := false,
    worker := .idle, handler := .waiting, popped := [sample_chunk_r],
    captured := [(1, ⟨8, 3⟩)], published := 1, finished := 1, released := 1 }

/-- The checks the handler makes on a chunk header with non-negative `num`. -/
def header_valid (current_num : Int) (c : chunk) : Prop :=
  c.num = current_num ∧ 1 ≤ c.size ∧ c.size ≤ QC_CHUNK_SIZE ∧
    ¬ (c.hash.low64 = 0 ∧ c.hash.high64 = 0)

/-- A 32-byte version field that differs from the NUL-padded "0.1" in the
byte after the first NUL. -/
def sample_version_field : List Nat := [48, 46, 49, 0, 88] ++ List.replicate 27 0

/-- The log `l` is that of a handler whose cursor stood at `start` before the
first record: every record carries the cursor value at its start, a write is
made at that value, and the cursor then advances by the record's `size`. -/
def log_ok : Nat → List served → Prop
  | _, [] => True
  | start, r :: l =>
    r.offset = start ∧ (∀ o d, r.written = some (o, d) → o = start) ∧
      log_ok (start + r.size) l

/-- The cursor invariant of the handler. -/
def offset_inv (st : server_state) : Prop :=
  log_ok 0 st.log ∧ st.offset = (st.log.map served.size).sum

/-- The schedule in which the worker finds the queue empty, blocks in its pop,
and does not run again while the reader checks and pushes 21 times. -/
def overfill_schedule : List queue_action :=
  [.worker_length, .worker_flag, .worker_pop] ++
    (List.replicate 21 [queue_action.reader_check, queue_action.reader_push]).flatten

/-- The chunks `worker_thr` has popped when it leaves its loop, in the run of
the pipeline on the reader's chunks `chunks` under the schedule `as`; `none`
when the schedule is not enabled step by step, or does not end with the
worker past its loop. -/
def worker_thr_popped (chunks : List chunk) (as : List queue_action) : Option (List chunk) :=
  match queue_run (queue_init chunks) as with
  | some st => if st.worker = .exited then some st.popped else none
  | none => none

/-- A session between a sender holding `sfile` and a receiver holding `rfile`
in which both processes run to their end without a fatal error, under the
thread schedules `sched_s` (sender) and `sched_r` (receiver). `cs` and `rs`
are the chunks the two workers have popped when they leave their loops. The
sender's `worker_thr` uploads every chunk of `cs` with result 0 and sends the
end-of-stream mark; `to_server` is what it has written and `to_client` what it
was given to read. The receiver's `worker_thr` leaves its wait for a chunk
only when the handler has finished that chunk, so the handler, run on
`to_server`, has served every pair published for `rs` and is back in its
wait; it has written `to_client`. -/
structure scheduled_session (ver : List Nat) (X : List Nat → XXH128_hash_t)
    (sfile rfile : List Nat) (sched_s sched_r : List queue_action) (cs rs : List chunk)
    (to_server to_client : List Nat) (R : server_result) : Prop where
  sender_popped : ∃ chunks, reader_thr X sfile = some chunks ∧
    worker_thr_popped chunks sched_s = some cs
  receiver_popped : ∃ chunks, reader_thr X rfile = some chunks ∧
    worker_thr_popped chunks sched_r = some rs
  sender : ∃ stc, worker_thr_client ver sfile.length cs (client_init to_client)
    = .returned 0 stc ∧ stc.output = to_server
  receiver : on_incoming_connection ver rfile.length (worker_thr_server rs)
    (server_init rfile to_server) = R
  served : ∃ st, R = .waiting st
  answered : R.state.output = to_client

/-- The schedule, for a file of two chunks, in which the worker deals with the
first chunk, reads the queue length 0 in its loop test before the reader has
pushed the second chunk, and reads `is_readthread_finished` after the reader
has pushed it and finished. -/
def early_exit_schedule : List queue_action :=
  [.reader_check, .reader_push, .worker_length, .worker_pop, .worker_done,
   .worker_length, .reader_check, .reader_push, .reader_finish, .worker_flag]

/-- The schedule, for a file of two chunks, in which the worker pops both. -/
def drain_schedule : List queue_action :=
  [.reader_check, .reader_push, .worker_length, .worker_pop, .worker_done,
   .reader_check, .reader_push, .reader_finish,
   .worker_length, .worker_pop, .worker_done, .worker_length, .worker_flag]

/-- A file of two chunks: `QC_CHUNK_SIZE` zero bytes, then the byte `b`. -/
def two_chunk_file (b : Nat) : List Nat := List.replicate QC_CHUNK_SIZE 0 ++ [b]

/-- The schedule, for a file of one chunk, in which the worker pops it. -/
def sample_schedule : List queue_action :=
  [.reader_check, .reader_push, .worker_length, .worker_pop, .worker_done, .reader_finish,
   .worker_length, .worker_flag]

/-! ## Lemmas and theorems -/

theorem fread_length (file : List Nat) (pos size : Nat) :
    (fread file pos size).length = min size (file.length - pos) := by
  simp [fread]

theorem QC_CHUNK_SIZE_eq : QC_CHUNK_SIZE = 200000000 := by
  unfold QC_CHUNK_SIZE; norm_num

theorem reader_chunk_size_of_lt {filesize pos : Nat} (hF : filesize < 2 ^ 63)
    (h : pos + QC_CHUNK_SIZE < filesize) :
    reader_chunk_size filesize pos = QC_CHUNK_SIZE := by
  unfold reader_chunk_size
  rw [Nat.mod_eq_of_lt (by omega), if_pos h]

theorem reader_chunk_size_of_ge {filesize pos : Nat} (hF : filesize < 2 ^ 63)
    (hp : pos ≤ filesize) (h : filesize ≤ pos + QC_CHUNK_SIZE) :
    reader_chunk_size filesize pos = filesize - pos := by
  unfold reader_chunk_size
  have hC := QC_CHUNK_SIZE_eq
  rw [Nat.mod_eq_of_lt (by omega), if_neg (by omega)]

theorem reader_chunk_size_bounds {filesize pos : Nat} (hF : filesize < 2 ^ 63)
    (hp : pos < filesize) :
    1 ≤ reader_chunk_size filesize pos ∧ reader_chunk_size filesize pos ≤ QC_CHUNK_SIZE ∧
      pos + reader_chunk_size filesize pos ≤ filesize := by
  by_cases h : pos + QC_CHUNK_SIZE < filesize
  · rw [reader_chunk_size_of_lt hF h]; have hC := QC_CHUNK_SIZE_eq; omega
  · rw [reader_chunk_size_of_ge hF (by omega) (by omega)]; omega

theorem chunk_count_zero : chunk_count 0 = 0 := by
  unfold chunk_count; rw [QC_CHUNK_SIZE_eq]

theorem chunk_count_step {filesize pos : Nat} (hF : filesize < 2 ^ 63)
    (hp : pos < filesize) :
    chunk_count (filesize - pos)
      = chunk_count (filesize - (pos + reader_chunk_size filesize pos)) + 1 := by
  by_cases h : pos + QC_CHUNK_SIZE < filesize
  · rw [reader_chunk_size_of_lt hF h]
    unfold chunk_count
    have : filesize - pos + QC_CHUNK_SIZE - 1
        = (filesize - (pos + QC_CHUNK_SIZE) + QC_CHUNK_SIZE - 1) + QC_CHUNK_SIZE := by
      have hC := QC_CHUNK_SIZE_eq; omega
    rw [this, Nat.add_div_right _ (by rw [QC_CHUNK_SIZE_eq]; norm_num)]
  · rw [reader_chunk_size_of_ge hF (by omega) (by omega)]
    have h0 : filesize - (pos + (filesize - pos)) = 0 := by omega
    rw [h0, chunk_count_zero]
    unfold chunk_count
    have hC := QC_CHUNK_SIZE_eq
    rw [hC] at h ⊢
    omega

theorem reader_loop_step (X : List Nat → XXH128_hash_t) (file : List Nat)
    (pos n : Nat) (hF : file.length < 2 ^ 63) (hp : pos < file.length) :
    reader_loop X file pos n
      = (reader_loop X file (pos + reader_chunk_size file.length pos)
          ((n + 1) % 2 ^ 64)).map (fun rest => chunk_at X file pos n :: rest) := by
  obtain ⟨h1, h2, h3⟩ := reader_chunk_size_bounds hF hp
  have hlen : (fread file pos (reader_chunk_size file.length pos)).length
      = reader_chunk_size file.length pos := by
    rw [fread_length]; omega
  rw [reader_loop]
  simp only [hp, dite_true, hlen, ne_eq, not_true_eq_false, dite_false, get_hash128]
  rw [if_pos (by omega)]
  cases reader_loop X file (pos + reader_chunk_size file.length pos) ((n + 1) % 2 ^ 64) <;>
    simp [chunk_at]

theorem reader_loop_done (X : List Nat → XXH128_hash_t) (file : List Nat)
    (pos n : Nat) (hp : file.length ≤ pos) :
    reader_loop X file pos n = some [] := by
  rw [reader_loop]
  simp [Nat.not_lt.mpr hp]

theorem chunks_from_succ (X : List Nat → XXH128_hash_t) (file : List Nat) (q pos n : Nat) :
    chunks_from X file (q + 1) pos n
      = chunk_at X file pos n ::
        chunks_from X file q (pos + reader_chunk_size file.length pos) ((n + 1) % 2 ^ 64) := by
  simp only [chunks_from]

theorem reader_loop_eq (X : List Nat → XXH128_hash_t) (file : List Nat)
    (hF : file.length < 2 ^ 63) :
    ∀ (k pos n : Nat), file.length - pos = k → pos ≤ file.length →
      reader_loop X file pos n
        = some (chunks_from X file (chunk_count (file.length - pos)) pos n) := by
  intro k
  induction k using Nat.strong_induction_on with
  | _ k ih =>
    intro pos n hk hp
    by_cases hlt : pos < file.length
    · obtain ⟨h1, h2, h3⟩ := reader_chunk_size_bounds hF hlt
      have hm : file.length - (pos + reader_chunk_size file.length pos) < k := by omega
      have := ih _ hm (pos + reader_chunk_size file.length pos) ((n + 1) % 2 ^ 64) rfl h3
      have e := chunk_count_step hF hlt
      rw [reader_loop_step X file pos n hF hlt]
      rw [this]
      rw [e, chunks_from_succ, Option.map_some']
    · have h0 : chunk_count (file.length - pos) = 0 := by
        have : file.length - pos = 0 := by omega
        rw [this]; exact chunk_count_zero
      rw [reader_loop_done X file pos n (by omega)]
      rw [h0]
      simp only [chunks_from]

theorem chunk_count_eq (len : Nat) : chunk_count len = (len + 200000000 - 1) / 200000000 := by
  unfold chunk_count; rw [QC_CHUNK_SIZE_eq]

theorem chunks_from_length (X : List Nat → XXH128_hash_t) (file : List Nat) :
    ∀ (q pos n : Nat), (chunks_from X file q pos n).length = q := by
  intro q
  induction q with
  | zero => intro pos n; simp only [chunks_from, List.length_nil]
  | succ q ih => intro pos n; rw [chunks_from_succ, List.length_cons, ih]

theorem chunk_at_size (X : List Nat → XXH128_hash_t) (file : List Nat) (pos n : Nat) :
    (chunk_at X file pos n).size = reader_chunk_size file.length pos := by
  simp only [chunk_at]

/-- The sizes of the chunks of the unrolled loop: full chunks, then the rest
of the file. -/
theorem chunks_from_sizes (X : List Nat → XXH128_hash_t) (file : List Nat)
    (hF : file.length < 2 ^ 63) :
    ∀ (q pos n : Nat), pos < file.length → chunk_count (file.length - pos) = q + 1 →
      (chunks_from X file (q + 1) pos n).map chunk.size
        = List.replicate q QC_CHUNK_SIZE ++ [file.length - pos - q * QC_CHUNK_SIZE] := by
  intro q
  induction q with
  | zero =>
    intro pos n hp hq
    have hC := QC_CHUNK_SIZE_eq
    rw [chunk_count_eq] at hq
    have hge : file.length ≤ pos + QC_CHUNK_SIZE := by omega
    rw [chunks_from_succ]
    simp only [chunks_from, List.map_cons, List.map_nil, chunk_at_size, List.replicate_zero,
      List.nil_append, Nat.zero_mul, Nat.sub_zero]
    rw [reader_chunk_size_of_ge hF (by omega) hge]
  | succ q ih =>
    intro pos n hp hq
    have hC := QC_CHUNK_SIZE_eq
    have hstep := chunk_count_step hF hp
    rw [chunk_count_eq] at hq
    have hlt : pos + QC_CHUNK_SIZE < file.length := by omega
    have hsz := reader_chunk_size_of_lt hF hlt
    rw [hsz] at hstep
    have hq' : chunk_count (file.length - (pos + QC_CHUNK_SIZE)) = q + 1 := by
      rw [chunk_count_eq] at hstep ⊢; omega
    have harith : file.length - (pos + QC_CHUNK_SIZE) - q * QC_CHUNK_SIZE
        = file.length - pos - (q + 1) * QC_CHUNK_SIZE := by
      rw [hC]; omega
    rw [chunks_from_succ, List.map_cons, chunk_at_size, hsz,
      ih (pos + QC_CHUNK_SIZE) ((n + 1) % 2 ^ 64) hlt hq', List.replicate_succ, List.cons_append,
      harith]

theorem chunk_count_pos (len : Nat) (h : 0 < len) : ∃ q, chunk_count len = q + 1 := by
  refine ⟨chunk_count len - 1, ?_⟩
  have := chunk_count_eq len
  omega

theorem reader_thr_eq (X : List Nat → XXH128_hash_t) (file : List Nat)
    (hF : file.length < 2 ^ 63) :
    reader_thr X file = some (chunks_from X file (chunk_count file.length) 0 0) := by
  unfold reader_thr
  have h := reader_loop_eq X file hF file.length 0 0 (Nat.sub_zero _) (Nat.zero_le _)
  rw [Nat.sub_zero] at h
  exact h

/-- C4. For every file whose length a `long` can hold, `reader_thr` returns
(no `g_error`), having pushed exactly `ceil(F / QC_CHUNK_SIZE)` chunks; every
chunk has `1 ≤ size ≤ QC_CHUNK_SIZE`, every chunk but the last has size
`QC_CHUNK_SIZE`, and the sizes sum to the file size `F`. `F = QC_CHUNK_SIZE`
gives one chunk of that size, `F = QC_CHUNK_SIZE + 1` gives sizes
`QC_CHUNK_SIZE` and `1`, and `F = m * QC_CHUNK_SIZE - 1` gives a last chunk of
size `QC_CHUNK_SIZE - 1`. -/
theorem reader_thr_chunk_sizes (XXH3_128bits : List Nat → XXH128_hash_t) (file : List Nat)
    (hF : file.length < 2 ^ 63) :
    ∃ chunks, reader_thr XXH3_128bits file = some chunks ∧
      chunks.length = (file.length + QC_CHUNK_SIZE - 1) / QC_CHUNK_SIZE ∧
      (∀ c ∈ chunks, 1 ≤ c.size ∧ c.size ≤ QC_CHUNK_SIZE) ∧
      (∀ i, i + 1 < chunks.length → (chunks.map chunk.size)[i]? = some QC_CHUNK_SIZE) ∧
      (chunks.map chunk.size).sum = file.length ∧
      (file.length = QC_CHUNK_SIZE → chunks.map chunk.size = [QC_CHUNK_SIZE]) ∧
      (file.length = QC_CHUNK_SIZE + 1 → chunks.map chunk.size = [QC_CHUNK_SIZE, 1]) ∧
      (∀ m, 1 ≤ m → file.length = m * QC_CHUNK_SIZE - 1 →
        (chunks.map chunk.size).getLast? = some (QC_CHUNK_SIZE - 1) ∧
          QC_CHUNK_SIZE - 1 < QC_CHUNK_SIZE) := by
  refine ⟨_, reader_thr_eq XXH3_128bits file hF, ?_⟩
  have hC := QC_CHUNK_SIZE_eq
  have hcc := chunk_count_eq file.length
  rcases Nat.eq_zero_or_pos file.length with h0 | hpos
  · rw [h0, chunk_count_zero]
    simp only [chunks_from, List.length_nil, List.map_nil, List.sum_nil]
    refine ⟨?_, ?_, ?_, ?_, ?_, ?_, ?_⟩
    · rw [hC]
    · intro c hc; cases hc
    · intro i hi; omega
    · trivial
    · intro h; omega
    · intro h; omega
    · intro m hm h
      rw [hC] at h; omega
  · obtain ⟨q, hq⟩ := chunk_count_pos _ hpos
    have hs := chunks_from_sizes XXH3_128bits file hF q 0 0 hpos (by simpa using hq)
    rw [Nat.sub_zero] at hs
    rw [hq]
    have hlo : q * 200000000 + 1 ≤ file.length := by omega
    have hhi : file.length ≤ (q + 1) * 200000000 := by omega
    refine ⟨?_, ?_, ?_, ?_, ?_, ?_, ?_⟩
    · rw [chunks_from_length, hC]; omega
    · intro c hc
      have hm : c.size ∈ (chunks_from XXH3_128bits file (q + 1) 0 0).map chunk.size :=
        List.mem_map_of_mem _ hc
      rw [hs, List.mem_append] at hm
      rcases hm with hm | hm
      · rw [List.eq_of_mem_replicate hm, hC]; omega
      · rw [List.mem_singleton] at hm
        rw [hm, hC]; omega
    · intro i hi
      rw [chunks_from_length] at hi
      rw [hs, List.getElem?_append_left (by simpa using (by omega : i < q)),
        List.getElem?_replicate, if_pos (by omega)]
    · rw [hs, List.sum_append, List.sum_replicate, List.sum_singleton, smul_eq_mul, hC]
      omega
    · intro h
      have hq0 : q = 0 := by omega
      rw [hs, hq0, List.replicate_zero, List.nil_append, Nat.zero_mul, Nat.sub_zero, h]
    · intro h
      have hq1 : q = 1 := by omega
      rw [hs, hq1, h, hC]
      rfl
    · intro m hm h
      rw [hC] at h
      refine ⟨?_, by rw [hC]; omega⟩
      have hl : file.length - q * 200000000 = 200000000 - 1 := by omega
      rw [hs, List.getLast?_concat, hC, hl]

theorem reader_thr_chunk_sizes_witness :
    (List.replicate (QC_CHUNK_SIZE + 1) 0).length < 2 ^ 63 ∧
    ∃ chunks, reader_thr sample_hash (List.replicate (QC_CHUNK_SIZE + 1) 0) = some chunks ∧
      chunks.map chunk.size = [QC_CHUNK_SIZE, 1] :=
  have hlen : (List.replicate (QC_CHUNK_SIZE + 1) 0).length = QC_CHUNK_SIZE + 1 :=
    List.length_replicate _ _
  have hF : (List.replicate (QC_CHUNK_SIZE + 1) 0).length < 2 ^ 63 := by
    rw [hlen, QC_CHUNK_SIZE_eq]; decide
  ⟨hF, (reader_thr_chunk_sizes sample_hash (List.replicate (QC_CHUNK_SIZE + 1) 0) hF).imp
    fun _ h => ⟨h.1, h.2.2.2.2.2.2.1 hlen⟩⟩

theorem toLE_length : ∀ (w v : Nat), (toLE w v).length = w := by
  intro w
  induction w with
  | zero => intro v; simp only [toLE, List.length_nil]
  | succ w ih => intro v; simp only [toLE, List.length_cons, ih]

theorem ofLE_toLE : ∀ (w v : Nat), ofLE (toLE w v) = v % 256 ^ w := by
  intro w
  induction w with
  | zero => intro v; simp only [toLE, ofLE, pow_zero, Nat.mod_one]
  | succ w ih =>
    intro v
    simp only [toLE, ofLE, ih]
    rw [pow_succ, Nat.mul_comm (256 ^ w) 256, Nat.mod_mul]

theorem bytes_u64_length (v : Nat) : (bytes_u64 v).length = 8 := toLE_length 8 _

theorem bytes_i64_length (v : Int) : (bytes_i64 v).length = 8 := toLE_length 8 _

theorem bytes_hash_length (h : XXH128_hash_t) : (bytes_hash h).length = 16 := by
  simp only [bytes_hash, List.length_append, bytes_u64_length]

theorem pow_256_8 : 256 ^ 8 = 2 ^ 64 := by norm_num

theorem ofLE_bytes_u64 (v : Nat) : ofLE (bytes_u64 v) = v % 2 ^ 64 := by
  unfold bytes_u64
  rw [ofLE_toLE, pow_256_8, Nat.mod_mod]

theorem ofLE_bytes_u64_of_lt {v : Nat} (h : v < 2 ^ 64) : ofLE (bytes_u64 v) = v := by
  rw [ofLE_bytes_u64, Nat.mod_eq_of_lt h]

theorem i64_of_bytes_bytes_i64 {v : Int} (hlo : -2 ^ 63 ≤ v) (hhi : v < 2 ^ 63) :
    i64_of_bytes (bytes_i64 v) = v := by
  unfold i64_of_bytes bytes_i64 i64_of_u64
  rw [ofLE_toLE, pow_256_8]
  have hnn : 0 ≤ v % 2 ^ 64 := Int.emod_nonneg _ (by norm_num)
  have hlt : v % 2 ^ 64 < 2 ^ 64 := Int.emod_lt_of_pos _ (by norm_num)
  have hcast : (((v % 2 ^ 64).toNat : Nat) : Int) = v % 2 ^ 64 := Int.toNat_of_nonneg hnn
  have hnat : (v % 2 ^ 64).toNat < 2 ^ 64 := by
    have : (((v % 2 ^ 64).toNat : Nat) : Int) < ((2 ^ 64 : Nat) : Int) := by
      rw [hcast]; exact_mod_cast hlt
    exact_mod_cast this
  rw [Nat.mod_eq_of_lt hnat]
  by_cases hv : 0 ≤ v
  · have e : v % 2 ^ 64 = v := Int.emod_eq_of_lt hv (by omega)
    have hn : (v % 2 ^ 64).toNat < 2 ^ 63 := by
      have : (((v % 2 ^ 64).toNat : Nat) : Int) < ((2 ^ 63 : Nat) : Int) := by
        rw [hcast, e]; exact_mod_cast hhi
      exact_mod_cast this
    rw [if_pos hn, hcast, e]
  · have e : v % 2 ^ 64 = v + 2 ^ 64 := by
      have h1 : (v + 2 ^ 64) % 2 ^ 64 = v % 2 ^ 64 := Int.add_emod_self
      rw [← h1]
      exact Int.emod_eq_of_lt (by omega) (by omega)
    have hn : ¬ (v % 2 ^ 64).toNat < 2 ^ 63 := by
      intro hc
      have : (((v % 2 ^ 64).toNat : Nat) : Int) < ((2 ^ 63 : Nat) : Int) := by exact_mod_cast hc
      rw [hcast, e] at this
      have h63 : ((2 ^ 63 : Nat) : Int) = 2 ^ 63 := by norm_num
      rw [h63] at this
      omega
    rw [if_neg hn, hcast, e]
    omega

theorem hash_of_bytes_bytes_hash {h : XXH128_hash_t} (hl : h.low64 < 2 ^ 64)
    (hh : h.high64 < 2 ^ 64) : hash_of_bytes (bytes_hash h) = h := by
  unfold hash_of_bytes bytes_hash
  rw [List.take_left' (bytes_u64_length _), List.drop_left' (bytes_u64_length _),
    ofLE_bytes_u64_of_lt hl, ofLE_bytes_u64_of_lt hh]

theorem read_all_append {n : Nat} {l : List Nat} (r : List Nat) (h : l.length = n) :
    read_all n (l ++ r) = some (l, r) := by
  unfold read_all
  rw [if_neg (by rw [List.length_append]; omega), List.take_left' h, List.drop_left' h]

theorem read_all_eq_some {n : Nat} {input l r : List Nat} (h : read_all n input = some (l, r)) :
    input = l ++ r ∧ l.length = n := by
  unfold read_all at h
  split at h
  · cases h
  · rename_i hlen
    simp only [Option.some.injEq, Prod.mk.injEq] at h
    obtain ⟨h1, h2⟩ := h
    subst h1 h2
    exact ⟨(List.take_append_drop n input).symm, by rw [List.length_take]; omega⟩

/-- On a literal without NUL bytes, `strcmp` reports equality exactly when
the other string is the literal followed by a NUL, or is the literal and ends
there. -/
theorem strcmp_eq_iff : ∀ (v : List Nat), (∀ b ∈ v, b ≠ 0) → ∀ (field : List Nat),
    strcmp_eq field v = true ↔ (∃ r, field = v ++ 0 :: r) ∨ field = v := by
  intro v
  induction v with
  | nil =>
    intro _ field
    cases field with
    | nil => simp [strcmp_eq]
    | cons a as => simp [strcmp_eq]
  | cons b v ih =>
    intro hv field
    have hb : b ≠ 0 := hv b (List.mem_cons_self _ _)
    have hv' : ∀ x ∈ v, x ≠ 0 := fun x hx => hv x (List.mem_cons_of_mem _ hx)
    cases field with
    | nil => simp [strcmp_eq, hb]
    | cons a as =>
      by_cases hab : a = b
      · subst hab
        simp [strcmp_eq, hb, ih hv' as]
      · simp [strcmp_eq, hab]

theorem strcmp_eq_same_length (v field : List Nat) (hv : ∀ b ∈ v, b ≠ 0)
    (hlen : field.length = v.length) : strcmp_eq field v = true ↔ field = v := by
  rw [strcmp_eq_iff v hv]
  constructor
  · rintro (⟨r, h⟩ | h)
    · rw [h, List.length_append, List.length_cons] at hlen; omega
    · exact h
  · intro h; exact Or.inr h

theorem response_bytes_length (r : QCResponse) : (response_bytes r).length = 3 := by
  cases r <;> rfl

theorem response_bytes_injective {r r' : QCResponse}
    (h : response_bytes r = response_bytes r') : r = r' := by
  cases r <;> cases r' <;> first | rfl | (exact absurd h (by decide))

theorem wait_and_get_response_append (resp : QCResponse) (rest : List Nat) :
    wait_and_get_response (response_bytes resp ++ rest) = some (resp, rest) := by
  unfold wait_and_get_response
  rw [read_all_append (n := QC_ACK_MESSAGE.length) rest (response_bytes_length resp)]
  cases resp
  · simp only [response_bytes]
    rw [if_pos (by decide)]
  · simp only [response_bytes]
    rw [if_neg (by decide), if_pos (by decide)]
  · simp only [response_bytes]
    rw [if_neg (by decide), if_neg (by decide), if_pos (by decide)]

theorem wait_and_get_response_eq_some {input rest : List Nat} {resp : QCResponse}
    (h : wait_and_get_response input = some (resp, rest)) :
    input = response_bytes resp ++ rest := by
  unfold wait_and_get_response at h
  cases hr : read_all QC_ACK_MESSAGE.length input with
  | none => rw [hr] at h; cases h
  | some p =>
    obtain ⟨msg, r⟩ := p
    rw [hr] at h
    obtain ⟨hin, hlen⟩ := read_all_eq_some hr
    have hA := strcmp_eq_same_length QC_ACK_MESSAGE msg (by decide) hlen
    have hN := strcmp_eq_same_length QC_NOK_MESSAGE msg (by decide) hlen
    have hE := strcmp_eq_same_length QC_EQL_MESSAGE msg (by decide) hlen
    simp only at h
    split at h
    · rename_i hc
      simp only [Option.some.injEq, Prod.mk.injEq] at h
      rw [hin, ← h.1, ← h.2, hA.mp hc]; rfl
    · split at h
      · rename_i hc
        simp only [Option.some.injEq, Prod.mk.injEq] at h
        rw [hin, ← h.1, ← h.2, hN.mp hc]; rfl
      · split at h
        · rename_i hc
          simp only [Option.some.injEq, Prod.mk.injEq] at h
          rw [hin, ← h.1, ← h.2, hE.mp hc]; rfl
        · cases h

theorem version_str_eq {v : List Nat} (hlen : v.length < VERSION_LENGTH) :
    version_str v = v ++ 0 :: List.replicate (VERSION_LENGTH - v.length - 1) 0 := by
  unfold version_str
  have : VERSION_LENGTH - v.length = (VERSION_LENGTH - v.length - 1) + 1 := by omega
  rw [this, List.replicate_succ]
  simp

theorem version_str_length {v : List Nat} (hlen : v.length ≤ VERSION_LENGTH) :
    (version_str v).length = VERSION_LENGTH := by
  unfold version_str
  rw [List.length_append, List.length_replicate]; omega

theorem strcmp_eq_version_str {v : List Nat} (hv : ∀ b ∈ v, b ≠ 0)
    (hlen : v.length < VERSION_LENGTH) : strcmp_eq (version_str v) v = true := by
  rw [strcmp_eq_iff v hv, version_str_eq hlen]
  exact Or.inl ⟨_, rfl⟩

/-- `client_check_and_upload` on a connected client, with the writes
collected: the preamble (if due) and the header are written, then the first
response decides. -/
theorem client_check_and_upload_connected (ver : List Nat) (filesize : Nat)
    (st : client_state) (c : chunk) (hc : st.connected = true) :
    client_check_and_upload ver filesize st c =
      match wait_and_get_response st.input with
      | none => .aborted (header_sent ver filesize st c)
      | some (resp, rest) =>
        if resp = .QC_RESPONSE_NOK then
          .returned (-1) { header_sent ver filesize st c with input := rest }
        else
          match wait_and_get_response rest with
          | none => .aborted (payload_sent ver filesize st c resp rest)
          | some (resp2, rest2) =>
            if resp2 ≠ .QC_RESPONSE_ACK then
              .returned (-1) { payload_sent ver filesize st c resp rest with input := rest2 }
            else .returned 0 { payload_sent ver filesize st c resp rest with input := rest2 } := by
  obtain ⟨connected, misc_sent, input, output⟩ := st
  simp only at hc
  subst hc
  cases misc_sent
  · unfold client_check_and_upload
    simp only [send_data, Bool.not_false, Bool.not_true, if_true, bne_self_eq_false,
      Bool.false_eq_true, if_false, header_sent, payload_sent, payload_bytes, preamble_bytes,
      header_bytes, List.append_assoc, List.append_nil]
    cases wait_and_get_response input with
    | none => rfl
    | some p =>
      obtain ⟨resp, rest⟩ := p
      cases resp
      · simp only [reduceCtorEq, if_false, bne_self_eq_false, Bool.false_eq_true,
          List.append_assoc]
      · simp only [if_true]
      · simp only [reduceCtorEq, if_false, if_true, bne_self_eq_false, Bool.false_eq_true,
          List.append_nil]
  · unfold client_check_and_upload
    simp only [send_data, Bool.not_false, Bool.not_true, if_true, bne_self_eq_false,
      Bool.false_eq_true, if_false, header_sent, payload_sent, payload_bytes, preamble_bytes,
      header_bytes, List.append_assoc, List.append_nil]
    cases wait_and_get_response input with
    | none => rfl
    | some p =>
      obtain ⟨resp, rest⟩ := p
      cases resp
      · simp only [reduceCtorEq, if_false, bne_self_eq_false, Bool.false_eq_true,
          List.append_assoc]
      · simp only [if_true]
      · simp only [reduceCtorEq, if_false, if_true, bne_self_eq_false, Bool.false_eq_true,
          List.append_nil]

theorem header_bytes_length (c : chunk) : (header_bytes c).length = 32 := by
  simp only [header_bytes, List.length_append, bytes_i64_length, bytes_u64_length,
    bytes_hash_length]

/-- A successful `client_check_and_upload`: the input began with a first
response other than "NOK" and then "ACK"; the output grew by the preamble (if
due), the header, and the payload iff the first response was "ACK". -/
theorem client_check_and_upload_returned_zero {ver : List Nat} {filesize : Nat}
    {st st' : client_state} {c : chunk} (hc : st.connected = true)
    (h : client_check_and_upload ver filesize st c = .returned 0 st') :
    ∃ resp, resp ≠ .QC_RESPONSE_NOK ∧
      st.input = response_bytes resp ++ (QC_ACK_MESSAGE ++ st'.input) ∧
      st'.connected = true ∧ st'.misc_sent = true ∧
      st'.output = st.output ++ preamble_bytes ver filesize st.misc_sent ++ header_bytes c
        ++ payload_bytes resp c := by
  rw [client_check_and_upload_connected ver filesize st c hc] at h
  cases h1 : wait_and_get_response st.input with
  | none => rw [h1] at h; cases h
  | some p =>
    obtain ⟨resp, rest⟩ := p
    rw [h1] at h
    simp only at h
    by_cases hn : resp = .QC_RESPONSE_NOK
    · rw [if_pos hn] at h
      simp only [client_result.returned.injEq] at h
      exact absurd h.1 (by decide)
    · rw [if_neg hn] at h
      cases h2 : wait_and_get_response rest with
      | none => rw [h2] at h; cases h
      | some p2 =>
        obtain ⟨resp2, rest2⟩ := p2
        rw [h2] at h
        simp only at h
        by_cases ha : resp2 = .QC_RESPONSE_ACK
        · rw [if_neg (by simpa using ha)] at h
          simp only [client_result.returned.injEq, true_and] at h
          subst h
          subst ha
          have e1 := wait_and_get_response_eq_some h1
          have e2 := wait_and_get_response_eq_some h2
          refine ⟨resp, hn, ?_, ?_, ?_, ?_⟩
          · rw [e1, e2]; rfl
          · simpa [payload_sent, header_sent] using hc
          · simp [payload_sent, header_sent]
          · simp [payload_sent, header_sent]
        · rw [if_pos ha] at h
          simp only [client_result.returned.injEq] at h
          exact absurd h.1 (by decide)

theorem header_sent_output (ver : List Nat) (filesize : Nat) (st : client_state) (c : chunk) :
    (header_sent ver filesize st c).output
      = st.output ++ (preamble_bytes ver filesize st.misc_sent ++ header_bytes c) := by
  simp only [header_sent, List.append_assoc]

theorem payload_sent_output (ver : List Nat) (filesize : Nat) (st : client_state) (c : chunk)
    (resp : QCResponse) (rest : List Nat) :
    (payload_sent ver filesize st c resp rest).output
      = st.output ++ (preamble_bytes ver filesize st.misc_sent ++ header_bytes c
          ++ payload_bytes resp c) := by
  simp only [payload_sent, header_sent, List.append_assoc]

/-- Whatever `client_check_and_upload` does on a connected client, bytes
already written stay written. -/
theorem client_check_and_upload_output (ver : List Nat) (filesize : Nat)
    (st : client_state) (c : chunk) (hc : st.connected = true) :
    ∃ w, (client_check_and_upload ver filesize st c).state.output = st.output ++ w := by
  rw [client_check_and_upload_connected ver filesize st c hc]
  cases wait_and_get_response st.input with
  | none => exact ⟨_, header_sent_output ver filesize st c⟩
  | some p =>
    obtain ⟨resp, rest⟩ := p
    simp only
    split
    · exact ⟨_, header_sent_output ver filesize st c⟩
    · cases wait_and_get_response rest with
      | none => exact ⟨_, payload_sent_output ver filesize st c resp rest⟩
      | some p2 =>
        obtain ⟨resp2, rest2⟩ := p2
        simp only
        split
        · exact ⟨_, payload_sent_output ver filesize st c resp rest⟩
        · exact ⟨_, payload_sent_output ver filesize st c resp rest⟩

theorem init_client_connected (st : client_state) : (init_client st).connected = true := by
  unfold init_client
  cases h : st.connected <;> simp [h]

theorem init_client_of_connected {st : client_state} (h : st.connected = true) :
    init_client st = st := by
  unfold init_client
  simp [h]

theorem init_client_fields (st : client_state) :
    (init_client st).input = st.input ∧ (init_client st).output = st.output ∧
      (init_client st).misc_sent = st.misc_sent := by
  unfold init_client
  cases h : st.connected <;> simp [h]

/-- Bytes the sender has written stay written through `worker_thr`. -/
theorem worker_thr_client_output (ver : List Nat) (filesize : Nat) :
    ∀ (cs : List chunk) (st : client_state),
      ∃ w, (worker_thr_client ver filesize cs st).state.output = st.output ++ w := by
  intro cs
  induction cs with
  | nil =>
    intro st
    unfold worker_thr_client client_send_exit
    by_cases h : st.connected = true
    · rw [if_pos h]; exact ⟨_, rfl⟩
    · rw [if_neg h]; exact ⟨[], by simp [client_result.state]⟩
  | cons c cs ih =>
    intro st
    obtain ⟨w, hw⟩ := client_check_and_upload_output ver filesize (init_client st) c
      (init_client_connected st)
    rw [(init_client_fields st).2.1] at hw
    unfold worker_thr_client
    cases hr : client_check_and_upload ver filesize (init_client st) c with
    | aborted st1 =>
      rw [hr] at hw
      exact ⟨w, hw⟩
    | returned ret st1 =>
      rw [hr] at hw
      simp only
      split
      · exact ⟨w, hw⟩
      · obtain ⟨w', hw'⟩ := ih st1
        refine ⟨w ++ w', ?_⟩
        rw [hw']
        simp only [client_result.state] at hw
        rw [hw, List.append_assoc]

theorem server_preamble_received {ver : List Nat} {filesize : Nat} {st : server_state}
    (h : st.misc_received = true) : server_preamble ver filesize st = some st := by
  unfold server_preamble
  simp [h]

/-- The preamble block on the bytes a sender with version `ver` and file size
`remote` writes: accepted iff the file sizes agree. -/
theorem server_preamble_of_input {ver : List Nat} {remote filesize : Nat} {st : server_state}
    {X : List Nat} (hv : ∀ b ∈ ver, b ≠ 0) (hlen : ver.length < VERSION_LENGTH)
    (hm : st.misc_received = false)
    (hin : st.input = version_str ver ++ bytes_u64 remote ++ X) :
    server_preamble ver filesize st =
      if remote % 2 ^ 64 ≠ filesize then none
      else some { st with input := X, misc_received := true } := by
  unfold server_preamble
  rw [hm, hin, List.append_assoc,
    read_all_append _ (version_str_length (Nat.le_of_lt hlen))]
  simp only [Bool.not_false, if_true, strcmp_eq_version_str hv hlen, Bool.not_true,
    Bool.false_eq_true, if_false]
  rw [read_all_append _ (bytes_u64_length remote)]
  simp only [ofLE_bytes_u64]

/-- Reading the header a sender writes for a well-formed chunk. -/
theorem server_header_of_input (current_num : Int) {c : chunk} (hwf : c.wf) (X : List Nat) :
    server_header current_num (header_bytes c ++ X) =
      if c.num < 0 then .eot (bytes_u64 c.size ++ (bytes_hash c.hash ++ X))
      else if c.num ≠ current_num then .error
      else if c.size ≤ 0 ∨ c.size > QC_CHUNK_SIZE then .error
      else if c.hash.low64 = 0 ∧ c.hash.high64 = 0 then .error
      else .header c.num c.size c.hash X := by
  unfold server_header header_bytes
  rw [List.append_assoc, List.append_assoc, read_all_append _ (bytes_i64_length c.num)]
  simp only [i64_of_bytes_bytes_i64 hwf.num_lo hwf.num_hi]
  split
  · rfl
  · split
    · rfl
    · rw [read_all_append _ (bytes_u64_length c.size)]
      simp only [ofLE_bytes_u64_of_lt hwf.size_lt]
      split
      · rfl
      · rw [read_all_append _ (bytes_hash_length c.hash)]
        simp only [hash_of_bytes_bytes_hash hwf.low_lt hwf.high_lt]

theorem server_serve_output {cur hash : XXH128_hash_t} {num : Int} {size : Nat}
    {st st2 : server_state} (h : server_serve cur num size hash st = some st2) :
    st2.output = st.output ++ ((if are_hashes_equal cur hash then QC_EQL_MESSAGE
      else QC_ACK_MESSAGE) ++ QC_ACK_MESSAGE) := by
  unfold server_serve at h
  split at h
  · rename_i he
    simp only [Option.some.injEq] at h
    rw [← h, if_pos he, List.append_assoc]
  · rename_i he
    cases hr : read_all size st.input with
    | none => rw [hr] at h; cases h
    | some p =>
      rw [hr] at h
      simp only [Option.some.injEq] at h
      rw [← h, if_neg he, List.append_assoc]

/-- Bytes the handler has written stay written. -/
theorem on_incoming_connection_output (ver : List Nat) (filesize : Nat) :
    ∀ (pairs : List (Int × XXH128_hash_t)) (st : server_state),
      ∃ w, (on_incoming_connection ver filesize pairs st).state.output = st.output ++ w := by
  intro pairs
  induction pairs with
  | nil => intro st; exact ⟨[], by simp [on_incoming_connection, server_result.state]⟩
  | cons p pairs ih =>
    intro st
    obtain ⟨current_num, current_hash⟩ := p
    unfold on_incoming_connection
    cases hp : server_preamble ver filesize st with
    | none => exact ⟨[], by simp [server_result.state]⟩
    | some st1 =>
      have ho : st1.output = st.output := by
        unfold server_preamble at hp
        split at hp
        · cases hr : read_all VERSION_LENGTH st.input with
          | none => rw [hr] at hp; cases hp
          | some q =>
            rw [hr] at hp
            simp only at hp
            split at hp
            · cases hp
            · cases hr2 : read_all 8 q.2 with
              | none => rw [hr2] at hp; cases hp
              | some q2 =>
                rw [hr2] at hp
                simp only at hp
                split at hp
                · cases hp
                · simp only [Option.some.injEq] at hp
                  rw [← hp]
        · simp only [Option.some.injEq] at hp
          rw [hp]
      simp only
      cases hh : server_header current_num st1.input with
      | error => exact ⟨[], by simp [server_result.state, ho]⟩
      | eot rest => exact ⟨[], by simp [server_result.state, ho]⟩
      | header num size hash rest =>
        simp only
        cases hs : server_serve current_hash num size hash { st1 with input := rest } with
        | none => exact ⟨QC_ACK_MESSAGE, by simp [server_result.state, ho]⟩
        | some st2 =>
          simp only
          obtain ⟨w, hw⟩ := ih st2
          have h2 := server_serve_output hs
          simp only at h2
          refine ⟨((if are_hashes_equal current_hash hash then QC_EQL_MESSAGE
            else QC_ACK_MESSAGE) ++ QC_ACK_MESSAGE) ++ w, ?_⟩
          rw [hw, h2, ho, List.append_assoc]

/-- One pass of the handler's loop on the bytes a sender writes for a
well-formed chunk `c`: the preamble (if due) with file size `remote`, the
header of `c`, then `Z`. -/
theorem on_incoming_connection_of_input {ver : List Nat} (remote filesize : Nat)
    (hv : ∀ b ∈ ver, b ≠ 0) (hlen : ver.length < VERSION_LENGTH)
    {c : chunk} (hwf : c.wf) (current_num : Int) (current_hash : XXH128_hash_t)
    (pairs : List (Int × XXH128_hash_t)) {st : server_state} {Z : List Nat}
    (hin : st.input = preamble_bytes ver remote st.misc_received ++ (header_bytes c ++ Z)) :
    on_incoming_connection ver filesize ((current_num, current_hash) :: pairs) st =
      if st.misc_received = false ∧ remote % 2 ^ 64 ≠ filesize then .aborted st
      else if c.num < 0 then
        .closed { st with input := bytes_u64 c.size ++ (bytes_hash c.hash ++ Z),
                          misc_received := true }
      else if c.num ≠ current_num ∨ (c.size ≤ 0 ∨ c.size > QC_CHUNK_SIZE) ∨
          (c.hash.low64 = 0 ∧ c.hash.high64 = 0) then
        .aborted { st with input := header_bytes c ++ Z, misc_received := true }
      else
        match server_serve current_hash c.num c.size c.hash
            { st with input := Z, misc_received := true } with
        | none => .aborted { st with input := Z, misc_received := true,
                                     output := st.output ++ QC_ACK_MESSAGE }
        | some st2 => on_incoming_connection ver filesize pairs st2 := by
  have hpre : server_preamble ver filesize st =
      if st.misc_received = false ∧ remote % 2 ^ 64 ≠ filesize then none
      else some { st with input := header_bytes c ++ Z, misc_received := true } := by
    cases hm : st.misc_received with
    | true =>
      rw [server_preamble_received hm]
      simp only [Bool.true_eq_false, false_and, if_false, Option.some.injEq]
      rw [hm] at hin
      simp only [preamble_bytes, if_true, List.nil_append] at hin
      rw [← hin, ← hm]
    | false =>
      rw [hm] at hin
      simp only [preamble_bytes, Bool.false_eq_true, if_false] at hin
      rw [server_preamble_of_input hv hlen hm hin]
      simp only [true_and]
  rw [on_incoming_connection, hpre]
  by_cases h1 : st.misc_received = false ∧ remote % 2 ^ 64 ≠ filesize
  · rw [if_pos h1, if_pos h1]
  · rw [if_neg h1, if_neg h1]
    simp only
    rw [server_header_of_input current_num hwf Z]
    by_cases h2 : c.num < 0
    · rw [if_pos h2, if_pos h2]
    · rw [if_neg h2, if_neg h2]
      by_cases h3 : c.num ≠ current_num
      · rw [if_pos h3, if_pos (Or.inl h3)]
      · rw [if_neg h3]
        by_cases h4 : c.size ≤ 0 ∨ c.size > QC_CHUNK_SIZE
        · rw [if_pos h4, if_pos (Or.inr (Or.inl h4))]
        · rw [if_neg h4]
          by_cases h5 : c.hash.low64 = 0 ∧ c.hash.high64 = 0
          · rw [if_pos h5, if_pos (Or.inr (Or.inr h5))]
          · rw [if_neg h5, if_neg (by tauto)]

theorem serve_view_output (c : chunk) (current_hash : XXH128_hash_t) (v : receiver_view) :
    (serve_view c current_hash v).output
      = v.output ++ (reply_bytes c current_hash ++ QC_ACK_MESSAGE) := by
  unfold serve_view reply_bytes
  split <;> rfl

theorem append_left_cancel_of_length {a b c d : List Nat} (h : a ++ b = c ++ d)
    (hl : a.length = c.length) : a = c ∧ b = d :=
  List.append_inj h hl

theorem reply_eq_response {c : chunk} {cur : XXH128_hash_t} {resp : QCResponse}
    (hn : resp ≠ .QC_RESPONSE_NOK) (h : reply_bytes c cur = response_bytes resp) :
    payload_bytes resp c = (frame_payload c cur).take c.size := by
  unfold reply_bytes at h
  unfold payload_bytes frame_payload
  by_cases he : are_hashes_equal cur c.hash = true
  · rw [if_pos he] at h
    rw [if_pos he]
    have : resp = .QC_RESPONSE_EQL := by
      cases resp
      · exact absurd h (by decide)
      · exact absurd rfl hn
      · rfl
    rw [if_pos this, List.take_nil]
  · rw [if_neg he] at h
    rw [if_neg he]
    have : resp = .QC_RESPONSE_ACK := by
      cases resp
      · rfl
      · exact absurd rfl hn
      · exact absurd h (by decide)
    rw [if_neg (by rw [this]; decide)]

theorem reply_bytes_length (c : chunk) (cur : XXH128_hash_t) : (reply_bytes c cur).length = 3 := by
  unfold reply_bytes
  split <;> rfl

theorem frame_payload_take {c : chunk} (hwf : c.wf) (cur : XXH128_hash_t) :
    (frame_payload c cur).take c.size = frame_payload c cur := by
  unfold frame_payload
  split
  · rw [List.take_nil]
  · rw [List.take_of_length_le (Nat.le_of_eq hwf.data_length)]

/-- `server_serve` on the bytes that follow the header of `c` in a session. -/
theorem server_serve_of_input {c : chunk} (hwf : c.wf) (cur : XXH128_hash_t)
    (st : server_state) (W : List Nat) (hin : st.input = frame_payload c cur ++ W) :
    ∃ st2, server_serve cur c.num c.size c.hash st = some st2 ∧
      st2.view = serve_view c cur st.view ∧ st2.input = W ∧
      st2.misc_received = st.misc_received := by
  unfold server_serve
  by_cases he : are_hashes_equal cur c.hash = true
  · rw [if_pos he]
    refine ⟨_, rfl, ?_, ?_, rfl⟩
    · simp only [server_state.view, serve_view, if_pos he, List.append_assoc]
    · simp only [frame_payload, if_pos he, List.nil_append] at hin
      exact hin
  · rw [if_neg he]
    simp only [frame_payload, if_neg he] at hin
    rw [hin, read_all_append W hwf.data_length]
    refine ⟨_, rfl, ?_, rfl, rfl⟩
    simp only [server_state.view, serve_view, if_neg he, List.append_assoc]

/-- One chunk dialogue. The sender's call for chunk `c` returned 0, the handler
pass for the receiver's pair did not end in `g_error`, and each peer read
what the other wrote. Then the handler served `c` as `serve_view` says and
goes on with the next pass; the sender read the receiver's two answers and
wrote the preamble (if due), the header, and the payload iff the hashes
differ; and the header passed the receiver's checks. -/
theorem dialogue_step {ver : List Nat} (Fs Fr : Nat)
    (hv : ∀ b ∈ ver, b ≠ 0) (hlen : ver.length < VERSION_LENGTH)
    {c : chunk} (hwf : c.wf) (cur_num : Int) (cur_hash : XXH128_hash_t)
    (ps : List (Int × XXH128_hash_t))
    {stc stc1 : client_state} {sts : server_state} {W : List Nat}
    (hflag : stc.misc_sent = sts.misc_received)
    (hcl : client_check_and_upload ver Fs (init_client stc) c = .returned 0 stc1)
    (hin : stc.output ++ sts.input = stc1.output ++ W)
    (hna : (on_incoming_connection ver Fr ((cur_num, cur_hash) :: ps) sts).is_aborted = false)
    (hout : (on_incoming_connection ver Fr ((cur_num, cur_hash) :: ps) sts).state.output
      = sts.output ++ stc.input) :
    ∃ sts1, on_incoming_connection ver Fr ((cur_num, cur_hash) :: ps) sts
        = on_incoming_connection ver Fr ps sts1 ∧
      sts1.view = serve_view c cur_hash sts.view ∧ sts1.input = W ∧
      sts1.misc_received = true ∧
      stc.input = reply_bytes c cur_hash ++ (QC_ACK_MESSAGE ++ stc1.input) ∧
      stc1.output = stc.output ++ (preamble_bytes ver Fs stc.misc_sent ++ header_bytes c
        ++ frame_payload c cur_hash) ∧
      stc1.misc_sent = true ∧ stc1.connected = true ∧
      c.num = cur_num ∧ 0 ≤ c.num ∧ 1 ≤ c.size ∧ c.size ≤ QC_CHUNK_SIZE ∧
      ¬ (c.hash.low64 = 0 ∧ c.hash.high64 = 0) ∧
      (stc.misc_sent = false → Fs % 2 ^ 64 = Fr) := by
  obtain ⟨resp, hn, hci, hcon, hms, hco⟩ :=
    client_check_and_upload_returned_zero (init_client_connected stc) hcl
  obtain ⟨fi, fo, fm⟩ := init_client_fields stc
  rw [fi] at hci
  rw [fo, fm] at hco
  have hZ : sts.input = preamble_bytes ver Fs sts.misc_received
      ++ (header_bytes c ++ (payload_bytes resp c ++ W)) := by
    rw [hco] at hin
    simp only [List.append_assoc] at hin
    rw [← hflag]
    exact List.append_cancel_left hin
  have hnf := on_incoming_connection_of_input Fs Fr hv hlen hwf
    cur_num cur_hash ps hZ
  rw [hnf] at hna hout ⊢
  by_cases h1 : sts.misc_received = false ∧ Fs % 2 ^ 64 ≠ Fr
  · rw [if_pos h1] at hna; cases hna
  rw [if_neg h1] at hna hout ⊢
  by_cases h2 : c.num < 0
  · rw [if_pos h2] at hout
    simp only [server_result.state] at hout
    have : (response_bytes resp ++ (QC_ACK_MESSAGE ++ stc1.input)).length = 0 := by
      rw [← hci]
      have := congrArg List.length hout
      rw [List.length_append] at this
      omega
    rw [List.length_append, response_bytes_length] at this
    omega
  rw [if_neg h2] at hna hout ⊢
  by_cases h3 : c.num ≠ cur_num ∨ (c.size ≤ 0 ∨ c.size > QC_CHUNK_SIZE) ∨
      (c.hash.low64 = 0 ∧ c.hash.high64 = 0)
  · rw [if_pos h3] at hna; cases hna
  rw [if_neg h3] at hna hout ⊢
  cases hs : server_serve cur_hash c.num c.size c.hash
      { sts with input := payload_bytes resp c ++ W, misc_received := true } with
  | none => rw [hs] at hna; cases hna
  | some st2 =>
    rw [hs] at hna hout
    simp only at hna hout ⊢
    have h2o := server_serve_output hs
    simp only at h2o
    obtain ⟨w, hw⟩ := on_incoming_connection_output ver Fr ps st2
    rw [hw, h2o, List.append_assoc] at hout
    have hsi : stc.input = reply_bytes c cur_hash ++ (QC_ACK_MESSAGE ++ w) := by
      have := List.append_cancel_left hout
      rw [← this]
      simp only [reply_bytes, List.append_assoc]
    have hrep : response_bytes resp = reply_bytes c cur_hash ∧ stc1.input = w := by
      have e := hci.symm.trans hsi
      obtain ⟨e1, e2⟩ := List.append_inj e
        (by rw [response_bytes_length, reply_bytes_length])
      exact ⟨e1, List.append_cancel_left e2⟩
    have hpl : payload_bytes resp c = frame_payload c cur_hash := by
      rw [reply_eq_response hn hrep.1.symm, frame_payload_take hwf]
    obtain ⟨st2', hs', hview, hinp, hmr⟩ := server_serve_of_input hwf cur_hash
      { sts with input := payload_bytes resp c ++ W, misc_received := true } W
      (by simp only; rw [hpl])
    rw [hs] at hs'
    simp only [Option.some.injEq] at hs'
    subst hs'
    refine ⟨st2, rfl, ?_, hinp, ?_, ?_, ?_, hms, hcon, ?_, ?_, ?_, ?_, ?_, ?_⟩
    · rw [hview]; rfl
    · rw [hmr]
    · rw [hci, hrep.1]
    · rw [hco, hpl]; simp only [List.append_assoc]
    · by_contra hc; exact h3 (Or.inl hc)
    · omega
    · by_contra hc; exact h3 (Or.inr (Or.inl (by omega)))
    · by_contra hc; exact h3 (Or.inr (Or.inl (by omega)))
    · intro hc; exact h3 (Or.inr (Or.inr hc))
    · intro hm
      by_contra hc
      exact h1 ⟨by rw [← hflag]; exact hm, hc⟩

theorem worker_thr_server_cons (r : chunk) (rs : List chunk) :
    worker_thr_server (r :: rs) = (r.num, r.hash) :: worker_thr_server rs := by
  simp only [worker_thr_server, List.map_cons]

theorem worker_thr_client_cons_returned {ver : List Nat} {Fs : Nat} {c : chunk}
    {cs : List chunk} {stc stc' : client_state}
    (h : worker_thr_client ver Fs (c :: cs) stc = .returned 0 stc') :
    ∃ st1, client_check_and_upload ver Fs (init_client stc) c = .returned 0 st1 ∧
      worker_thr_client ver Fs cs st1 = .returned 0 stc' := by
  rw [worker_thr_client] at h
  cases hr : client_check_and_upload ver Fs (init_client stc) c with
  | aborted st1 => rw [hr] at h; cases h
  | returned ret st1 =>
    rw [hr] at h
    simp only at h
    by_cases h0 : ret = 0
    · subst h0
      rw [if_neg (by decide)] at h
      exact ⟨st1, rfl, h⟩
    · rw [if_pos (by simpa using h0)] at h
      cases h

/-- A whole session. The sender's `worker_thr` ran to the end with every
upload returning 0, the handler did not end in `g_error`, and each peer
read exactly what the other wrote. Then the handler served every chunk as
`sync_view` says and is left waiting for a further pair, the end-of-stream
mark still unread; the two byte streams are `frames` and `replies`. -/
theorem session_induction {ver : List Nat} (Fs Fr : Nat)
    (hv : ∀ b ∈ ver, b ≠ 0) (hlen : ver.length < VERSION_LENGTH) :
    ∀ (cs rs : List chunk), cs.length = rs.length → (∀ c ∈ cs, c.wf) →
    ∀ (stc stc' : client_state) (sts : server_state),
      stc.misc_sent = sts.misc_received →
      worker_thr_client ver Fs cs stc = .returned 0 stc' →
      stc'.output = stc.output ++ sts.input →
      (on_incoming_connection ver Fr (worker_thr_server rs) sts).is_aborted = false →
      (on_incoming_connection ver Fr (worker_thr_server rs) sts).state.output
        = sts.output ++ stc.input →
      ∃ st', on_incoming_connection ver Fr (worker_thr_server rs) sts = .waiting st' ∧
        st'.view = sync_view cs rs sts.view ∧
        st'.input = bytes_i64 (-1) ∧
        sts.input = frames ver Fs stc.misc_sent cs rs ++ bytes_i64 (-1) ∧
        stc.input = replies cs rs ∧
        List.Forall₂ header_ok cs rs ∧
        (cs ≠ [] → stc.misc_sent = false → Fs % 2 ^ 64 = Fr) := by
  intro cs
  induction cs with
  | nil =>
    intro rs hl _ stc stc' sts _ hw hin _ hout
    have hrs : rs = [] := List.length_eq_zero.mp hl.symm
    subst hrs
    simp only [worker_thr_client, client_send_exit] at hw
    split at hw
    · simp only [client_result.returned.injEq, true_and] at hw
      rw [← hw] at hin
      simp only at hin
      have hsi := (List.append_cancel_left hin).symm
      simp only [worker_thr_server, List.map_nil, on_incoming_connection,
        server_result.state] at hout ⊢
      have hci : stc.input = [] := by
        have := congrArg List.length hout
        rw [List.length_append] at this
        exact List.length_eq_zero.mp (by omega)
      exact ⟨sts, rfl, rfl, hsi, by simpa [frames] using hsi, by simpa [replies] using hci,
        List.Forall₂.nil, fun h => absurd rfl h⟩
    · cases hw
  | cons c cs ih =>
    intro rs hl hwf stc stc' sts hflag hw hin hna hout
    cases rs with
    | nil => simp at hl
    | cons r rs =>
      obtain ⟨st1, hcl, hw1⟩ := worker_thr_client_cons_returned hw
      obtain ⟨w, hmono⟩ := worker_thr_client_output ver Fs cs st1
      rw [hw1] at hmono
      simp only [client_result.state] at hmono
      rw [worker_thr_server_cons] at hna hout ⊢
      obtain ⟨sts1, hR, hview, hinp, hmr, hci, hco, hms, hcon, hok1, hok2, hok3, hok4, hok5,
          hfs⟩ :=
        dialogue_step Fs Fr hv hlen (hwf c (List.mem_cons_self _ _)) r.num r.hash
          (worker_thr_server rs) hflag hcl (W := w) (by rw [← hin, hmono]) hna hout
      have hso : sts1.output = sts.output ++ (reply_bytes c r.hash ++ QC_ACK_MESSAGE) := by
        have := serve_view_output c r.hash sts.view
        rw [← hview] at this
        exact this
      rw [hR] at hna hout ⊢
      obtain ⟨st', hfin, hv', hi', hsi', hci', hall, _⟩ :=
        ih rs (by simpa using hl) (fun x hx => hwf x (List.mem_cons_of_mem _ hx))
          st1 stc' sts1 (by rw [hms, hmr]) hw1 (by rw [hmono, hinp]) hna
          (by rw [hout, hso, hci]; simp only [List.append_assoc])
      refine ⟨st', hfin, ?_, hi', ?_, ?_, ?_, fun _ => hfs⟩
      · rw [hv', hview]; rfl
      · have h1 : stc.output ++ sts.input = stc.output ++ (preamble_bytes ver Fs stc.misc_sent
            ++ header_bytes c ++ frame_payload c r.hash ++ sts1.input) := by
          rw [← hin, hmono, hco, hinp]; simp only [List.append_assoc]
        rw [List.append_cancel_left h1, hsi', hms]
        simp only [frames, List.append_assoc]
      · rw [hci, hci']
        simp only [replies, List.append_assoc]
      · exact List.Forall₂.cons ⟨hok1, hok2, hok3, hok4, hok5⟩ hall

theorem i64_of_u64_range {v : Nat} (h : v < 2 ^ 64) :
    -2 ^ 63 ≤ i64_of_u64 v ∧ i64_of_u64 v < 2 ^ 63 := by
  unfold i64_of_u64
  split
  · rename_i h1
    have : ((v : Nat) : Int) < ((2 ^ 63 : Nat) : Int) := by exact_mod_cast h1
    have h63 : ((2 ^ 63 : Nat) : Int) = 2 ^ 63 := by norm_num
    rw [h63] at this
    constructor
    · have : (0 : Int) ≤ (v : Int) := Int.ofNat_nonneg v
      omega
    · exact this
  · rename_i h1
    have h1' : ((2 ^ 63 : Nat) : Int) ≤ ((v : Nat) : Int) := by exact_mod_cast Nat.le_of_not_lt h1
    have h2' : ((v : Nat) : Int) < ((2 ^ 64 : Nat) : Int) := by exact_mod_cast h
    have h63 : ((2 ^ 63 : Nat) : Int) = 2 ^ 63 := by norm_num
    have h64 : ((2 ^ 64 : Nat) : Int) = 2 ^ 64 := by norm_num
    rw [h63] at h1'
    rw [h64] at h2'
    constructor <;> omega

theorem chunk_at_wf (X : List Nat → XXH128_hash_t) (file : List Nat) (pos n : Nat)
    (hF : file.length < 2 ^ 63) (hp : pos < file.length) : (chunk_at X file pos n).wf := by
  obtain ⟨h1, h2, h3⟩ := reader_chunk_size_bounds hF hp
  have hr := i64_of_u64_range (Nat.mod_lt (n + 1) (by norm_num : 0 < 2 ^ 64))
  refine ⟨hr.1, hr.2, ?_, ?_, ?_, ?_⟩
  · simp only [chunk_at]; omega
  · simp only [chunk_at]; exact Nat.mod_lt _ (by norm_num)
  · simp only [chunk_at]; exact Nat.mod_lt _ (by norm_num)
  · simp only [chunk_at]; rw [fread_length]; omega

theorem chunks_from_wf (X : List Nat → XXH128_hash_t) (file : List Nat)
    (hF : file.length < 2 ^ 63) :
    ∀ (q pos n : Nat), pos ≤ file.length → chunk_count (file.length - pos) = q →
      ∀ c ∈ chunks_from X file q pos n, c.wf := by
  intro q
  induction q with
  | zero => intro pos n _ _ c hc; simp only [chunks_from, List.not_mem_nil] at hc
  | succ q ih =>
    intro pos n hp hq c hc
    have hlt : pos < file.length := by
      by_contra hge
      have h0 : file.length - pos = 0 := by omega
      rw [h0, chunk_count_zero] at hq
      omega
    obtain ⟨h1, h2, h3⟩ := reader_chunk_size_bounds hF hlt
    rw [chunks_from_succ, List.mem_cons] at hc
    rcases hc with hc | hc
    · rw [hc]; exact chunk_at_wf X file pos n hF hlt
    · have hstep := chunk_count_step hF hlt
      exact ih _ _ h3 (by omega) c hc

/-- The chunks `reader_thr` returns are well formed. -/
theorem reader_thr_wf {X : List Nat → XXH128_hash_t} {file : List Nat} {cs : List chunk}
    (hF : file.length < 2 ^ 63) (h : reader_thr X file = some cs) : ∀ c ∈ cs, c.wf := by
  rw [reader_thr_eq X file hF] at h
  simp only [Option.some.injEq] at h
  rw [← h]
  exact chunks_from_wf X file hF _ 0 0 (Nat.zero_le _) (by rw [Nat.sub_zero])

theorem are_hashes_equal_iff (a b : XXH128_hash_t) : are_hashes_equal a b = true ↔ a = b := by
  obtain ⟨al, ah⟩ := a
  obtain ⟨bl, bh⟩ := b
  simp [are_hashes_equal]

theorem take_add_fread (file : List Nat) (pos s : Nat) :
    file.take (pos + s) = file.take pos ++ fread file pos s := by
  unfold fread
  rw [List.take_add]

theorem drop_eq_fread_append (file : List Nat) (pos s : Nat) :
    file.drop pos = fread file pos s ++ file.drop (pos + s) := by
  unfold fread
  rw [← List.drop_drop, List.take_append_drop]

/-- Where the two files agree on a chunk, leaving the receiver's file alone
moves the boundary between synchronised and old bytes past the chunk. -/
theorem sync_file_skip (sfile rfile : List Nat) (pos s : Nat)
    (h : fread sfile pos s = fread rfile pos s) :
    sfile.take pos ++ rfile.drop pos = sfile.take (pos + s) ++ rfile.drop (pos + s) := by
  rw [take_add_fread sfile pos s, drop_eq_fread_append rfile pos s, h, List.append_assoc]

/-- Writing the sender's chunk at the boundary moves the boundary past the
chunk. -/
theorem sync_file_write (sfile rfile : List Nat) (pos s : Nat)
    (hlen : sfile.length = rfile.length) (hps : pos + s ≤ sfile.length) :
    fwrite_at (sfile.take pos ++ rfile.drop pos) pos (fread sfile pos s)
      = sfile.take (pos + s) ++ rfile.drop (pos + s) := by
  have hl1 : (sfile.take pos).length = pos := by rw [List.length_take]; omega
  have hfl : (fread sfile pos s).length = s := by rw [fread_length]; omega
  have htot : (sfile.take pos ++ rfile.drop pos).length = sfile.length := by
    rw [List.length_append, hl1, List.length_drop]; omega
  unfold fwrite_at
  rw [htot, hfl]
  have h0 : pos - sfile.length = 0 := by omega
  rw [h0, List.replicate_zero, List.append_nil, List.take_left' hl1]
  have hd : (sfile.take pos ++ rfile.drop pos).drop (pos + s) = rfile.drop (pos + s) := by
    rw [List.drop_append_eq_append_drop, hl1]
    have h1 : (sfile.take pos).drop (pos + s) = [] := by
      apply List.drop_of_length_le; omega
    have h2 : pos + s - pos = s := by omega
    rw [h1, h2, List.nil_append, List.drop_drop]
  rw [hd, take_add_fread sfile pos s]

theorem chunk_at_data (X : List Nat → XXH128_hash_t) (file : List Nat) (pos n : Nat) :
    (chunk_at X file pos n).data = fread file pos (reader_chunk_size file.length pos) := by
  simp only [chunk_at]

/-- The receiver's file after the handler has served the sender's chunks from
position `pos` on, when the bytes before `pos` are already the sender's:
the sender's file. -/
theorem sync_view_file (X : List Nat → XXH128_hash_t) (sfile rfile : List Nat)
    (hF : sfile.length < 2 ^ 63) (hlen : sfile.length = rfile.length) :
    ∀ (q pos n n' : Nat) (v : receiver_view), pos ≤ sfile.length →
      chunk_count (sfile.length - pos) = q →
      (∀ p ∈ (chunks_from X sfile q pos n).zip (chunks_from X rfile q pos n'),
        p.1.data ≠ p.2.data → p.1.hash ≠ p.2.hash) →
      v.file = sfile.take pos ++ rfile.drop pos → v.offset = pos →
      (sync_view (chunks_from X sfile q pos n) (chunks_from X rfile q pos n') v).file = sfile ∧
      (sync_view (chunks_from X sfile q pos n) (chunks_from X rfile q pos n') v).offset
        = sfile.length := by
  intro q
  induction q with
  | zero =>
    intro pos n n' v hp hq _ hfile hoff
    simp only [chunks_from, sync_view]
    have hpe : pos = sfile.length := by
      by_contra hne
      obtain ⟨q', hq'⟩ := chunk_count_pos (sfile.length - pos) (by omega)
      omega
    subst hpe
    refine ⟨?_, hoff⟩
    rw [hfile, List.take_length, hlen, List.drop_length, List.append_nil]
  | succ q ih =>
    intro pos n n' v hp hq hH hfile hoff
    have hlt : pos < sfile.length := by
      by_contra hge
      have h0 : sfile.length - pos = 0 := by omega
      rw [h0, chunk_count_zero] at hq
      omega
    obtain ⟨h1, h2, h3⟩ := reader_chunk_size_bounds hF hlt
    have hstep := chunk_count_step hF hlt
    rw [chunks_from_succ, chunks_from_succ] at hH ⊢
    rw [← hlen] at hH ⊢
    simp only [sync_view]
    have hhead := hH (chunk_at X sfile pos n, chunk_at X rfile pos n')
      (by rw [List.zip_cons_cons]; exact List.mem_cons_self _ _)
    simp only at hhead
    have hrs : reader_chunk_size rfile.length pos = reader_chunk_size sfile.length pos := by
      rw [hlen]
    apply ih (pos + reader_chunk_size sfile.length pos) _ _ _ h3 (by omega)
    · intro p hp'
      exact hH p (by rw [List.zip_cons_cons]; exact List.mem_cons_of_mem _ hp')
    · unfold serve_view
      by_cases he : are_hashes_equal (chunk_at X rfile pos n').hash (chunk_at X sfile pos n).hash
          = true
      · rw [if_pos he]
        simp only
        rw [hfile]
        apply sync_file_skip
        have hd : (chunk_at X sfile pos n).data = (chunk_at X rfile pos n').data := by
          by_contra hne
          exact hhead hne ((are_hashes_equal_iff _ _).mp he).symm
        rw [chunk_at_data, chunk_at_data, hrs] at hd
        exact hd
      · rw [if_neg he]
        simp only
        rw [hfile, hoff, chunk_at_data]
        exact sync_file_write sfile rfile pos _ hlen h3
    · unfold serve_view
      split <;> simp only [chunk_at_size, hoff]

/-- What a completed session between files of equal length looks like. -/
theorem session_facts {ver : List Nat} {X : List Nat → XXH128_hash_t}
    {sfile rfile : List Nat} {cs rs : List chunk} {to_server to_client : List Nat}
    {R : server_result} (hv : ∀ b ∈ ver, b ≠ 0) (hvl : ver.length < VERSION_LENGTH)
    (hlen : sfile.length = rfile.length) (hF : sfile.length < 2 ^ 63)
    (h : session ver X sfile rfile cs rs to_server to_client R) :
    cs = chunks_from X sfile (chunk_count sfile.length) 0 0 ∧
    rs = chunks_from X rfile (chunk_count sfile.length) 0 0 ∧
    ∃ st', R = .waiting st' ∧
      st'.view = sync_view cs rs (server_init rfile to_server).view ∧
      st'.input = bytes_i64 (-1) ∧
      to_server = frames ver sfile.length false cs rs ++ bytes_i64 (-1) ∧
      to_client = replies cs rs ∧
      List.Forall₂ header_ok cs rs := by
  have hcs := h.sender_chunks
  have hrs := h.receiver_chunks
  rw [reader_thr_eq X sfile hF, Option.some.injEq] at hcs
  rw [reader_thr_eq X rfile (by rw [← hlen]; exact hF), Option.some.injEq, ← hlen] at hrs
  obtain ⟨stc, hcl, hto⟩ := h.sender
  have hl : cs.length = rs.length := by
    rw [← hcs, ← hrs, chunks_from_length, chunks_from_length]
  have hna := h.not_aborted
  have hans := h.answered
  rw [← h.receiver] at hna hans
  obtain ⟨st', hfin, hview, hinp, hsi, hci, hall, _⟩ :=
    session_induction sfile.length rfile.length hv hvl cs rs hl
      (reader_thr_wf hF h.sender_chunks) (client_init to_client) stc
      (server_init rfile to_server) rfl hcl
      (by rw [hto]; simp only [client_init, server_init, List.nil_append])
      hna (by rw [hans]; simp only [client_init, server_init, List.nil_append])
  refine ⟨hcs.symm, hrs.symm, st', ?_, hview, hinp, ?_, ?_, hall⟩
  · rw [← h.receiver, hfin]
  · simpa [client_init, server_init] using hsi
  · simpa [client_init] using hci

/-- End-to-end correctness on the schedules on which both workers pop every
chunk. Sender and receiver hold files of equal length; at every chunk index
where the bytes of the two chunks differ their hashes differ. If such a
session completes without a fatal error, the receiver's file is byte for byte
the sender's file. -/
theorem session_receiver_file_eq_sender_file {ver : List Nat}
    {X : List Nat → XXH128_hash_t} {sfile rfile : List Nat} {cs rs : List chunk}
    {to_server to_client : List Nat} {R : server_result}
    (h : session ver X sfile rfile cs rs to_server to_client R)
    (hv : ∀ b ∈ ver, b ≠ 0) (hvl : ver.length < VERSION_LENGTH)
    (hlen : sfile.length = rfile.length) (hF : sfile.length < 2 ^ 63)
    (hhash : ∀ p ∈ cs.zip rs, p.1.data ≠ p.2.data → p.1.hash ≠ p.2.hash) :
    R.state.file = sfile := by
  obtain ⟨hcs, hrs, st', hR, hview, _, _, _, _⟩ := session_facts hv hvl hlen hF h
  rw [hR]
  simp only [server_result.state]
  have hf : st'.file = st'.view.file := rfl
  rw [hf, hview]
  have := sync_view_file X sfile rfile hF hlen (chunk_count sfile.length) 0 0 0
    (server_init rfile to_server).view (Nat.zero_le _) (by rw [Nat.sub_zero])
    (by rw [← hcs, ← hrs]; exact hhash)
    (by simp only [server_init, server_state.view, List.take_zero, List.drop_zero,
      List.nil_append]) rfl
  rw [hcs, hrs]
  exact this.1

theorem sample_reader_s : reader_thr sample_hash [1, 2, 3] = some [sample_chunk_s] := by
  rw [reader_thr_eq _ _ (by decide)]
  decide

theorem sample_reader_r : reader_thr sample_hash [1, 2, 4] = some [sample_chunk_r] := by
  rw [reader_thr_eq _ _ (by decide)]
  decide

set_option maxRecDepth 100000 in
theorem sample_sender :
    worker_thr_client sample_version 3 [sample_chunk_s] (client_init sample_to_client)
      = .returned 0 { connected := true, misc_sent := true, input := [],
                      output := sample_to_server } := by
  decide

set_option maxRecDepth 100000 in
theorem sample_receiver :
    on_incoming_connection sample_version 3 (worker_thr_server [sample_chunk_r])
      (server_init [1, 2, 4] sample_to_server) = .waiting sample_final := by
  decide

/-- The example session: the sender holds `[1, 2, 3]`, the receiver
`[1, 2, 4]`. -/
theorem sample_session :
    session sample_version sample_hash [1, 2, 3] [1, 2, 4] [sample_chunk_s] [sample_chunk_r]
      sample_to_server sample_to_client (.waiting sample_final) :=
  ⟨sample_reader_s, sample_reader_r, ⟨_, sample_sender, rfl⟩, sample_receiver, rfl, rfl⟩

theorem sample_version_ok : (∀ b ∈ sample_version, b ≠ 0) ∧ sample_version.length < VERSION_LENGTH := by
  decide

theorem session_receiver_file_eq_sender_file_witness :
    session sample_version sample_hash [1, 2, 3] [1, 2, 4] [sample_chunk_s] [sample_chunk_r]
      sample_to_server sample_to_client (.waiting sample_final) ∧
    (server_result.waiting sample_final).state.file = [1, 2, 3] :=
  ⟨sample_session,
    session_receiver_file_eq_sender_file sample_session sample_version_ok.1
      sample_version_ok.2 rfl (by decide) (by decide)⟩

theorem frame_payload_eq (c r : chunk) :
    frame_payload c r.hash = if c.hash = r.hash then [] else c.data := by
  unfold frame_payload
  by_cases h : c.hash = r.hash
  · rw [if_pos h, if_pos ((are_hashes_equal_iff _ _).mpr h.symm)]
  · rw [if_neg h, if_neg (fun he => h ((are_hashes_equal_iff _ _).mp he).symm)]

theorem reply_bytes_eq (c r : chunk) :
    reply_bytes c r.hash = if c.hash = r.hash then QC_EQL_MESSAGE else QC_ACK_MESSAGE := by
  unfold reply_bytes
  by_cases h : c.hash = r.hash
  · rw [if_pos h, if_pos ((are_hashes_equal_iff _ _).mpr h.symm)]
  · rw [if_neg h, if_neg (fun he => h ((are_hashes_equal_iff _ _).mp he).symm)]

theorem frames_true (ver : List Nat) (F : Nat) : ∀ (cs rs : List chunk),
    frames ver F true cs rs = (cs.zip rs).flatMap
      (fun p => header_bytes p.1 ++ if p.1.hash = p.2.hash then [] else p.1.data) := by
  intro cs
  induction cs with
  | nil => intro rs; simp only [frames, List.zip_nil_left, List.flatMap_nil]
  | cons c cs ih =>
    intro rs
    cases rs with
    | nil => simp only [frames, List.zip_nil_right, List.flatMap_nil]
    | cons r rs =>
      simp only [frames, List.zip_cons_cons, List.flatMap_cons, ih rs, preamble_bytes, if_true,
        List.nil_append, frame_payload_eq, List.append_assoc]

theorem frames_false_cons (ver : List Nat) (F : Nat) (c r : chunk) (cs rs : List chunk) :
    frames ver F false (c :: cs) (r :: rs) = version_str ver ++ bytes_u64 F ++
      ((c :: cs).zip (r :: rs)).flatMap
        (fun p => header_bytes p.1 ++ if p.1.hash = p.2.hash then [] else p.1.data) := by
  simp only [frames, frames_true, List.zip_cons_cons, List.flatMap_cons, preamble_bytes,
    Bool.false_eq_true, if_false, frame_payload_eq, List.append_assoc]

theorem replies_eq : ∀ (cs rs : List chunk),
    replies cs rs = (cs.zip rs).flatMap
      (fun p => (if p.1.hash = p.2.hash then QC_EQL_MESSAGE else QC_ACK_MESSAGE)
        ++ QC_ACK_MESSAGE) := by
  intro cs
  induction cs with
  | nil => intro rs; simp only [replies, List.zip_nil_left, List.flatMap_nil]
  | cons c cs ih =>
    intro rs
    cases rs with
    | nil => simp only [replies, List.zip_nil_right, List.flatMap_nil]
    | cons r rs =>
      simp only [replies, List.zip_cons_cons, List.flatMap_cons, ih rs, reply_bytes_eq,
        List.append_assoc]

/-- In a completed session the sender has at least one chunk: with none,
`client_send_exit` runs on a client that never connected. -/
theorem session_chunks_ne_nil {ver : List Nat} {X : List Nat → XXH128_hash_t}
    {sfile rfile : List Nat} {cs rs : List chunk} {to_server to_client : List Nat}
    {R : server_result} (h : session ver X sfile rfile cs rs to_server to_client R) :
    cs ≠ [] := by
  intro hc
  obtain ⟨stc, hcl, _⟩ := h.sender
  rw [hc] at hcl
  simp only [worker_thr_client, client_send_exit, client_init, Bool.false_eq_true,
    if_false] at hcl
  cases hcl

/-- What `client_check_and_upload` has written when it ends, on a connected
client whose first response is `resp`: the preamble (if due), the header, and
the `size` data bytes iff `resp` is "ACK". -/
theorem client_check_and_upload_writes (ver : List Nat) (F : Nat) (st : client_state)
    (c : chunk) (resp : QCResponse) (rest : List Nat) (hc : st.connected = true)
    (hr : wait_and_get_response st.input = some (resp, rest)) :
    (client_check_and_upload ver F st c).state.output
      = st.output ++ preamble_bytes ver F st.misc_sent ++ header_bytes c
        ++ (if resp = .QC_RESPONSE_ACK then c.data.take c.size else []) := by
  rw [client_check_and_upload_connected ver F st c hc, hr]
  simp only
  cases resp
  · rw [if_neg (by decide), if_pos rfl]
    cases wait_and_get_response rest with
    | none =>
      simp only [client_result.state, payload_sent, header_sent, payload_bytes]
      rw [if_neg (by decide)]
    | some p2 =>
      simp only
      split <;>
      · simp only [client_result.state, payload_sent, header_sent, payload_bytes]
        rw [if_neg (by decide)]
  · rw [if_pos rfl, if_neg (by decide)]
    simp only [client_result.state, header_sent, List.append_nil]
  · rw [if_neg (by decide), if_neg (by decide)]
    cases wait_and_get_response rest with
    | none =>
      simp only [client_result.state, payload_sent, header_sent, payload_bytes]
      rw [if_pos trivial]
    | some p2 =>
      simp only
      split <;>
      · simp only [client_result.state, payload_sent, header_sent, payload_bytes]
        rw [if_pos trivial]

theorem are_hashes_equal_halves (cur hash : XXH128_hash_t) :
    are_hashes_equal cur hash = true ↔ (hash.low64 = cur.low64 ∧ hash.high64 = cur.high64) := by
  rw [are_hashes_equal_iff]
  obtain ⟨cl, ch⟩ := cur
  obtain ⟨hl, hh⟩ := hash
  simp only [XXH128_hash_t.mk.injEq]
  constructor
  · rintro ⟨h1, h2⟩; exact ⟨h1.symm, h2.symm⟩
  · rintro ⟨h1, h2⟩; exact ⟨h1.symm, h2.symm⟩

/-- C2. In a completed session between files of equal length, what the sender
has written is the preamble, then for each chunk its header followed by its
`size` data bytes exactly once if its hash differs from the receiver's hash
for that chunk and not at all if they are equal, then the end-of-stream mark;
what the receiver has written is, per chunk, "EQL" if the hashes are equal
and "ACK" otherwise, then "ACK". On the two functions: the handler answers a
header with "EQL" iff both halves of the received hash equal `current_hash`
and with "ACK" otherwise, and `client_check_and_upload` writes the data bytes
iff the first response is "ACK". -/
theorem payload_sent_iff_hashes_differ {ver : List Nat}
    {X : List Nat → XXH128_hash_t} {sfile rfile : List Nat} {cs rs : List chunk}
    {to_server to_client : List Nat} {R : server_result}
    (h : session ver X sfile rfile cs rs to_server to_client R)
    (hv : ∀ b ∈ ver, b ≠ 0) (hvl : ver.length < VERSION_LENGTH)
    (hlen : sfile.length = rfile.length) (hF : sfile.length < 2 ^ 63) :
    to_server = version_str ver ++ bytes_u64 sfile.length ++
        (cs.zip rs).flatMap
          (fun p => header_bytes p.1 ++ if p.1.hash = p.2.hash then [] else p.1.data)
        ++ bytes_i64 (-1) ∧
    to_client = (cs.zip rs).flatMap
        (fun p => (if p.1.hash = p.2.hash then QC_EQL_MESSAGE else QC_ACK_MESSAGE)
          ++ QC_ACK_MESSAGE) ∧
    cs.length = rs.length ∧ (∀ c ∈ cs, c.data.length = c.size) ∧
    (∀ (cur hash : XXH128_hash_t) (num : Int) (size : Nat) (st st2 : server_state),
      server_serve cur num size hash st = some st2 →
      st2.output = st.output ++
        (if hash.low64 = cur.low64 ∧ hash.high64 = cur.high64 then QC_EQL_MESSAGE
          else QC_ACK_MESSAGE) ++ QC_ACK_MESSAGE) ∧
    (∀ (F : Nat) (st : client_state) (c : chunk) (resp : QCResponse) (rest : List Nat),
      st.connected = true → wait_and_get_response st.input = some (resp, rest) →
      (client_check_and_upload ver F st c).state.output
        = st.output ++ preamble_bytes ver F st.misc_sent ++ header_bytes c
          ++ (if resp = .QC_RESPONSE_ACK then c.data.take c.size else [])) := by
  obtain ⟨hcs, hrs, st', hR, hview, _, hts, htc, _⟩ := session_facts hv hvl hlen hF h
  have hne := session_chunks_ne_nil h
  have hl : cs.length = rs.length := by
    rw [hcs, hrs, chunks_from_length, chunks_from_length]
  refine ⟨?_, ?_, hl, ?_, ?_, ?_⟩
  · cases hc : cs with
    | nil => exact absurd hc hne
    | cons c cs' =>
      cases hr : rs with
      | nil => rw [hc, hr] at hl; simp at hl
      | cons r rs' =>
        rw [hts, hc, hr, frames_false_cons]
  · rw [htc, replies_eq]
  · intro c hc
    exact (reader_thr_wf hF h.sender_chunks c hc).data_length
  · intro cur hash num size st st2 hs
    have := server_serve_output hs
    rw [this, List.append_assoc]
    by_cases he : are_hashes_equal cur hash = true
    · rw [if_pos he, if_pos ((are_hashes_equal_halves cur hash).mp he)]
    · rw [if_neg he, if_neg (fun hc => he ((are_hashes_equal_halves cur hash).mpr hc))]
  · intro F st c resp rest hc hr
    exact client_check_and_upload_writes ver F st c resp rest hc hr

set_option maxRecDepth 100000 in
theorem payload_sent_iff_hashes_differ_witness :
    sample_to_server = version_str sample_version ++ bytes_u64 3 ++
        header_bytes sample_chunk_s ++ [1, 2, 3] ++ bytes_i64 (-1) ∧
    sample_to_client = QC_ACK_MESSAGE ++ QC_ACK_MESSAGE :=
  have h := payload_sent_iff_hashes_differ sample_session sample_version_ok.1
    sample_version_ok.2 rfl (by decide)
  ⟨h.1.trans (by decide), h.2.1.trans (by decide)⟩

theorem serve_view_log (c : chunk) (cur : XXH128_hash_t) (v : receiver_view) :
    (serve_view c cur v).log = v.log ++ [served_record c cur v.offset] ∧
    (serve_view c cur v).offset = v.offset + c.size := by
  unfold serve_view served_record
  split <;> exact ⟨rfl, rfl⟩

theorem sync_view_log : ∀ (cs rs : List chunk) (v : receiver_view),
    (sync_view cs rs v).log = v.log ++ session_log cs rs v.offset := by
  intro cs
  induction cs with
  | nil => intro rs v; simp only [sync_view, session_log, List.append_nil]
  | cons c cs ih =>
    intro rs v
    cases rs with
    | nil => simp only [sync_view, session_log, List.append_nil]
    | cons r rs =>
      simp only [sync_view, session_log]
      rw [ih rs, (serve_view_log c r.hash v).1, (serve_view_log c r.hash v).2,
        List.append_assoc, List.singleton_append]

theorem session_log_length : ∀ (cs rs : List chunk) (off : Nat), cs.length = rs.length →
    (session_log cs rs off).length = cs.length := by
  intro cs
  induction cs with
  | nil => intro rs off _; simp only [session_log, List.length_nil]
  | cons c cs ih =>
    intro rs off hl
    cases rs with
    | nil => simp at hl
    | cons r rs =>
      simp only [session_log, List.length_cons]
      rw [ih rs _ (by simpa using hl)]

/-- Between identical chunk lists every chunk is answered "EQL" and nothing
is written. -/
theorem session_log_same : ∀ (cs : List chunk) (off : Nat),
    ∀ r ∈ session_log cs cs off, r.reply = QC_EQL_MESSAGE ∧ r.written = none := by
  intro cs
  induction cs with
  | nil => intro off r hr; simp only [session_log, List.not_mem_nil] at hr
  | cons c cs ih =>
    intro off r hr
    simp only [session_log, List.mem_cons] at hr
    rcases hr with hr | hr
    · rw [hr]
      unfold served_record
      rw [if_pos ((are_hashes_equal_iff _ _).mpr rfl)]
      exact ⟨rfl, rfl⟩
    · exact ih _ r hr

theorem sync_view_same_file : ∀ (cs : List chunk) (v : receiver_view),
    (sync_view cs cs v).file = v.file := by
  intro cs
  induction cs with
  | nil => intro v; simp only [sync_view]
  | cons c cs ih =>
    intro v
    simp only [sync_view]
    rw [ih]
    unfold serve_view
    rw [if_pos ((are_hashes_equal_iff _ _).mpr rfl)]

theorem zip_self_flatMap (cs : List chunk) (f : chunk × chunk → List Nat) :
    (cs.zip cs).flatMap f = cs.flatMap (fun c => f (c, c)) := by
  induction cs with
  | nil => rfl
  | cons c cs ih => simp only [List.zip_cons_cons, List.flatMap_cons, ih]

theorem reply_bytes_response (c : chunk) (cur : XXH128_hash_t) :
    reply_bytes c cur = response_bytes (first_response c cur) := by
  unfold reply_bytes first_response
  split <;> rfl

theorem first_response_ne_nok (c : chunk) (cur : XXH128_hash_t) :
    first_response c cur ≠ .QC_RESPONSE_NOK := by
  unfold first_response
  split <;> decide

theorem payload_bytes_first_response {c : chunk} (hwf : c.wf) (cur : XXH128_hash_t) :
    payload_bytes (first_response c cur) c = frame_payload c cur := by
  rw [reply_eq_response (first_response_ne_nok c cur) (reply_bytes_response c cur),
    frame_payload_take hwf]

/-- The sender's call for a chunk on the answers the receiver gives: it
returns 0, having written the preamble (if due), the header and the payload
iff the hashes differ. -/
theorem client_check_and_upload_of_replies (ver : List Nat) (F : Nat) {c : chunk}
    (hwf : c.wf) (cur : XXH128_hash_t) (st : client_state) (rest : List Nat)
    (hc : st.connected = true)
    (hin : st.input = reply_bytes c cur ++ (QC_ACK_MESSAGE ++ rest)) :
    ∃ st1, client_check_and_upload ver F st c = .returned 0 st1 ∧
      st1.connected = true ∧ st1.misc_sent = true ∧ st1.input = rest ∧
      st1.output = st.output ++ (preamble_bytes ver F st.misc_sent ++ header_bytes c
        ++ frame_payload c cur) := by
  rw [client_check_and_upload_connected ver F st c hc, hin, reply_bytes_response,
    wait_and_get_response_append]
  simp only
  rw [if_neg (first_response_ne_nok c cur)]
  have hack : QC_ACK_MESSAGE = response_bytes .QC_RESPONSE_ACK := rfl
  rw [hack, wait_and_get_response_append]
  simp only
  rw [if_neg (by simp)]
  refine ⟨_, rfl, ?_, ?_, rfl, ?_⟩
  · simpa [payload_sent, header_sent] using hc
  · simp [payload_sent, header_sent]
  · simp only [payload_sent, header_sent, payload_bytes_first_response hwf,
      List.append_assoc]

/-- A session run forward. The sender's chunks `cs` pass the receiver's
checks against its own chunks `rs`; the sender is given the answers
`replies cs rs` and the handler the bytes `frames .. cs rs` and the
end-of-stream mark. Then every upload returns 0, the handler does not end
in `g_error`, and each has written what the other was given. -/
theorem session_forward {ver : List Nat} (Fs Fr : Nat)
    (hv : ∀ b ∈ ver, b ≠ 0) (hvl : ver.length < VERSION_LENGTH) :
    ∀ (cs rs : List chunk), List.Forall₂ header_ok cs rs → (∀ c ∈ cs, c.wf) →
    ∀ (stc : client_state) (sts : server_state),
      stc.misc_sent = sts.misc_received →
      (stc.misc_sent = false → Fs % 2 ^ 64 = Fr) →
      (cs = [] → stc.connected = true) →
      stc.input = replies cs rs →
      sts.input = frames ver Fs stc.misc_sent cs rs ++ bytes_i64 (-1) →
      ∃ stc' st', worker_thr_client ver Fs cs stc = .returned 0 stc' ∧
        stc'.output = stc.output ++ sts.input ∧
        on_incoming_connection ver Fr (worker_thr_server rs) sts = .waiting st' ∧
        st'.output = sts.output ++ stc.input := by
  intro cs rs hall
  induction hall with
  | nil =>
    intro _ stc sts _ _ hcon hci hsi
    have hc := hcon rfl
    refine ⟨{ stc with output := stc.output ++ bytes_i64 (-1) }, sts, ?_, ?_, ?_, ?_⟩
    · simp only [worker_thr_client, client_send_exit, hc, if_true]
    · simp only [frames, List.nil_append] at hsi
      rw [hsi]
    · simp only [worker_thr_server, List.map_nil, on_incoming_connection]
    · simp only [replies] at hci
      rw [hci, List.append_nil]
  | @cons c r cs rs hok _ ih =>
    intro hwf stc sts hflag hfs _ hci hsi
    have hwc := hwf c (List.mem_cons_self _ _)
    simp only [replies, List.append_assoc] at hci
    simp only [frames, List.append_assoc] at hsi
    obtain ⟨fi, fo, fm⟩ := init_client_fields stc
    obtain ⟨st1, hcl, hcon1, hms1, hin1, hout1⟩ :=
      client_check_and_upload_of_replies ver Fs hwc r.hash (init_client stc)
        (replies cs rs) (init_client_connected stc) (by rw [fi]; exact hci)
    rw [fo, fm] at hout1
    have hZ : sts.input = preamble_bytes ver Fs sts.misc_received ++ (header_bytes c
        ++ (frame_payload c r.hash ++ (frames ver Fs true cs rs ++ bytes_i64 (-1)))) := by
      rw [hsi, hflag]
    have hnf := on_incoming_connection_of_input Fs Fr hv hvl hwc r.num r.hash
      (worker_thr_server rs) hZ
    obtain ⟨hnum, hnn, hs1, hs2, hz⟩ := hok
    rw [if_neg (by
        rintro ⟨hm, hne⟩
        exact hne (hfs (by rw [hflag]; exact hm))),
      if_neg (by omega),
      if_neg (by
        rintro (h1 | h1 | h1)
        · exact h1 hnum
        · omega
        · exact hz h1)] at hnf
    obtain ⟨st2, hs, hview, hinp, hmr⟩ := server_serve_of_input hwc r.hash
      { sts with input := frame_payload c r.hash ++ (frames ver Fs true cs rs
          ++ bytes_i64 (-1)), misc_received := true }
      (frames ver Fs true cs rs ++ bytes_i64 (-1)) rfl
    rw [hs] at hnf
    simp only at hnf
    have hso : st2.output = sts.output ++ (reply_bytes c r.hash ++ QC_ACK_MESSAGE) := by
      have := serve_view_output c r.hash
        ({ sts with input := frame_payload c r.hash ++ (frames ver Fs true cs rs
          ++ bytes_i64 (-1)), misc_received := true } : server_state).view
      rw [← hview] at this
      exact this
    obtain ⟨stc', st', hw, hwo, hsv, hsvo⟩ :=
      ih (fun x hx => hwf x (List.mem_cons_of_mem _ hx)) st1 st2
        (by rw [hms1, hmr]) (by rw [hms1]; intro hc; cases hc) (fun _ => hcon1) hin1
        (by rw [hinp, hms1])
    refine ⟨stc', st', ?_, ?_, ?_, ?_⟩
    · rw [worker_thr_client, hcl]
      simp only
      rw [if_neg (by decide)]
      exact hw
    · rw [hwo, hout1, hinp, hsi]
      simp only [List.append_assoc]
    · rw [worker_thr_server_cons, hnf]
      exact hsv
    · rw [hsvo, hso, hin1, hci]
      simp only [List.append_assoc]

/-- `wait_and_get_response` on a stream that starts with the three bytes `t`. -/
theorem wait_and_get_response_token (t rest : List Nat) (ht : t.length = 3) :
    wait_and_get_response (t ++ rest) =
      if t = QC_ACK_MESSAGE then some (.QC_RESPONSE_ACK, rest)
      else if t = QC_NOK_MESSAGE then some (.QC_RESPONSE_NOK, rest)
      else if t = QC_EQL_MESSAGE then some (.QC_RESPONSE_EQL, rest)
      else none := by
  have hA := strcmp_eq_same_length QC_ACK_MESSAGE t (by decide) ht
  have hN := strcmp_eq_same_length QC_NOK_MESSAGE t (by decide) ht
  have hE := strcmp_eq_same_length QC_EQL_MESSAGE t (by decide) ht
  unfold wait_and_get_response
  have hr : read_all QC_ACK_MESSAGE.length (t ++ rest) = some (t, rest) :=
    read_all_append rest ht
  rw [hr]
  simp only [hA, hN, hE]

/-- C11. On a connected sender (every write succeeds) whose input starts with
the two 3-byte responses `t1` and `t2`: `client_check_and_upload` returns 0
iff `t1` is "EQL" or "ACK" and `t2` is "ACK"; on a first "NOK" it returns -1
having written the preamble (if due) and the header and no payload byte; on a
second "NOK" or "EQL" it returns -1; and a response that is none of "ACK",
"EQL", "NOK" aborts the process. -/
theorem client_check_and_upload_outcome (ver : List Nat) (F : Nat) (st : client_state)
    (c : chunk) (t1 t2 rest : List Nat) (hc : st.connected = true)
    (h1 : t1.length = 3) (h2 : t2.length = 3) (hin : st.input = t1 ++ (t2 ++ rest)) :
    ((∃ st', client_check_and_upload ver F st c = .returned 0 st') ↔
      ((t1 = QC_EQL_MESSAGE ∨ t1 = QC_ACK_MESSAGE) ∧ t2 = QC_ACK_MESSAGE)) ∧
    (t1 = QC_NOK_MESSAGE →
      ∃ st', client_check_and_upload ver F st c = .returned (-1) st' ∧
        st'.output = st.output ++ preamble_bytes ver F st.misc_sent ++ header_bytes c) ∧
    ((t1 = QC_EQL_MESSAGE ∨ t1 = QC_ACK_MESSAGE) →
      (t2 = QC_NOK_MESSAGE ∨ t2 = QC_EQL_MESSAGE) →
      ∃ st', client_check_and_upload ver F st c = .returned (-1) st') ∧
    ((t1 ≠ QC_ACK_MESSAGE ∧ t1 ≠ QC_EQL_MESSAGE ∧ t1 ≠ QC_NOK_MESSAGE) →
      ∃ st', client_check_and_upload ver F st c = .aborted st') ∧
    ((t1 = QC_EQL_MESSAGE ∨ t1 = QC_ACK_MESSAGE) →
      (t2 ≠ QC_ACK_MESSAGE ∧ t2 ≠ QC_EQL_MESSAGE ∧ t2 ≠ QC_NOK_MESSAGE) →
      ∃ st', client_check_and_upload ver F st c = .aborted st') := by
  have hAN : QC_ACK_MESSAGE ≠ QC_NOK_MESSAGE := by decide
  have hAE : QC_ACK_MESSAGE ≠ QC_EQL_MESSAGE := by decide
  have hNE : QC_NOK_MESSAGE ≠ QC_EQL_MESSAGE := by decide
  have hw1 := wait_and_get_response_token t1 (t2 ++ rest) h1
  have hw2 := wait_and_get_response_token t2 rest h2
  rw [client_check_and_upload_connected ver F st c hc, hin, hw1]
  by_cases a1 : t1 = QC_ACK_MESSAGE
  · rw [if_pos a1]
    simp only
    rw [if_neg (by decide), hw2]
    by_cases a2 : t2 = QC_ACK_MESSAGE
    · rw [if_pos a2]
      simp only
      rw [if_neg (by simp)]
      refine ⟨⟨fun _ => ⟨Or.inr a1, a2⟩, fun _ => ⟨_, rfl⟩⟩, ?_, ?_, ?_, ?_⟩
      · intro hc1; rw [a1] at hc1; exact absurd hc1 hAN
      · rintro _ (hc2 | hc2)
        · rw [a2] at hc2; exact absurd hc2 hAN
        · rw [a2] at hc2; exact absurd hc2 hAE
      · rintro ⟨hc1, _, _⟩; exact absurd a1 hc1
      · rintro _ ⟨hc2, _, _⟩; exact absurd a2 hc2
    · rw [if_neg a2]
      by_cases n2 : t2 = QC_NOK_MESSAGE
      · rw [if_pos n2]
        simp only
        rw [if_pos (by decide)]
        refine ⟨⟨fun h => ?_, fun h => absurd h.2 a2⟩, ?_, ?_, ?_, ?_⟩
        · obtain ⟨st', hst⟩ := h
          simp only [client_result.returned.injEq] at hst
          exact absurd hst.1 (by decide)
        · intro hc1; rw [a1] at hc1; exact absurd hc1 hAN
        · intro _ _; exact ⟨_, rfl⟩
        · rintro ⟨hc1, _, _⟩; exact absurd a1 hc1
        · rintro _ ⟨_, _, hc2⟩; exact absurd n2 hc2
      · rw [if_neg n2]
        by_cases e2 : t2 = QC_EQL_MESSAGE
        · rw [if_pos e2]
          simp only
          rw [if_pos (by decide)]
          refine ⟨⟨fun h => ?_, fun h => absurd h.2 a2⟩, ?_, ?_, ?_, ?_⟩
          · obtain ⟨st', hst⟩ := h
            simp only [client_result.returned.injEq] at hst
            exact absurd hst.1 (by decide)
          · intro hc1; rw [a1] at hc1; exact absurd hc1 hAN
          · intro _ _; exact ⟨_, rfl⟩
          · rintro ⟨hc1, _, _⟩; exact absurd a1 hc1
          · rintro _ ⟨_, hc2, _⟩; exact absurd e2 hc2
        · rw [if_neg e2]
          simp only
          refine ⟨⟨fun h => ?_, fun h => absurd h.2 a2⟩, ?_, ?_, ?_, ?_⟩
          · obtain ⟨st', hst⟩ := h
            cases hst
          · intro hc1; rw [a1] at hc1; exact absurd hc1 hAN
          · rintro _ (hc2 | hc2)
            · exact absurd hc2 n2
            · exact absurd hc2 e2
          · rintro ⟨hc1, _, _⟩; exact absurd a1 hc1
          · intro _ _; exact ⟨_, rfl⟩
  · rw [if_neg a1]
    by_cases n1 : t1 = QC_NOK_MESSAGE
    · rw [if_pos n1]
      simp only
      rw [if_pos trivial]
      refine ⟨⟨fun h => ?_, fun h => ?_⟩, ?_, ?_, ?_, ?_⟩
      · obtain ⟨st', hst⟩ := h
        simp only [client_result.returned.injEq] at hst
        exact absurd hst.1 (by decide)
      · rcases h.1 with hc1 | hc1
        · rw [n1] at hc1; exact absurd hc1 hNE
        · exact absurd hc1 a1
      · intro _
        exact ⟨_, rfl, by simp only [header_sent, List.append_assoc]⟩
      · rintro (hc1 | hc1)
        · rw [n1] at hc1; exact absurd hc1 hNE
        · exact absurd hc1 a1
      · rintro ⟨_, _, hc1⟩; exact absurd n1 hc1
      · rintro (hc1 | hc1)
        · rw [n1] at hc1; exact absurd hc1 hNE
        · exact absurd hc1 a1
    · rw [if_neg n1]
      by_cases e1 : t1 = QC_EQL_MESSAGE
      · rw [if_pos e1]
        simp only
        rw [if_neg (by decide), hw2]
        by_cases a2 : t2 = QC_ACK_MESSAGE
        · rw [if_pos a2]
          simp only
          rw [if_neg (by simp)]
          refine ⟨⟨fun _ => ⟨Or.inl e1, a2⟩, fun _ => ⟨_, rfl⟩⟩, ?_, ?_, ?_, ?_⟩
          · intro hc1; exact absurd hc1 n1
          · rintro _ (hc2 | hc2)
            · rw [a2] at hc2; exact absurd hc2 hAN
            · rw [a2] at hc2; exact absurd hc2 hAE
          · rintro ⟨_, hc1, _⟩; exact absurd e1 hc1
          · rintro _ ⟨hc2, _, _⟩; exact absurd a2 hc2
        · rw [if_neg a2]
          by_cases n2 : t2 = QC_NOK_MESSAGE
          · rw [if_pos n2]
            simp only
            rw [if_pos (by decide)]
            refine ⟨⟨fun h => ?_, fun h => absurd h.2 a2⟩, ?_, ?_, ?_, ?_⟩
            · obtain ⟨st', hst⟩ := h
              simp only [client_result.returned.injEq] at hst
              exact absurd hst.1 (by decide)
            · intro hc1; exact absurd hc1 n1
            · intro _ _; exact ⟨_, rfl⟩
            · rintro ⟨_, hc1, _⟩; exact absurd e1 hc1
            · rintro _ ⟨_, _, hc2⟩; exact absurd n2 hc2
          · rw [if_neg n2]
            by_cases e2 : t2 = QC_EQL_MESSAGE
            · rw [if_pos e2]
              simp only
              rw [if_pos (by decide)]
              refine ⟨⟨fun h => ?_, fun h => absurd h.2 a2⟩, ?_, ?_, ?_, ?_⟩
              · obtain ⟨st', hst⟩ := h
                simp only [client_result.returned.injEq] at hst
                exact absurd hst.1 (by decide)
              · intro hc1; exact absurd hc1 n1
              · intro _ _; exact ⟨_, rfl⟩
              · rintro ⟨_, hc1, _⟩; exact absurd e1 hc1
              · rintro _ ⟨_, hc2, _⟩; exact absurd e2 hc2
            · rw [if_neg e2]
              simp only
              refine ⟨⟨fun h => ?_, fun h => absurd h.2 a2⟩, ?_, ?_, ?_, ?_⟩
              · obtain ⟨st', hst⟩ := h
                cases hst
              · intro hc1; exact absurd hc1 n1
              · rintro _ (hc2 | hc2)
                · exact absurd hc2 n2
                · exact absurd hc2 e2
              · rintro ⟨_, hc1, _⟩; exact absurd e1 hc1
              · intro _ _; exact ⟨_, rfl⟩
      · rw [if_neg e1]
        simp only
        refine ⟨⟨fun h => ?_, fun h => ?_⟩, ?_, ?_, ?_, ?_⟩
        · obtain ⟨st', hst⟩ := h
          cases hst
        · rcases h.1 with hc1 | hc1
          · exact absurd hc1 e1
          · exact absurd hc1 a1
        · intro hc1; exact absurd hc1 n1
        · rintro (hc1 | hc1)
          · exact absurd hc1 e1
          · exact absurd hc1 a1
        · intro _; exact ⟨_, rfl⟩
        · rintro (hc1 | hc1)
          · exact absurd hc1 e1
          · exact absurd hc1 a1

theorem client_check_and_upload_outcome_witness :
    ∃ st', client_check_and_upload sample_version 3
      { connected := true, misc_sent := false, input := QC_ACK_MESSAGE ++ (QC_ACK_MESSAGE ++ []),
        output := [] } sample_chunk_s = .returned 0 st' :=
  (client_check_and_upload_outcome sample_version 3
    { connected := true, misc_sent := false, input := QC_ACK_MESSAGE ++ (QC_ACK_MESSAGE ++ []),
      output := [] } sample_chunk_s QC_ACK_MESSAGE QC_ACK_MESSAGE [] rfl rfl rfl rfl).1.mpr
    ⟨Or.inr rfl, rfl⟩

theorem chunk_at_num (X : List Nat → XXH128_hash_t) (file : List Nat) (pos n : Nat)
    (hn : n + 1 < 2 ^ 63) : (chunk_at X file pos n).num = ((n + 1 : Nat) : Int) := by
  simp only [chunk_at, i64_of_u64]
  rw [Nat.mod_eq_of_lt (by omega), if_pos hn]

/-- The numbers of the unrolled loop's chunks count up from `n + 1`. -/
theorem chunks_from_nums (X : List Nat → XXH128_hash_t) (file : List Nat) :
    ∀ (q pos n : Nat), n + q < 2 ^ 63 →
      (chunks_from X file q pos n).map chunk.num
        = (List.range q).map (fun i => ((n + 1 + i : Nat) : Int)) := by
  intro q
  induction q with
  | zero => intro pos n _; simp only [chunks_from, List.map_nil, List.range_zero]
  | succ q ih =>
    intro pos n hn
    have hmod : (n + 1) % 2 ^ 64 = n + 1 := Nat.mod_eq_of_lt (by omega)
    rw [chunks_from_succ, List.map_cons, chunk_at_num X file pos n (by omega), hmod,
      ih _ (n + 1) (by omega), List.range_succ_eq_map, List.map_cons, List.map_map]
    congr 1
    apply List.map_congr_left
    intro i _
    simp only [Function.comp, Nat.succ_eq_add_one]
    congr 1
    omega

theorem chunk_count_le (len : Nat) : chunk_count len ≤ len := by
  rw [chunk_count_eq]
  omega

/-- C12. For every file whose length a `long` can hold, the k-th chunk
`reader_thr` pushes (counting from 1) has `num = k`: the numbers start at 1,
each is the previous one plus 1, and all are strictly positive, so none is
the end-of-stream mark -1. The pairs the receiver's worker publishes for the
chunks it pops carry the same numbers in the same order. -/
theorem reader_thr_chunk_numbers (XXH3_128bits : List Nat → XXH128_hash_t)
    (file : List Nat) (hF : file.length < 2 ^ 63) :
    ∃ chunks, reader_thr XXH3_128bits file = some chunks ∧
      chunks.map chunk.num = (List.range chunks.length).map (fun k => ((k + 1 : Nat) : Int)) ∧
      (∀ k (hk : k < chunks.length), (chunks.get ⟨k, hk⟩).num = ((k + 1 : Nat) : Int)) ∧
      (∀ k (hk : k + 1 < chunks.length),
        (chunks.get ⟨k + 1, hk⟩).num = (chunks.get ⟨k, Nat.lt_of_succ_lt hk⟩).num + 1 ∧
        (chunks.get ⟨k, Nat.lt_of_succ_lt hk⟩).num < (chunks.get ⟨k + 1, hk⟩).num) ∧
      (∀ c ∈ chunks, 0 < c.num ∧ c.num ≠ -1) ∧
      (worker_thr_server chunks).map Prod.fst = chunks.map chunk.num := by
  refine ⟨_, reader_thr_eq XXH3_128bits file hF, ?_⟩
  have hcc := chunk_count_le file.length
  generalize hq : chunk_count file.length = q at hcc
  have hnums := chunks_from_nums XXH3_128bits file q 0 0 (by omega)
  have hlen := chunks_from_length XXH3_128bits file q 0 0
  generalize chunks_from XXH3_128bits file q 0 0 = chunks at hnums hlen
  have hget : ∀ k (hk : k < chunks.length), (chunks.get ⟨k, hk⟩).num = ((k + 1 : Nat) : Int) := by
    intro k hk
    have h1 : (chunks.map chunk.num)[k]? = some (chunks.get ⟨k, hk⟩).num := by
      rw [List.getElem?_map, List.getElem?_eq_getElem hk]
      rfl
    rw [hnums, List.getElem?_map, List.getElem?_range (by omega)] at h1
    simp only [Option.map_some', Option.some.injEq] at h1
    rw [← h1]
    congr 1
    omega
  refine ⟨?_, hget, ?_, ?_, ?_⟩
  · rw [hnums, hlen]
    apply List.map_congr_left
    intro i _
    congr 1
    omega
  · intro k hk
    rw [hget (k + 1) hk, hget k (Nat.lt_of_succ_lt hk)]
    constructor
    · push_cast; ring
    · push_cast; omega
  · intro c hc
    obtain ⟨i, hi⟩ := List.get_of_mem hc
    rw [← hi, hget i.1 i.2]
    constructor
    · exact_mod_cast Nat.succ_pos i.1
    · have : (0 : Int) ≤ ((i.1 + 1 : Nat) : Int) := Int.ofNat_nonneg _
      omega
  · simp only [worker_thr_server, List.map_map]
    rfl

theorem reader_thr_chunk_numbers_witness :
    ∃ chunks, reader_thr sample_hash [1, 2, 3] = some chunks ∧
      chunks.map chunk.num = (List.range chunks.length).map (fun k => ((k + 1 : Nat) : Int)) :=
  (reader_thr_chunk_numbers sample_hash [1, 2, 3] (by decide)).imp
    fun _ h => ⟨h.1, h.2.1⟩

theorem lockstep_init (chunks : List chunk) : lockstep chunks (rendezvous_init chunks) := by
  refine ⟨rfl, Nat.le_refl _, Or.inl ⟨rfl, Or.inl rfl, rfl, rfl, rfl, rfl, rfl, rfl⟩⟩

set_option maxHeartbeats 1000000 in
theorem rendezvous_step_lockstep {chunks0 : List chunk} {st st' : rendezvous_state}
    (a : rendezvous_action) (hinv : lockstep chunks0 st)
    (h : rendezvous_step st a = some st') : lockstep chunks0 st' := by
  obtain ⟨chunks, cn, ch, u, f, w, hd, popped, captured, pub, fin, rel⟩ := st
  obtain ⟨hq, hle, hph⟩ := hinv
  simp only at hq hle hph
  cases a with
  | worker_pop =>
    cases w with
    | idle =>
      cases chunks with
      | nil => simp [rendezvous_step] at h
      | cons c rest =>
        simp only [rendezvous_step, Option.some.injEq] at h
        subst h
        rcases hph with ⟨_, hh, hu, hf, hm, hp, hfi, hr⟩ | ⟨c', hw, _⟩ | ⟨hw, _⟩ | ⟨hw, _⟩ | ⟨hw, _⟩
        · refine ⟨by simpa using hq, by simp only [List.length_append, List.length_singleton]; omega,
            Or.inr (Or.inl ⟨c, rfl, hh, hu, hf, ?_, ?_, hfi, hr⟩)⟩
          · simp only [List.map_append, List.map_cons, List.map_nil, hm]
          · simp only [List.length_append, List.length_singleton]; omega
        · cases hw
        · cases hw
        · cases hw
        · cases hw
    | holding c => simp [rendezvous_step] at h
    | waiting => simp [rendezvous_step] at h
  | worker_publish =>
    cases w with
    | idle => simp [rendezvous_step] at h
    | waiting => simp [rendezvous_step] at h
    | holding c =>
      simp only [rendezvous_step, Option.some.injEq] at h
      subst h
      rcases hph with ⟨hw, _⟩ | ⟨c', hw, hh, hu, hf, hm, hp, hfi, hr⟩ | ⟨hw, _⟩ | ⟨hw, _⟩ | ⟨hw, _⟩
      · cases hw
      · simp only [worker_pc.holding.injEq] at hw
        subst hw
        refine ⟨hq, by simp only; omega,
          Or.inr (Or.inr (Or.inl ⟨rfl, hh, rfl, hf, hm, by simp only; omega,
            by simp only; omega, by simp only; omega⟩))⟩
      · cases hw
      · cases hw
      · cases hw
  | handler_start =>
    cases w with
    | idle => simp [rendezvous_step] at h
    | holding c => simp [rendezvous_step] at h
    | waiting =>
      cases hd with
      | not_started =>
        simp only [rendezvous_step, Option.some.injEq] at h
        subst h
        rcases hph with ⟨hw, _⟩ | ⟨c', hw, _⟩ | ⟨_, _, hu, hf, hm, hp, hfi, hr⟩ |
          ⟨_, hh, _⟩ | ⟨_, hh, _⟩
        · cases hw
        · cases hw
        · exact ⟨hq, hle, Or.inr (Or.inr (Or.inl ⟨rfl, Or.inr rfl, hu, hf, hm, hp, hfi, hr⟩))⟩
        · rcases hh with hh | hh <;> cases hh
        · cases hh
      | waiting => simp [rendezvous_step] at h
      | serving => simp [rendezvous_step] at h
      | stopped => simp [rendezvous_step] at h
  | worker_release =>
    cases w with
    | idle => simp [rendezvous_step] at h
    | holding c => simp [rendezvous_step] at h
    | waiting =>
      cases f with
      | false => simp [rendezvous_step] at h
      | true =>
        simp only [rendezvous_step, if_true, Option.some.injEq] at h
        subst h
        rcases hph with ⟨hw, _⟩ | ⟨c', hw, _⟩ | ⟨_, _, _, hf, _⟩ | ⟨_, _, _, hf, _⟩ |
          ⟨_, hh, hu, _, hm, hp, hfi, hr⟩
        · cases hw
        · cases hw
        · cases hf
        · cases hf
        · exact ⟨hq, hle, Or.inl ⟨rfl, Or.inr hh, hu, rfl, hm, hp, hfi, by simp only; omega⟩⟩
  | handler_capture =>
    cases hd with
    | not_started => simp [rendezvous_step] at h
    | serving => simp [rendezvous_step] at h
    | stopped => simp [rendezvous_step] at h
    | waiting =>
      cases u with
      | false => simp [rendezvous_step] at h
      | true =>
        simp only [rendezvous_step, if_true, Option.some.injEq] at h
        subst h
        rcases hph with ⟨_, _, hu, _⟩ | ⟨c', _, _, hu, _⟩ | ⟨hw, _, _, hf, hm, hp, hfi, hr⟩ |
          ⟨_, _, hu, _⟩ | ⟨_, _, hu, _⟩
        · cases hu
        · cases hu
        · exact ⟨hq, hle, Or.inr (Or.inr (Or.inr (Or.inl
            ⟨hw, Or.inl rfl, rfl, hf, hm, hp, hfi, hr⟩)))⟩
        · cases hu
        · cases hu
  | handler_finish =>
    cases hd with
    | not_started => simp [rendezvous_step] at h
    | waiting => simp [rendezvous_step] at h
    | stopped => simp [rendezvous_step] at h
    | serving =>
      simp only [rendezvous_step, Option.some.injEq] at h
      subst h
      rcases hph with ⟨_, hh, _⟩ | ⟨c', _, hh, _⟩ | ⟨_, hh, _⟩ |
        ⟨hw, _, hu, _, hm, hp, hfi, hr⟩ | ⟨_, hh, _⟩
      · rcases hh with hh | hh <;> cases hh
      · rcases hh with hh | hh <;> cases hh
      · rcases hh with hh | hh <;> cases hh
      · exact ⟨hq, hle, Or.inr (Or.inr (Or.inr (Or.inr
          ⟨hw, rfl, hu, rfl, hm, hp, by simp only; omega, by simp only; omega⟩)))⟩
      · cases hh
  | handler_stop =>
    cases hd with
    | not_started => simp [rendezvous_step] at h
    | waiting => simp [rendezvous_step] at h
    | stopped => simp [rendezvous_step] at h
    | serving =>
      simp only [rendezvous_step, Option.some.injEq] at h
      subst h
      rcases hph with ⟨_, hh, _⟩ | ⟨c', _, hh, _⟩ | ⟨_, hh, _⟩ |
        ⟨hw, _, hu, hf, hm, hp, hfi, hr⟩ | ⟨_, hh, _⟩
      · rcases hh with hh | hh <;> cases hh
      · rcases hh with hh | hh <;> cases hh
      · rcases hh with hh | hh <;> cases hh
      · exact ⟨hq, hle, Or.inr (Or.inr (Or.inr (Or.inl
          ⟨hw, Or.inr rfl, hu, hf, hm, hp, hfi, hr⟩)))⟩
      · cases hh

theorem rendezvous_run_lockstep (chunks0 : List chunk) :
    ∀ (as : List rendezvous_action) (st st' : rendezvous_state),
      lockstep chunks0 st → rendezvous_run st as = some st' → lockstep chunks0 st' := by
  intro as
  induction as with
  | nil =>
    intro st st' hinv h
    simp only [rendezvous_run, Option.some.injEq] at h
    rw [← h]; exact hinv
  | cons a as ih =>
    intro st st' hinv h
    simp only [rendezvous_run] at h
    cases hs : rendezvous_step st a with
    | none => rw [hs] at h; cases h
    | some st1 =>
      rw [hs] at h
      exact ih st1 st' (rendezvous_step_lockstep a hinv hs) h

/-- C14. In every state the receiver's worker and its network handler can
reach by interleaving their steps: the chunks popped are an initial piece of
the reader's chunks, in order; the pairs the handler has captured are, in
order, the `(num, hash)` of the first chunks popped, so the k-th captured
pair belongs to the k-th popped chunk; the counts of releases, finished
chunks, captures, publications and pops never differ by more than one along
the cycle; when the worker is about to publish, the flag is clear and every
pair published before has been captured and its chunk finished; and when a
capture is possible, the pair on offer is that of the last popped chunk and
has not been captured before. -/
theorem rendezvous_lockstep (chunks0 : List chunk) (as : List rendezvous_action)
    (st : rendezvous_state) (h : rendezvous_run (rendezvous_init chunks0) as = some st) :
    st.popped ++ st.chunks = chunks0 ∧
    st.captured = (st.popped.map chunk.pair).take st.captured.length ∧
    (st.released ≤ st.finished ∧ st.finished ≤ st.captured.length ∧
      st.captured.length ≤ st.published ∧ st.published ≤ st.popped.length ∧
      st.popped.length ≤ st.released + 1) ∧
    (∀ c, st.worker = .holding c →
      st.update_current_finished = false ∧ st.captured.length = st.published ∧
        st.finished = st.published ∧ st.popped.map chunk.pair = st.captured ++ [c.pair]) ∧
    (st.handler = .waiting → st.update_current_finished = true →
      st.popped.map chunk.pair = st.captured ++ [(st.current_num, st.current_hash)] ∧
        st.captured.length + 1 = st.published) := by
  obtain ⟨hq, hle, hph⟩ :=
    rendezvous_run_lockstep chunks0 as _ st (lockstep_init chunks0) h
  have hlm : (st.popped.map chunk.pair).length = st.popped.length := List.length_map _ _
  rcases hph with ⟨hw, hh, hu, hf, hm, hp, hfi, hr⟩ | ⟨c', hw, hh, hu, hf, hm, hp, hfi, hr⟩ |
    ⟨hw, hh, hu, hf, hm, hp, hfi, hr⟩ | ⟨hw, hh, hu, hf, hm, hp, hfi, hr⟩ |
    ⟨hw, hh, hu, hf, hm, hp, hfi, hr⟩
  · have hl : st.captured.length = st.popped.length := by rw [← hm, hlm]
    refine ⟨hq, ?_, by omega, ?_, ?_⟩
    · rw [hm, List.take_length]
    · intro c hc; rw [hw] at hc; cases hc
    · intro _ hc; rw [hu] at hc; cases hc
  · have hl : st.captured.length + 1 = st.popped.length := by
      rw [← hlm, hm, List.length_append, List.length_singleton]
    refine ⟨hq, ?_, by omega, ?_, ?_⟩
    · rw [hm, List.take_left' rfl]
    · intro c hc
      rw [hw] at hc
      simp only [worker_pc.holding.injEq] at hc
      subst hc
      exact ⟨hu, by omega, hfi, hm⟩
    · intro _ hc; rw [hu] at hc; cases hc
  · have hl : st.captured.length + 1 = st.popped.length := by
      rw [← hlm, hm, List.length_append, List.length_singleton]
    refine ⟨hq, ?_, by omega, ?_, ?_⟩
    · rw [hm, List.take_left' rfl]
    · intro c hc; rw [hw] at hc; cases hc
    · intro _ _; exact ⟨hm, by omega⟩
  · have hl : st.captured.length = st.popped.length := by rw [← hm, hlm]
    refine ⟨hq, ?_, by omega, ?_, ?_⟩
    · rw [hm, List.take_length]
    · intro c hc; rw [hw] at hc; cases hc
    · intro _ hc; rw [hu] at hc; cases hc
  · have hl : st.captured.length = st.popped.length := by rw [← hm, hlm]
    refine ⟨hq, ?_, by omega, ?_, ?_⟩
    · rw [hm, List.take_length]
    · intro c hc; rw [hw] at hc; cases hc
    · intro _ hc; rw [hu] at hc; cases hc

theorem rendezvous_lockstep_witness :
    rendezvous_run (rendezvous_init [sample_chunk_r])
        [.worker_pop, .worker_publish, .handler_start, .handler_capture, .handler_finish,
          .worker_release] = some sample_rendezvous ∧
    sample_rendezvous.captured
      = (sample_rendezvous.popped.map chunk.pair).take sample_rendezvous.captured.length :=
  have h : rendezvous_run (rendezvous_init [sample_chunk_r])
      [.worker_pop, .worker_publish, .handler_start, .handler_capture, .handler_finish,
        .worker_release] = some sample_rendezvous := by decide
  ⟨h, (rendezvous_lockstep _ _ _ h).2.1⟩

/-- C10. The handler has received the preamble and now receives the header
`(num, size, hash)` of `c` with `num ≥ 0`. It goes on to the hash comparison
(`server_serve`) iff `num` is the rendezvous `current_num`, `1 ≤ size ≤
QC_CHUNK_SIZE` and the hash is not the pair (0, 0); otherwise it aborts in the
state it was in: no response written, the file untouched. -/
theorem header_validation (ver : List Nat) (F : Nat) (c : chunk) (current_num : Int)
    (current_hash : XXH128_hash_t) (pairs : List (Int × XXH128_hash_t))
    (st : server_state) (Z : List Nat) (hwf : c.wf) (hnn : 0 ≤ c.num)
    (hm : st.misc_received = true) (hin : st.input = header_bytes c ++ Z) :
    (server_header current_num st.input = .header c.num c.size c.hash Z ↔
      header_valid current_num c) ∧
    (header_valid current_num c →
      on_incoming_connection ver F ((current_num, current_hash) :: pairs) st =
        match server_serve current_hash c.num c.size c.hash { st with input := Z } with
        | none => .aborted { st with input := Z, output := st.output ++ QC_ACK_MESSAGE }
        | some st2 => on_incoming_connection ver F pairs st2) ∧
    (¬ header_valid current_num c →
      server_header current_num st.input = .error ∧
      on_incoming_connection ver F ((current_num, current_hash) :: pairs) st = .aborted st ∧
      (server_result.aborted st).state.output = st.output ∧
      (server_result.aborted st).state.file = st.file) := by
  have hh := server_header_of_input current_num hwf Z
  rw [← hin, if_neg (by omega)] at hh
  have hpre : server_preamble ver F st = some st := server_preamble_received hm
  by_cases hv : header_valid current_num c
  · obtain ⟨h1, h2, h3, h4⟩ := hv
    rw [if_neg (by simpa using h1), if_neg (by omega), if_neg h4] at hh
    refine ⟨⟨fun _ => ⟨h1, h2, h3, h4⟩, fun _ => hh⟩, fun _ => ?_,
      fun hc => absurd ⟨h1, h2, h3, h4⟩ hc⟩
    rw [on_incoming_connection, hpre]
    simp only
    rw [hh]
  · have herr : server_header current_num st.input = .error := by
      rw [hh]
      by_cases h1 : c.num ≠ current_num
      · rw [if_pos h1]
      · rw [if_neg h1]
        by_cases h2 : c.size ≤ 0 ∨ c.size > QC_CHUNK_SIZE
        · rw [if_pos h2]
        · rw [if_neg h2]
          by_cases h3 : c.hash.low64 = 0 ∧ c.hash.high64 = 0
          · rw [if_pos h3]
          · exfalso
            apply hv
            exact ⟨by simpa using h1, by omega, by omega, h3⟩
    refine ⟨⟨fun h => ?_, fun h => absurd h hv⟩, fun h => absurd h hv, fun _ => ?_⟩
    · rw [herr] at h; cases h
    · refine ⟨herr, ?_, rfl, rfl⟩
      rw [on_incoming_connection, hpre]
      simp only
      rw [herr]

theorem header_validation_witness :
    header_valid 1 sample_chunk_s ∧
    server_header 1 (header_bytes sample_chunk_s ++ [1, 2, 3])
      = .header sample_chunk_s.num sample_chunk_s.size sample_chunk_s.hash [1, 2, 3] :=
  have hv : header_valid 1 sample_chunk_s := by
    refine ⟨rfl, by decide, by decide, by decide⟩
  ⟨hv, ((header_validation sample_version 3 sample_chunk_s 1 ⟨8, 3⟩ []
      { file := [1, 2, 4], offset := 0, misc_received := true,
        input := header_bytes sample_chunk_s ++ [1, 2, 3], output := [], log := [] }
      [1, 2, 3] ⟨by decide, by decide, by decide, by decide, by decide, rfl⟩ (by decide)
      rfl rfl).1).mpr hv⟩

/-- The preamble block on a stream that starts with a 32-byte version field
and an 8-byte file size. -/
theorem server_preamble_fields (ver : List Nat) (F : Nat) (st : server_state)
    (field b X : List Nat) (hm : st.misc_received = false)
    (hf : field.length = VERSION_LENGTH) (hb : b.length = 8)
    (hin : st.input = field ++ (b ++ X)) :
    server_preamble ver F st =
      if strcmp_eq field ver = true ∧ ofLE b = F then
        some { st with input := X, misc_received := true }
      else none := by
  unfold server_preamble
  rw [hm, hin, read_all_append _ hf]
  simp only [Bool.not_false, if_true]
  by_cases hs : strcmp_eq field ver = true
  · rw [hs, read_all_append _ hb]
    simp only [Bool.not_true, Bool.false_eq_true, if_false, true_and]
    by_cases he : ofLE b = F
    · rw [if_neg (by simpa using he), if_pos he]
    · rw [if_pos (by simpa using he), if_neg he]
  · have hs' : strcmp_eq field ver = false := by simpa using hs
    rw [hs']
    simp only [Bool.not_false, if_true, Bool.false_eq_true, false_and, if_false]

/-- C9. The handler reads a preamble whose file size field holds `ofLE b`. If
that differs from its local file size it aborts in the state it was in: the
file untouched, no response written. If it is equal (and the version is
accepted) the preamble is accepted and the chunk headers are read next. -/
theorem filesize_mismatch_aborts (ver : List Nat) (F : Nat) (st : server_state)
    (field b X : List Nat) (current_num : Int) (current_hash : XXH128_hash_t)
    (pairs : List (Int × XXH128_hash_t)) (hm : st.misc_received = false)
    (hf : field.length = VERSION_LENGTH) (hb : b.length = 8)
    (hin : st.input = field ++ (b ++ X)) :
    (ofLE b ≠ F →
      server_preamble ver F st = none ∧
      on_incoming_connection ver F ((current_num, current_hash) :: pairs) st = .aborted st ∧
      (server_result.aborted st).state.file = st.file ∧
      (server_result.aborted st).state.output = st.output) ∧
    (ofLE b = F → strcmp_eq field ver = true →
      server_preamble ver F st = some { st with input := X, misc_received := true }) := by
  have hp := server_preamble_fields ver F st field b X hm hf hb hin
  constructor
  · intro hne
    rw [if_neg (fun h => hne h.2)] at hp
    refine ⟨hp, ?_, rfl, rfl⟩
    rw [on_incoming_connection, hp]
  · intro he hs
    rw [if_pos ⟨hs, he⟩] at hp
    exact hp

set_option maxRecDepth 100000 in
theorem filesize_mismatch_aborts_witness :
    on_incoming_connection sample_version 3 [(1, ⟨8, 3⟩)]
        (server_init [1, 2, 4] (version_str sample_version ++ (bytes_u64 5 ++ [])))
      = .aborted (server_init [1, 2, 4] (version_str sample_version ++ (bytes_u64 5 ++ []))) :=
  ((filesize_mismatch_aborts sample_version 3
    (server_init [1, 2, 4] (version_str sample_version ++ (bytes_u64 5 ++ [])))
    (version_str sample_version) (bytes_u64 5) [] 1 ⟨8, 3⟩ [] rfl (by decide) (by decide)
    rfl).1 (by decide)).2.1

/-- On a field longer than a literal without NUL bytes, `strcmp` reports
equality exactly when the field starts with the literal and a NUL. -/
theorem strcmp_eq_field (ver field : List Nat) (hv : ∀ b ∈ ver, b ≠ 0)
    (hlen : ver.length < field.length) :
    strcmp_eq field ver = true ↔ field.take (ver.length + 1) = ver ++ [0] := by
  rw [strcmp_eq_iff ver hv]
  constructor
  · rintro (⟨r, h⟩ | h)
    · rw [h]
      have : ver ++ 0 :: r = (ver ++ [0]) ++ r := by simp
      rw [this, List.take_left' (by simp)]
    · rw [h] at hlen; omega
  · intro h
    refine Or.inl ⟨field.drop (ver.length + 1), ?_⟩
    have h2 := (List.take_append_drop (ver.length + 1) field).symm
    rw [h] at h2
    rw [h2]
    simp

set_option maxRecDepth 100000 in
/-- C8, as stated, fails: the field `sample_version_field` has 32 bytes and
differs from the receiver's NUL-padded version string in one byte, and the
receiver accepts the preamble. -/
theorem version_check_not_byte_exact :
    sample_version_field.length = VERSION_LENGTH ∧
    sample_version_field ≠ version_str sample_version ∧
    server_preamble sample_version 3
        (server_init [1, 2, 4] (sample_version_field ++ (bytes_u64 3 ++ [])))
      = some { (server_init [1, 2, 4] (sample_version_field ++ (bytes_u64 3 ++ []))) with
          input := [], misc_received := true } := by
  decide

/-- C8, amended. The version check compares C strings: on a 32-byte version
field followed by the receiver's own file size, the preamble is accepted iff
the field, up to and including its first NUL byte, is the receiver's version
string followed by NUL; bytes after that are not compared. For every other
field the handler aborts in the state it was in, before any chunk header is
read. A field equal to the receiver's NUL-padded version string is accepted. -/
theorem version_check_c_string (ver : List Nat) (F : Nat) (st : server_state)
    (field X : List Nat) (current_num : Int) (current_hash : XXH128_hash_t)
    (pairs : List (Int × XXH128_hash_t)) (hv : ∀ b ∈ ver, b ≠ 0)
    (hvl : ver.length < VERSION_LENGTH) (hF : F < 2 ^ 64)
    (hm : st.misc_received = false) (hf : field.length = VERSION_LENGTH)
    (hin : st.input = field ++ (bytes_u64 F ++ X)) :
    (server_preamble ver F st = some { st with input := X, misc_received := true } ↔
      field.take (ver.length + 1) = ver ++ [0]) ∧
    (field.take (ver.length + 1) ≠ ver ++ [0] →
      on_incoming_connection ver F ((current_num, current_hash) :: pairs) st = .aborted st) ∧
    (field = version_str ver →
      server_preamble ver F st = some { st with input := X, misc_received := true }) := by
  have hp := server_preamble_fields ver F st field (bytes_u64 F) X hm hf (bytes_u64_length F) hin
  have hs := strcmp_eq_field ver field hv (by rw [hf]; exact hvl)
  have ho : ofLE (bytes_u64 F) = F := ofLE_bytes_u64_of_lt hF
  refine ⟨⟨fun h => ?_, fun h => ?_⟩, fun h => ?_, fun h => ?_⟩
  · by_contra hc
    rw [if_neg (fun hh => hc (hs.mp hh.1))] at hp
    rw [hp] at h
    cases h
  · rw [if_pos ⟨hs.mpr h, ho⟩] at hp
    exact hp
  · rw [if_neg (fun hh => h (hs.mp hh.1))] at hp
    rw [on_incoming_connection, hp]
  · rw [if_pos ⟨by rw [h]; exact strcmp_eq_version_str hv hvl, ho⟩] at hp
    exact hp

set_option maxRecDepth 100000 in
theorem version_check_c_string_witness :
    server_preamble sample_version 3
        (server_init [1, 2, 4] (version_str sample_version ++ (bytes_u64 3 ++ [])))
      = some { (server_init [1, 2, 4] (version_str sample_version ++ (bytes_u64 3 ++ []))) with
          input := [], misc_received := true } :=
  (version_check_c_string sample_version 3
    (server_init [1, 2, 4] (version_str sample_version ++ (bytes_u64 3 ++ [])))
    (version_str sample_version) [] 1 ⟨8, 3⟩ [] sample_version_ok.1 sample_version_ok.2
    (by decide) rfl (by decide) rfl).2.2 rfl

set_option maxRecDepth 100000 in
/-- C7 on the code: with an empty file the reader pushes no chunk, the
sender's `worker_thr` goes straight to `client_send_exit` on a client that
never connected, and the process is aborted with nothing written: neither
the preamble nor the end-of-stream mark. -/
theorem empty_file_sender_writes_nothing :
    reader_thr sample_hash [] = some [] ∧
    worker_thr_client sample_version 0 [] (client_init []) = .aborted (client_init []) ∧
    (client_init []).output = [] ∧
    (client_init []).output
      ≠ version_str sample_version ++ bytes_u64 0 ++ bytes_i64 (-1) ∧
    worker_thr_server [] = [] ∧
    on_incoming_connection sample_version 0 (worker_thr_server []) (server_init [] [])
      = .waiting (server_init [] []) := by
  refine ⟨?_, by decide, rfl, by decide, rfl, by decide⟩
  rw [reader_thr_eq _ _ (by decide)]
  decide

set_option maxRecDepth 100000 in
/-- C6 on the code: in the example session the sender's last bytes are the
end-of-stream mark -1, and the handler, having served the one chunk, is left
waiting for a further rendezvous pair with the mark unread: it does not leave
its loop. -/
theorem sentinel_left_unread :
    sample_to_server = (sample_to_server.take (sample_to_server.length - 8))
      ++ bytes_i64 (-1) ∧
    i64_of_bytes (bytes_i64 (-1)) = -1 ∧
    on_incoming_connection sample_version 3 (worker_thr_server [sample_chunk_r])
      (server_init [1, 2, 4] sample_to_server) = .waiting sample_final ∧
    sample_final.input = bytes_i64 (-1) ∧
    sample_final.log.length = 1 := by
  refine ⟨by decide, by decide, sample_receiver, rfl, rfl⟩

/-- In every completed session between files of equal length the handler ends
waiting for a rendezvous pair, the end-of-stream mark unread. -/
theorem session_handler_left_waiting {ver : List Nat} {X : List Nat → XXH128_hash_t}
    {sfile rfile : List Nat} {cs rs : List chunk} {to_server to_client : List Nat}
    {R : server_result} (h : session ver X sfile rfile cs rs to_server to_client R)
    (hv : ∀ b ∈ ver, b ≠ 0) (hvl : ver.length < VERSION_LENGTH)
    (hlen : sfile.length = rfile.length) (hF : sfile.length < 2 ^ 63) :
    ∃ st', R = .waiting st' ∧ st'.input = bytes_i64 (-1) := by
  obtain ⟨_, _, st', hR, _, hinp, _⟩ := session_facts hv hvl hlen hF h
  exact ⟨st', hR, hinp⟩

theorem log_ok_append (r : served) : ∀ (l : List served) (start : Nat),
    log_ok start l → r.offset = start + (l.map served.size).sum →
    (∀ o d, r.written = some (o, d) → o = r.offset) → log_ok start (l ++ [r]) := by
  intro l
  induction l with
  | nil =>
    intro start _ ho hw
    simp only [List.map_nil, List.sum_nil, Nat.add_zero] at ho
    exact ⟨ho, fun o d h => by rw [hw o d h, ho], trivial⟩
  | cons a l ih =>
    intro start hl ho hw
    obtain ⟨h1, h2, h3⟩ := hl
    refine ⟨h1, h2, ih _ h3 ?_ hw⟩
    rw [ho, List.map_cons, List.sum_cons]
    omega

theorem server_preamble_keeps {ver : List Nat} {F : Nat} {st st1 : server_state}
    (h : server_preamble ver F st = some st1) :
    st1.log = st.log ∧ st1.offset = st.offset ∧ st1.file = st.file ∧
      st1.output = st.output := by
  unfold server_preamble at h
  split at h
  · cases hr : read_all VERSION_LENGTH st.input with
    | none => rw [hr] at h; cases h
    | some q =>
      rw [hr] at h
      simp only at h
      split at h
      · cases h
      · cases hr2 : read_all 8 q.2 with
        | none => rw [hr2] at h; cases h
        | some q2 =>
          rw [hr2] at h
          simp only at h
          split at h
          · cases h
          · simp only [Option.some.injEq] at h
            rw [← h]
            exact ⟨rfl, rfl, rfl, rfl⟩
  · simp only [Option.some.injEq] at h
    rw [h]
    exact ⟨rfl, rfl, rfl, rfl⟩

theorem server_serve_offset_inv {cur hash : XXH128_hash_t} {num : Int} {size : Nat}
    (st : server_state) {st2 : server_state} (hinv : offset_inv st)
    (h : server_serve cur num size hash st = some st2) : offset_inv st2 := by
  obtain ⟨h1, h2⟩ := hinv
  unfold server_serve at h
  split at h
  · simp only [Option.some.injEq] at h
    rw [← h]
    refine ⟨log_ok_append _ _ _ h1 (by simp only [Nat.zero_add]; exact h2)
      (fun o d hw => by cases hw), ?_⟩
    simp only [List.map_append, List.map_cons, List.map_nil, List.sum_append, List.sum_cons,
      List.sum_nil, Nat.add_zero, h2]
  · cases hr : read_all size st.input with
    | none => rw [hr] at h; cases h
    | some p =>
      rw [hr] at h
      simp only [Option.some.injEq] at h
      rw [← h]
      refine ⟨log_ok_append _ _ _ h1 (by simp only [Nat.zero_add]; exact h2)
        (fun o d hw => ?_), ?_⟩
      · simp only [Option.some.injEq, Prod.mk.injEq] at hw
        exact hw.1.symm
      · simp only [List.map_append, List.map_cons, List.map_nil, List.sum_append,
          List.sum_cons, List.sum_nil, Nat.add_zero, h2]

/-- The cursor invariant holds wherever the handler ends. -/
theorem on_incoming_connection_offset_inv (ver : List Nat) (F : Nat) :
    ∀ (pairs : List (Int × XXH128_hash_t)) (st : server_state), offset_inv st →
      offset_inv (on_incoming_connection ver F pairs st).state := by
  intro pairs
  induction pairs with
  | nil => intro st hinv; simpa [on_incoming_connection, server_result.state] using hinv
  | cons p pairs ih =>
    intro st hinv
    obtain ⟨current_num, current_hash⟩ := p
    unfold on_incoming_connection
    cases hp : server_preamble ver F st with
    | none => exact hinv
    | some st1 =>
      obtain ⟨k1, k2, _, _⟩ := server_preamble_keeps hp
      have hinv1 : offset_inv st1 := by
        unfold offset_inv
        rw [k1, k2]; exact hinv
      simp only
      cases hh : server_header current_num st1.input with
      | error => exact hinv1
      | eot rest => exact hinv1
      | header num size hash rest =>
        simp only
        cases hs : server_serve current_hash num size hash { st1 with input := rest } with
        | none => exact hinv1
        | some st2 =>
          simp only
          exact ih st2 (server_serve_offset_inv { st1 with input := rest } hinv1 hs)

theorem served_record_size (c : chunk) (cur : XXH128_hash_t) (off : Nat) :
    (served_record c cur off).size = c.size := by
  unfold served_record
  split <;> rfl

theorem session_log_sizes : ∀ (cs rs : List chunk) (off : Nat), cs.length = rs.length →
    (session_log cs rs off).map served.size = cs.map chunk.size := by
  intro cs
  induction cs with
  | nil => intro rs off _; simp only [session_log, List.map_nil]
  | cons c cs ih =>
    intro rs off hl
    cases rs with
    | nil => simp at hl
    | cons r rs =>
      simp only [session_log, List.map_cons, served_record_size]
      rw [ih rs _ (by simpa using hl)]

/-- The sum of the first `k` sizes of a file's chunks, for `k` below the
number of chunks: `k` full chunks. -/
theorem chunk_sizes_take_sum (q last k : Nat) (hk : k ≤ q) :
    ((List.replicate q QC_CHUNK_SIZE ++ [last]).take k).sum = k * QC_CHUNK_SIZE := by
  rw [List.take_append_of_le_length (by rw [List.length_replicate]; exact hk),
    List.take_replicate, Nat.min_eq_left hk, List.sum_replicate, smul_eq_mul]

/-- What a completed session on one file held by both peers looks like. -/
theorem session_same_file {ver : List Nat} {X : List Nat → XXH128_hash_t}
    {file : List Nat} {cs rs : List chunk} {to_server to_client : List Nat}
    {R : server_result} (h : session ver X file file cs rs to_server to_client R)
    (hv : ∀ b ∈ ver, b ≠ 0) (hvl : ver.length < VERSION_LENGTH)
    (hF : file.length < 2 ^ 63) :
    rs = cs ∧
    to_client = cs.flatMap (fun _ => QC_EQL_MESSAGE ++ QC_ACK_MESSAGE) ∧
    to_server = version_str ver ++ bytes_u64 file.length ++ cs.flatMap header_bytes
      ++ bytes_i64 (-1) ∧
    R.state.log.length = cs.length ∧
    (∀ r ∈ R.state.log, r.reply = QC_EQL_MESSAGE ∧ r.written = none) ∧
    R.state.file = file := by
  have hrc : rs = cs := by
    have := h.receiver_chunks
    rw [h.sender_chunks, Option.some.injEq] at this
    exact this.symm
  subst hrc
  obtain ⟨_, _, st', hR, hview, _, hts, htc, _⟩ := session_facts hv hvl rfl hF h
  have hne := session_chunks_ne_nil h
  have hRs : R.state = st' := by rw [hR]; rfl
  have hlog : st'.log = session_log rs rs 0 := by
    have e : st'.log = st'.view.log := rfl
    rw [e, hview, sync_view_log]
    simp only [server_init, server_state.view, List.nil_append]
  have hfile : st'.file = file := by
    have e : st'.file = st'.view.file := rfl
    rw [e, hview, sync_view_same_file]
    simp only [server_init, server_state.view]
  refine ⟨rfl, ?_, ?_, ?_, ?_, ?_⟩
  · rw [htc, replies_eq, zip_self_flatMap]
    simp only [if_true]
  · cases hc : rs with
    | nil => exact absurd hc hne
    | cons c cs' =>
      rw [hts, hc, frames_false_cons, zip_self_flatMap]
      simp only [if_true, List.append_nil]
  · rw [hRs, hlog, session_log_length rs rs 0 rfl]
  · rw [hRs, hlog]
    exact session_log_same rs 0
  · rw [hRs, hfile]

/-- The headers of the sender's chunks pass the receiver's checks when the
files have equal length and no sender hash is the zero pair. -/
theorem chunks_from_header_ok (X : List Nat → XXH128_hash_t) (sfile rfile : List Nat)
    (hF : sfile.length < 2 ^ 63) (hlen : sfile.length = rfile.length) :
    ∀ (q pos n : Nat), pos ≤ sfile.length → chunk_count (sfile.length - pos) = q →
      n + q < 2 ^ 63 →
      (∀ c ∈ chunks_from X sfile q pos n, ¬ (c.hash.low64 = 0 ∧ c.hash.high64 = 0)) →
      List.Forall₂ header_ok (chunks_from X sfile q pos n) (chunks_from X rfile q pos n) := by
  intro q
  induction q with
  | zero => intro pos n _ _ _ _; simp only [chunks_from]; exact List.Forall₂.nil
  | succ q ih =>
    intro pos n hp hq hn hz
    have hlt : pos < sfile.length := by
      by_contra hge
      have h0 : sfile.length - pos = 0 := by omega
      rw [h0, chunk_count_zero] at hq
      omega
    obtain ⟨h1, h2, h3⟩ := reader_chunk_size_bounds hF hlt
    have hstep := chunk_count_step hF hlt
    rw [chunks_from_succ] at hz ⊢
    rw [chunks_from_succ, ← hlen]
    have hmod : (n + 1) % 2 ^ 64 = n + 1 := Nat.mod_eq_of_lt (by omega)
    refine List.Forall₂.cons ⟨?_, ?_, ?_, ?_, ?_⟩ ?_
    · rw [chunk_at_num X sfile pos n (by omega), chunk_at_num X rfile pos n (by omega)]
    · rw [chunk_at_num X sfile pos n (by omega)]
      exact Int.ofNat_nonneg _
    · rw [chunk_at_size]; exact h1
    · rw [chunk_at_size]; exact h2
    · exact hz _ (List.mem_cons_self _ _)
    · rw [hmod]
      rw [hmod] at hz
      exact ih _ _ h3 (by omega) (by omega) (fun c hc => hz c (List.mem_cons_of_mem _ hc))

/-- Between non-empty files of equal length whose sender chunks do not hash
to the zero pair, a session completes. -/
theorem session_exists {ver : List Nat} (X : List Nat → XXH128_hash_t)
    (sfile rfile : List Nat) (hv : ∀ b ∈ ver, b ≠ 0) (hvl : ver.length < VERSION_LENGTH)
    (hlen : sfile.length = rfile.length) (hF : sfile.length < 2 ^ 63)
    (hne : sfile ≠ [])
    (hz : ∀ cs, reader_thr X sfile = some cs →
      ∀ c ∈ cs, ¬ (c.hash.low64 = 0 ∧ c.hash.high64 = 0)) :
    ∃ cs rs to_server to_client R,
      session ver X sfile rfile cs rs to_server to_client R := by
  have hcs := reader_thr_eq X sfile hF
  have hrs := reader_thr_eq X rfile (by rw [← hlen]; exact hF)
  rw [← hlen] at hrs
  have hpos : 0 < sfile.length := List.length_pos.mpr hne
  have hcc := chunk_count_le sfile.length
  have hall := chunks_from_header_ok X sfile rfile hF hlen (chunk_count sfile.length) 0 0
    (Nat.zero_le _) (by rw [Nat.sub_zero]) (by omega) (hz _ hcs)
  obtain ⟨q, hq⟩ := chunk_count_pos _ hpos
  have hnil : chunks_from X sfile (chunk_count sfile.length) 0 0 ≠ [] := by
    rw [hq, chunks_from_succ]
    exact List.cons_ne_nil _ _
  generalize hcsd : chunks_from X sfile (chunk_count sfile.length) 0 0 = cs at hcs hall hnil
  generalize hrsd : chunks_from X rfile (chunk_count sfile.length) 0 0 = rs at hrs hall
  have hwf := reader_thr_wf hF hcs
  have hmod : sfile.length % 2 ^ 64 = rfile.length := by
    rw [Nat.mod_eq_of_lt (by omega), hlen]
  have h1 : (client_init (replies cs rs)).misc_sent
      = (server_init rfile (frames ver sfile.length false cs rs ++ bytes_i64 (-1))).misc_received := by
    simp only [client_init, server_init]
  have h2 : (client_init (replies cs rs)).input = replies cs rs := by
    simp only [client_init]
  have h3 : (server_init rfile (frames ver sfile.length false cs rs ++ bytes_i64 (-1))).input
      = frames ver sfile.length (client_init (replies cs rs)).misc_sent cs rs
        ++ bytes_i64 (-1) := by
    simp only [client_init, server_init]
  obtain ⟨stc', st', hw, hwo, hsv, hsvo⟩ :=
    session_forward sfile.length rfile.length hv hvl cs rs hall hwf
      (client_init (replies cs rs))
      (server_init rfile (frames ver sfile.length false cs rs ++ bytes_i64 (-1)))
      h1 (fun _ => hmod) (fun h => absurd h hnil) h2 h3
  have e1 : (client_init (replies cs rs)).output = [] := by simp only [client_init]
  have e2 : (server_init rfile (frames ver sfile.length false cs rs ++ bytes_i64 (-1))).output
      = [] := by simp only [server_init]
  have e3 : (server_init rfile (frames ver sfile.length false cs rs ++ bytes_i64 (-1))).input
      = frames ver sfile.length false cs rs ++ bytes_i64 (-1) := by simp only [server_init]
  have ho1 : stc'.output = frames ver sfile.length false cs rs ++ bytes_i64 (-1) :=
    hwo.trans (by rw [e1, e3, List.nil_append])
  have ho2 : st'.output = replies cs rs :=
    hsvo.trans (by rw [e2, h2, List.nil_append])
  have hsess : session ver X sfile rfile cs rs
      (frames ver sfile.length false cs rs ++ bytes_i64 (-1)) (replies cs rs)
      (.waiting st') :=
    { sender_chunks := hcs
      receiver_chunks := hrs
      sender := ⟨stc', hw, ho1⟩
      receiver := hsv
      not_aborted := by simp only [server_result.is_aborted]
      answered := by simp only [server_result.state]; exact ho2 }
  exact ⟨cs, rs, _, _, _, hsess⟩

/-- C3. Sender and receiver hold the same file. In every session that
completes, every chunk is answered "EQL" (then "ACK"), the sender transfers
the preamble, the chunk headers and the end-of-stream mark and no payload
byte, the receiver writes nothing to its file, and its file is the same
before and after. Such a session exists whenever the file is not empty and
no chunk hashes to the pair (0, 0), which the receiver rejects. -/
theorem identical_files_session (ver : List Nat) (X : List Nat → XXH128_hash_t)
    (file : List Nat) (hv : ∀ b ∈ ver, b ≠ 0) (hvl : ver.length < VERSION_LENGTH)
    (hF : file.length < 2 ^ 63) :
    (∀ (cs rs : List chunk) (to_server to_client : List Nat) (R : server_result),
      session ver X file file cs rs to_server to_client R →
      rs = cs ∧
      to_client = cs.flatMap (fun _ => QC_EQL_MESSAGE ++ QC_ACK_MESSAGE) ∧
      to_server = version_str ver ++ bytes_u64 file.length ++ cs.flatMap header_bytes
        ++ bytes_i64 (-1) ∧
      R.state.log.length = cs.length ∧
      (∀ r ∈ R.state.log, r.reply = QC_EQL_MESSAGE ∧ r.written = none) ∧
      R.state.file = file) ∧
    (file ≠ [] →
      (∀ cs, reader_thr X file = some cs →
        ∀ c ∈ cs, ¬ (c.hash.low64 = 0 ∧ c.hash.high64 = 0)) →
      ∃ cs rs to_server to_client R,
        session ver X file file cs rs to_server to_client R) :=
  ⟨fun _ _ _ _ _ h => session_same_file h hv hvl hF,
    fun hne hz => session_exists X file file hv hvl rfl hF hne hz⟩

theorem identical_files_session_witness :
    ∃ cs rs to_server to_client R,
      session sample_version sample_hash [1, 2, 3] [1, 2, 3] cs rs to_server to_client R :=
  (identical_files_session sample_version sample_hash [1, 2, 3] sample_version_ok.1
    sample_version_ok.2 (by decide)).2 (by decide)
    (fun cs h c hc => by
      rw [sample_reader_s, Option.some.injEq] at h
      rw [← h, List.mem_singleton] at hc
      rw [hc]
      decide)

theorem queue_inv_init (chunks : List chunk) : queue_inv chunks (queue_init chunks) := by
  refine ⟨by simp [queue_init], by simp [queue_init], by simp [queue_init], ?_, ?_, ?_, ?_⟩
  · intro h; simp [queue_init] at h
  · simp [queue_init]
  · intro h; simp [queue_init] at h
  · intro h; simp [queue_init] at h

theorem queue_step_inv {chunks : List chunk} {st st' : queue_state} (a : queue_action)
    (hinv : queue_inv chunks st) (h : queue_step st a = some st') : queue_inv chunks st' := by
  obtain ⟨h1, h2, h3, h4, h5, h6, h7⟩ := hinv
  cases a with
  | reader_check =>
    simp only [queue_step] at h
    split at h
    · rename_i c rest hr hp
      split at h
      · simp only [Option.some.injEq] at h
        rw [← h]; exact ⟨h1, h2, h3, h4, h5, h6, h7⟩
      · rename_i hlt
        simp only [Option.some.injEq] at h
        rw [← h]
        refine ⟨h1, h2, h3, fun _ => ?_, ?_, ?_, h7⟩
        · simp only [g_async_queue_length] at hlt
          show st.queue.length < QC_MAX_READER_QUEUE + st.waiting_threads
          omega
        · show st.is_readthread_finished = true ↔ reader_pc.ready = reader_pc.finished
          rw [h5, hr]; simp
        · intro hc; cases hc
    · cases h
  | reader_push =>
    simp only [queue_step] at h
    split at h
    · rename_i c rest hr hp
      simp only [Option.some.injEq] at h
      rw [← h]
      have := h4 hr
      refine ⟨?_, h2, ?_, (fun hc => nomatch hc), ?_, (fun hc => nomatch hc), h7⟩
      · show st.popped ++ (st.queue ++ [c]) ++ rest = chunks
        rw [← h1, hp]; simp only [List.append_assoc, List.singleton_append]
      · show (st.queue ++ [c]).length ≤ QC_MAX_READER_QUEUE + st.waiting_threads
        rw [List.length_append, List.length_singleton]; omega
      · show st.is_readthread_finished = true ↔ reader_pc.checking = reader_pc.finished
        rw [h5, hr]; simp
    · cases h
  | reader_finish =>
    simp only [queue_step] at h
    split at h
    · rename_i hr hp
      simp only [Option.some.injEq] at h
      rw [← h]
      exact ⟨h1, h2, h3, (fun hc => nomatch hc), by simp, fun _ => hp, fun _ => rfl⟩
    · cases h
  | worker_length =>
    simp only [queue_step] at h
    split at h
    · rename_i hw
      have hw0 : st.waiting_threads = 0 := by rw [h2, hw]; simp
      split at h <;>
      · simp only [Option.some.injEq] at h
        rw [← h]
        exact ⟨h1, by simp [hw0], h3, h4, h5, h6, (fun hc => nomatch hc)⟩
    · cases h
  | worker_flag =>
    simp only [queue_step] at h
    split at h
    · rename_i hw
      have hw0 : st.waiting_threads = 0 := by rw [h2, hw]; simp
      split at h
      · simp only [Option.some.injEq] at h
        rw [← h]
        exact ⟨h1, by simp [hw0], h3, h4, h5, h6, (fun hc => nomatch hc)⟩
      · rename_i hf
        simp only [Option.some.injEq] at h
        rw [← h]
        exact ⟨h1, by simp [hw0], h3, h4, h5, h6, fun _ => by simpa using hf⟩
    · cases h
  | worker_pop =>
    simp only [queue_step] at h
    split at h
    · rename_i c rest hw hq
      have hw0 : st.waiting_threads = 0 := by rw [h2, hw]; simp
      simp only [Option.some.injEq] at h
      rw [← h]
      rw [hq] at h1 h3 h4
      simp only [List.length_cons] at h3 h4
      refine ⟨?_, by simp [hw0], ?_, fun hr => ?_, h5, h6, (fun hc => nomatch hc)⟩
      · show st.popped ++ [c] ++ rest ++ st.pending = chunks
        rw [← h1]; simp only [List.append_assoc, List.singleton_append]
      · show rest.length ≤ QC_MAX_READER_QUEUE + st.waiting_threads
        omega
      · show rest.length < QC_MAX_READER_QUEUE + st.waiting_threads
        have := h4 hr; omega
    · rename_i hw hq
      have hw0 : st.waiting_threads = 0 := by rw [h2, hw]; simp
      simp only [Option.some.injEq] at h
      rw [← h]
      refine ⟨h1, by simp [hw0], ?_, fun hr => ?_, h5, h6, (fun hc => nomatch hc)⟩
      · show st.queue.length ≤ QC_MAX_READER_QUEUE + (st.waiting_threads + 1)
        omega
      · show st.queue.length < QC_MAX_READER_QUEUE + (st.waiting_threads + 1)
        omega
    · cases h
  | worker_wake =>
    simp only [queue_step] at h
    split at h
    · rename_i c rest hw hq
      have hw1 : st.waiting_threads = 1 := by rw [h2, hw]; simp
      simp only [Option.some.injEq] at h
      rw [← h]
      rw [hq] at h1 h3 h4
      simp only [List.length_cons] at h3 h4
      refine ⟨?_, by simp [hw1], ?_, fun hr => ?_, h5, h6, (fun hc => nomatch hc)⟩
      · show st.popped ++ [c] ++ rest ++ st.pending = chunks
        rw [← h1]; simp only [List.append_assoc, List.singleton_append]
      · show rest.length ≤ QC_MAX_READER_QUEUE + (st.waiting_threads - 1)
        omega
      · show rest.length < QC_MAX_READER_QUEUE + (st.waiting_threads - 1)
        have := h4 hr; omega
    · rename_i hw hq
      have hw1 : st.waiting_threads = 1 := by rw [h2, hw]; simp
      simp only [Option.some.injEq] at h
      rw [← h]
      rw [hq] at h3 h4
      refine ⟨h1, by simp [hw1], ?_, fun hr => ?_, h5, h6, (fun hc => nomatch hc)⟩
      · show st.queue.length ≤ QC_MAX_READER_QUEUE + (st.waiting_threads - 1)
        rw [hq]; simp
      · show st.queue.length < QC_MAX_READER_QUEUE + (st.waiting_threads - 1)
        rw [hq]; simp [QC_MAX_READER_QUEUE]
    · cases h
  | worker_done =>
    simp only [queue_step] at h
    split at h
    · rename_i c hw
      have hw0 : st.waiting_threads = 0 := by rw [h2, hw]; simp
      simp only [Option.some.injEq] at h
      rw [← h]
      exact ⟨h1, by simp [hw0], h3, h4, h5, h6, (fun hc => nomatch hc)⟩
    · cases h

theorem queue_run_inv {chunks : List chunk} : ∀ (as : List queue_action) (st st' : queue_state),
    queue_inv chunks st → queue_run st as = some st' → queue_inv chunks st' := by
  intro as
  induction as with
  | nil =>
    intro st st' hinv h
    simp only [queue_run, Option.some.injEq] at h
    rw [← h]; exact hinv
  | cons a as ih =>
    intro st st' hinv h
    simp only [queue_run] at h
    cases hs : queue_step st a with
    | none => rw [hs] at h; cases h
    | some st1 =>
      rw [hs] at h
      exact ih st1 st' (queue_step_inv a hinv hs) h

/-- What holds of the queue in every reachable state: the length GLib reports
stays within `QC_MAX_READER_QUEUE`, and the queue holds at most one chunk more
than that, the extra one only while the worker is blocked in its pop. -/
theorem queue_bounds (chunks : List chunk) (as : List queue_action) (st : queue_state)
    (h : queue_run (queue_init chunks) as = some st) :
    g_async_queue_length st ≤ (QC_MAX_READER_QUEUE : Int) ∧
      st.queue.length ≤ QC_MAX_READER_QUEUE + 1 ∧
      (st.worker ≠ .in_pop → st.queue.length ≤ QC_MAX_READER_QUEUE) := by
  obtain ⟨_, h2, h3, _, _, _, _⟩ := queue_run_inv as _ st (queue_inv_init chunks) h
  refine ⟨?_, ?_, fun hw => ?_⟩
  · simp only [g_async_queue_length]; omega
  · by_cases hw : st.worker = .in_pop
    · rw [if_pos hw] at h2; omega
    · rw [if_neg hw] at h2; omega
  · rw [if_neg hw] at h2; omega

theorem queue_run_append : ∀ (as bs : List queue_action) (st : queue_state),
    queue_run st (as ++ bs) = (queue_run st as).bind fun st' => queue_run st' bs := by
  intro as
  induction as with
  | nil => intro bs st; rfl
  | cons a as ih =>
    intro bs st
    simp only [List.cons_append, queue_run]
    cases queue_step st a with
    | none => rfl
    | some st1 => exact ih bs st1

/-- With the worker blocked in its pop, a reader check on a queue of at most
`QC_MAX_READER_QUEUE` items succeeds and the push follows. -/
theorem queue_run_check_push (st : queue_state) (c : chunk) (rest : List chunk)
    (hr : st.reader = .checking) (hp : st.pending = c :: rest)
    (hw : st.waiting_threads = 1) (hq : st.queue.length ≤ QC_MAX_READER_QUEUE) :
    queue_run st [.reader_check, .reader_push]
      = some { st with pending := rest, queue := st.queue ++ [c] } := by
  have hlen : ¬ g_async_queue_length st ≥ (QC_MAX_READER_QUEUE : Int) := by
    simp only [g_async_queue_length, hw]
    omega
  obtain ⟨pending, queue, waiting, fin, reader, worker, popped⟩ := st
  simp only at hr hp hw hq hlen
  subst hr hp
  simp only [queue_run, queue_step, if_neg hlen]

theorem queue_run_fill : ∀ (n : Nat) (st : queue_state) (l rest : List chunk),
    l.length = n → st.reader = .checking → st.pending = l ++ rest →
    st.waiting_threads = 1 → st.queue.length + n ≤ QC_MAX_READER_QUEUE + 1 →
    queue_run st (List.replicate n [queue_action.reader_check, queue_action.reader_push]).flatten
      = some { st with pending := rest, queue := st.queue ++ l } := by
  intro n
  induction n with
  | zero =>
    intro st l rest hl _ hp _ _
    have : l = [] := List.length_eq_zero.mp hl
    subst this
    simp only [List.nil_append] at hp
    simp only [List.replicate_zero, List.flatten_nil, queue_run, List.append_nil, ← hp]
  | succ n ih =>
    intro st l rest hl hr hp hw hq
    cases l with
    | nil => simp at hl
    | cons c l =>
      simp only [List.length_cons, Nat.add_right_cancel_iff] at hl
      rw [List.replicate_succ, List.flatten_cons, queue_run_append,
        queue_run_check_push st c (l ++ rest) hr (by rw [hp]; rfl) hw (by omega)]
      simp only [Option.some_bind]
      have hq' : (st.queue ++ [c]).length + n ≤ QC_MAX_READER_QUEUE + 1 := by
        rw [List.length_append, List.length_singleton]; omega
      rw [ih { st with pending := l ++ rest, queue := st.queue ++ [c] } l rest hl hr rfl hw hq']
      simp only [List.append_assoc, List.singleton_append]

/-- The run that overfills the queue: on any 21 or more chunks the schedule
`overfill_schedule` is enabled step by step and ends with the first 21 chunks
in the queue. -/
theorem queue_run_overfill (chunks : List chunk) (h : 21 ≤ chunks.length) :
    queue_run (queue_init chunks) overfill_schedule
      = some { pending := chunks.drop 21, queue := chunks.take 21, waiting_threads := 1,
               is_readthread_finished := false, reader := .checking, worker := .in_pop,
               popped := [] } := by
  unfold overfill_schedule
  rw [queue_run_append]
  have h1 : queue_run (queue_init chunks) [.worker_length, .worker_flag, .worker_pop]
      = some { queue_init chunks with waiting_threads := 1, worker := .in_pop } := by
    simp [queue_run, queue_step, queue_init, g_async_queue_length]
  rw [h1]
  simp only [Option.some_bind]
  rw [queue_run_fill 21 _ (chunks.take 21) (chunks.drop 21)
    (by rw [List.length_take]; omega) rfl (by simp [queue_init]) rfl
    (by simp [queue_init, QC_MAX_READER_QUEUE])]
  simp [queue_init]

set_option maxRecDepth 10000 in
/-- C13 on the code. The sender's file has 20 * `QC_CHUNK_SIZE` + 1 bytes, so
`reader_thr` builds 21 chunks. The worker finds the queue empty and blocks in
`g_async_queue_timeout_pop`; before it runs again the reader passes its check
of line 95 twenty-one times and pushes all 21 chunks: the queue holds 21
chunks, one more than `QC_MAX_READER_QUEUE`, while `g_async_queue_length`
reports 20. -/
theorem queue_holds_21_chunks :
    ∃ chunks st,
      reader_thr sample_hash (List.replicate (20 * QC_CHUNK_SIZE + 1) 0) = some chunks ∧
      queue_run (queue_init chunks) overfill_schedule = some st ∧
      st.queue = chunks ∧ st.queue.length = 21 ∧ QC_MAX_READER_QUEUE = 20 ∧
      ¬ st.queue.length ≤ QC_MAX_READER_QUEUE ∧
      st.worker = .in_pop ∧ st.waiting_threads = 1 ∧ g_async_queue_length st = 20 := by
  have hlen : (List.replicate (20 * QC_CHUNK_SIZE + 1) 0 : List Nat).length
      = 20 * QC_CHUNK_SIZE + 1 := List.length_replicate _ _
  generalize (List.replicate (20 * QC_CHUNK_SIZE + 1) 0 : List Nat) = file at hlen ⊢
  have hlen' : file.length = 4000000001 := by rw [hlen, QC_CHUNK_SIZE_eq]
  have hF : file.length < 2 ^ 63 := by rw [hlen']; norm_num
  have hcc : chunk_count file.length = 21 := by rw [chunk_count_eq, hlen']
  have hr := reader_thr_eq sample_hash file hF
  have hl := chunks_from_length sample_hash file (chunk_count file.length) 0 0
  generalize chunks_from sample_hash file (chunk_count file.length) 0 0 = chunks at hr hl
  rw [hcc] at hl
  have hrun := queue_run_overfill chunks (by omega)
  have ht : chunks.take 21 = chunks := List.take_of_length_le (by omega)
  rw [ht] at hrun
  refine ⟨chunks, _, hr, hrun, rfl, hl, rfl, ?_, rfl, rfl, ?_⟩
  · show ¬ chunks.length ≤ QC_MAX_READER_QUEUE
    rw [hl]; decide
  · show (chunks.length : Int) - ((1 : Nat) : Int) = 20
    rw [hl]; rfl

theorem worker_thr_popped_early_exit (c1 c2 : chunk) :
    worker_thr_popped [c1, c2] early_exit_schedule = some [c1] ∧
    queue_run (queue_init [c1, c2]) early_exit_schedule
      = some { pending := [], queue := [c2], waiting_threads := 0,
               is_readthread_finished := true, reader := .finished, worker := .exited,
               popped := [c1] } := by
  have h : queue_run (queue_init [c1, c2]) early_exit_schedule
      = some { pending := [], queue := [c2], waiting_threads := 0,
               is_readthread_finished := true, reader := .finished, worker := .exited,
               popped := [c1] } := by
    simp [early_exit_schedule, queue_run, queue_step, queue_init, g_async_queue_length,
      QC_MAX_READER_QUEUE]
  refine ⟨?_, h⟩
  unfold worker_thr_popped
  rw [h]
  simp

theorem worker_thr_popped_drain (c1 c2 : chunk) :
    worker_thr_popped [c1, c2] drain_schedule = some [c1, c2] := by
  have h : queue_run (queue_init [c1, c2]) drain_schedule
      = some { pending := [], queue := [], waiting_threads := 0,
               is_readthread_finished := true, reader := .finished, worker := .exited,
               popped := [c1, c2] } := by
    simp [drain_schedule, queue_run, queue_step, queue_init, g_async_queue_length,
      QC_MAX_READER_QUEUE]
  unfold worker_thr_popped
  rw [h]
  simp

/-- The chunks a worker has popped when it leaves its loop are the first of
the reader's chunks, in order, and the ones it leaves behind are all in the
queue. -/
theorem worker_thr_popped_prefix {chunks popped : List chunk} {as : List queue_action}
    (h : worker_thr_popped chunks as = some popped) :
    ∃ left, chunks = popped ++ left ∧ left.length ≤ QC_MAX_READER_QUEUE := by
  unfold worker_thr_popped at h
  cases hr : queue_run (queue_init chunks) as with
  | none => rw [hr] at h; cases h
  | some st =>
    rw [hr] at h
    simp only at h
    split at h
    · rename_i hw
      simp only [Option.some.injEq] at h
      obtain ⟨h1, h2, h3, _, h5, h6, h7⟩ := queue_run_inv as _ st (queue_inv_init chunks) hr
      have hp : st.pending = [] := h6 (h5.mp (h7 hw))
      rw [hw] at h2
      simp only [reduceCtorEq, if_false] at h2
      refine ⟨st.queue, ?_, by omega⟩
      rw [← h, ← h1, hp, List.append_nil]
    · cases h

theorem server_header_exit (current_num : Int) :
    server_header current_num (bytes_i64 (-1)) = .eot [] := by
  have h : read_all 8 (bytes_i64 (-1) ++ []) = some (bytes_i64 (-1), []) :=
    read_all_append [] (bytes_i64_length (-1))
  rw [List.append_nil] at h
  unfold server_header
  rw [h]
  simp only
  rw [i64_of_bytes_bytes_i64 (by norm_num) (by norm_num), if_pos (by norm_num)]

theorem server_preamble_exit (ver : List Nat) (F : Nat) (st : server_state)
    (hm : st.misc_received = false) (hin : st.input = bytes_i64 (-1)) :
    server_preamble ver F st = none := by
  unfold server_preamble
  have h : read_all VERSION_LENGTH st.input = none := by
    unfold read_all
    rw [hin, bytes_i64_length, if_pos (by decide)]
  rw [hm, h]
  rfl

/-- The handler given only the end-of-stream mark does not come back to its
wait: it leaves its loop, or fails on the missing preamble. -/
theorem on_incoming_connection_exit (ver : List Nat) (F : Nat) (p : Int × XXH128_hash_t)
    (ps : List (Int × XXH128_hash_t)) (st : server_state) (hin : st.input = bytes_i64 (-1)) :
    ∀ st', on_incoming_connection ver F (p :: ps) st ≠ .waiting st' := by
  intro st'
  obtain ⟨cn, ch⟩ := p
  unfold on_incoming_connection
  cases hm : st.misc_received with
  | false =>
    rw [server_preamble_exit ver F st hm hin]
    simp
  | true =>
    rw [server_preamble_received hm]
    simp only
    rw [hin, server_header_exit]
    simp

/-- In a session in which both workers have left their loops, the sender's
worker has uploaded as many chunks as the receiver's worker has published. -/
theorem session_lengths {ver : List Nat} (Fs Fr : Nat)
    (hv : ∀ b ∈ ver, b ≠ 0) (hlen : ver.length < VERSION_LENGTH) :
    ∀ (cs rs : List chunk), (∀ c ∈ cs, c.wf) →
    ∀ (stc stc' : client_state) (sts st' : server_state),
      stc.misc_sent = sts.misc_received →
      worker_thr_client ver Fs cs stc = .returned 0 stc' →
      stc'.output = stc.output ++ sts.input →
      on_incoming_connection ver Fr (worker_thr_server rs) sts = .waiting st' →
      st'.output = sts.output ++ stc.input →
      cs.length = rs.length := by
  intro cs
  induction cs with
  | nil =>
    intro rs _ stc stc' sts st' _ hw hin hR _
    cases rs with
    | nil => rfl
    | cons r rs =>
      exfalso
      simp only [worker_thr_client, client_send_exit] at hw
      split at hw
      · simp only [client_result.returned.injEq, true_and] at hw
        rw [← hw] at hin
        simp only at hin
        have hsi := (List.append_cancel_left hin).symm
        rw [worker_thr_server_cons] at hR
        exact on_incoming_connection_exit ver Fr _ _ sts hsi st' hR
      · cases hw
  | cons c cs ih =>
    intro rs hwf stc stc' sts st' hflag hw hin hR hout
    obtain ⟨st1, hcl, hw1⟩ := worker_thr_client_cons_returned hw
    cases rs with
    | nil =>
      exfalso
      simp only [worker_thr_server, List.map_nil, on_incoming_connection,
        server_result.waiting.injEq] at hR
      rw [← hR] at hout
      have hci : stc.input = [] := by
        have := congrArg List.length hout
        rw [List.length_append] at this
        exact List.length_eq_zero.mp (by omega)
      obtain ⟨resp, _, hi, _⟩ :=
        client_check_and_upload_returned_zero (init_client_connected stc) hcl
      rw [(init_client_fields stc).1, hci] at hi
      have := congrArg List.length hi
      rw [List.length_append, response_bytes_length] at this
      simp only [List.length_nil] at this
      omega
    | cons r rs =>
      obtain ⟨w, hmono⟩ := worker_thr_client_output ver Fs cs st1
      rw [hw1] at hmono
      simp only [client_result.state] at hmono
      rw [worker_thr_server_cons] at hR
      have hna : (on_incoming_connection ver Fr ((r.num, r.hash) :: worker_thr_server rs)
          sts).is_aborted = false := by rw [hR]; rfl
      have hout' : (on_incoming_connection ver Fr ((r.num, r.hash) :: worker_thr_server rs)
          sts).state.output = sts.output ++ stc.input := by rw [hR]; exact hout
      obtain ⟨sts1, hR1, hview, hinp, hmr, hci, hco, hms, hcon, _⟩ :=
        dialogue_step Fs Fr hv hlen (hwf c (List.mem_cons_self _ _)) r.num r.hash
          (worker_thr_server rs) hflag hcl (W := w) (by rw [← hin, hmono]) hna hout'
      have hso : sts1.output = sts.output ++ (reply_bytes c r.hash ++ QC_ACK_MESSAGE) := by
        have := serve_view_output c r.hash sts.view
        rw [← hview] at this
        exact this
      rw [hR1] at hR
      have := ih rs (fun x hx => hwf x (List.mem_cons_of_mem _ hx)) st1 stc' sts1 st'
        (by rw [hms, hmr]) hw1 (by rw [hmono, hinp]) hR
        (by rw [hout, hso, hci]; simp only [List.append_assoc])
      simp only [List.length_cons, this]

theorem chunks_from_take (X : List Nat → XXH128_hash_t) (file : List Nat) :
    ∀ (k q pos n : Nat), k ≤ q →
      (chunks_from X file q pos n).take k = chunks_from X file k pos n := by
  intro k
  induction k with
  | zero => intro q pos n _; simp only [List.take_zero, chunks_from]
  | succ k ih =>
    intro q pos n hk
    cases q with
    | zero => omega
    | succ q =>
      rw [chunks_from_succ, chunks_from_succ, List.take_succ_cons, ih q _ _ (by omega)]

theorem chunk_count_ge_two (len : Nat) : 2 ≤ chunk_count len ↔ QC_CHUNK_SIZE < len := by
  rw [chunk_count_eq, QC_CHUNK_SIZE_eq]
  omega

/-- The receiver's file after the handler has served the first `k` of the
sender's chunks from position `pos` on, when the bytes before `pos` are
already the sender's: the sender's bytes up to the cursor, the receiver's old
bytes from there on. The cursor is at the end of the file exactly when these
are all the chunks. -/
theorem sync_view_prefix_file (X : List Nat → XXH128_hash_t) (sfile rfile : List Nat)
    (hF : sfile.length < 2 ^ 63) (hlen : sfile.length = rfile.length) :
    ∀ (k pos n n' : Nat) (v : receiver_view), pos ≤ sfile.length →
      k ≤ chunk_count (sfile.length - pos) →
      (∀ p ∈ (chunks_from X sfile k pos n).zip (chunks_from X rfile k pos n'),
        p.1.data ≠ p.2.data → p.1.hash ≠ p.2.hash) →
      v.file = sfile.take pos ++ rfile.drop pos → v.offset = pos →
      (sync_view (chunks_from X sfile k pos n) (chunks_from X rfile k pos n') v).file
        = sfile.take (sync_view (chunks_from X sfile k pos n) (chunks_from X rfile k pos n')
            v).offset
          ++ rfile.drop (sync_view (chunks_from X sfile k pos n) (chunks_from X rfile k pos n')
            v).offset ∧
      (k = chunk_count (sfile.length - pos) →
        (sync_view (chunks_from X sfile k pos n) (chunks_from X rfile k pos n') v).offset
          = sfile.length) ∧
      (k < chunk_count (sfile.length - pos) →
        (sync_view (chunks_from X sfile k pos n) (chunks_from X rfile k pos n') v).offset
          = pos + k * QC_CHUNK_SIZE ∧ pos + k * QC_CHUNK_SIZE < sfile.length) := by
  intro k
  induction k with
  | zero =>
    intro pos n n' v hp _ _ hfile hoff
    simp only [chunks_from, sync_view]
    refine ⟨by rw [hoff]; exact hfile, fun h0 => ?_, fun h0 => ?_⟩
    · rw [hoff]
      by_contra hne
      obtain ⟨q', hq'⟩ := chunk_count_pos (sfile.length - pos) (by omega)
      omega
    · rw [hoff]
      refine ⟨by omega, ?_⟩
      by_contra hge
      have h1 : sfile.length - pos = 0 := by omega
      rw [h1, chunk_count_zero] at h0
      omega
  | succ k ih =>
    intro pos n n' v hp hk hH hfile hoff
    have hlt : pos < sfile.length := by
      by_contra hge
      have h0 : sfile.length - pos = 0 := by omega
      rw [h0, chunk_count_zero] at hk
      omega
    obtain ⟨h1, h2, h3⟩ := reader_chunk_size_bounds hF hlt
    have hstep := chunk_count_step hF hlt
    rw [chunks_from_succ, chunks_from_succ] at hH ⊢
    rw [← hlen] at hH ⊢
    simp only [sync_view]
    have hhead := hH (chunk_at X sfile pos n, chunk_at X rfile pos n')
      (by rw [List.zip_cons_cons]; exact List.mem_cons_self _ _)
    simp only at hhead
    have hrs : reader_chunk_size rfile.length pos = reader_chunk_size sfile.length pos := by
      rw [hlen]
    have hv1 : (serve_view (chunk_at X sfile pos n) (chunk_at X rfile pos n').hash v).file
        = sfile.take (pos + reader_chunk_size sfile.length pos)
          ++ rfile.drop (pos + reader_chunk_size sfile.length pos) := by
      unfold serve_view
      by_cases he : are_hashes_equal (chunk_at X rfile pos n').hash (chunk_at X sfile pos n).hash
          = true
      · rw [if_pos he]
        simp only
        rw [hfile]
        apply sync_file_skip
        have hd : (chunk_at X sfile pos n).data = (chunk_at X rfile pos n').data := by
          by_contra hne
          exact hhead hne ((are_hashes_equal_iff _ _).mp he).symm
        rw [chunk_at_data, chunk_at_data, hrs] at hd
        exact hd
      · rw [if_neg he]
        simp only
        rw [hfile, hoff, chunk_at_data]
        exact sync_file_write sfile rfile pos _ hlen h3
    have hv2 : (serve_view (chunk_at X sfile pos n) (chunk_at X rfile pos n').hash v).offset
        = pos + reader_chunk_size sfile.length pos := by
      unfold serve_view
      split <;> simp only [chunk_at_size, hoff]
    obtain ⟨e1, e2, e3⟩ := ih (pos + reader_chunk_size sfile.length pos) ((n + 1) % 2 ^ 64)
      ((n' + 1) % 2 ^ 64)
      (serve_view (chunk_at X sfile pos n) (chunk_at X rfile pos n').hash v) h3 (by omega)
      (fun p hp' => hH p (by rw [List.zip_cons_cons]; exact List.mem_cons_of_mem _ hp'))
      hv1 hv2
    refine ⟨e1, fun h0 => e2 (by omega), fun h0 => ?_⟩
    have hcc : 2 ≤ chunk_count (sfile.length - pos) := by omega
    rw [chunk_count_ge_two] at hcc
    have hsz : reader_chunk_size sfile.length pos = QC_CHUNK_SIZE :=
      reader_chunk_size_of_lt hF (by omega)
    obtain ⟨e4, e5⟩ := e3 (by omega)
    rw [hsz] at e4 e5 ⊢
    rw [e4]
    constructor
    · rw [Nat.succ_mul]; omega
    · rw [Nat.succ_mul]; omega

theorem popped_eq_chunks_from {X : List Nat → XXH128_hash_t} {file : List Nat}
    {chunks popped : List chunk} {as : List queue_action} (hF : file.length < 2 ^ 63)
    (hr : reader_thr X file = some chunks) (hp : worker_thr_popped chunks as = some popped) :
    popped.length ≤ chunk_count file.length ∧
      popped = chunks_from X file popped.length 0 0 ∧ (∀ c ∈ popped, c.wf) := by
  obtain ⟨left, hl, _⟩ := worker_thr_popped_prefix hp
  have hwf := reader_thr_wf hF hr
  rw [reader_thr_eq X file hF, Option.some.injEq] at hr
  have hlen : chunks.length = chunk_count file.length := by
    rw [← hr, chunks_from_length]
  have hle : popped.length ≤ chunk_count file.length := by
    rw [← hlen, hl, List.length_append]; omega
  refine ⟨hle, ?_, fun c hc => hwf c (by rw [hl]; exact List.mem_append_left _ hc)⟩
  have ht : chunks.take popped.length = popped := by
    rw [hl, List.take_left]
  rw [← hr, chunks_from_take X file _ _ 0 0 hle] at ht
  exact ht.symm

/-- What a session between files of equal length looks like when both
workers have left their loops. -/
theorem scheduled_session_facts {ver : List Nat} {X : List Nat → XXH128_hash_t}
    {sfile rfile : List Nat} {sched_s sched_r : List queue_action} {cs rs : List chunk}
    {to_server to_client : List Nat} {R : server_result}
    (hv : ∀ b ∈ ver, b ≠ 0) (hvl : ver.length < VERSION_LENGTH)
    (hlen : sfile.length = rfile.length) (hF : sfile.length < 2 ^ 63)
    (h : scheduled_session ver X sfile rfile sched_s sched_r cs rs to_server to_client R) :
    cs.length = rs.length ∧ cs.length ≤ chunk_count sfile.length ∧
    cs = chunks_from X sfile cs.length 0 0 ∧ rs = chunks_from X rfile cs.length 0 0 ∧
    ∃ st', R = .waiting st' ∧
      st'.view = sync_view cs rs (server_init rfile to_server).view ∧
      st'.input = bytes_i64 (-1) ∧
      to_server = frames ver sfile.length false cs rs ++ bytes_i64 (-1) ∧
      to_client = replies cs rs ∧
      List.Forall₂ header_ok cs rs := by
  obtain ⟨chs, hrs, hps⟩ := h.sender_popped
  obtain ⟨chr, hrr, hpr⟩ := h.receiver_popped
  obtain ⟨hle, hcs, hwf⟩ := popped_eq_chunks_from hF hrs hps
  obtain ⟨_, hrs', _⟩ := popped_eq_chunks_from (by rw [← hlen]; exact hF) hrr hpr
  obtain ⟨stc, hcl, hto⟩ := h.sender
  obtain ⟨st0, hR0⟩ := h.served
  have hrec := h.receiver
  have hans := h.answered
  rw [hR0] at hrec hans
  simp only [server_result.state] at hans
  have hl : cs.length = rs.length :=
    session_lengths sfile.length rfile.length hv hvl cs rs hwf (client_init to_client) stc
      (server_init rfile to_server) st0 rfl hcl
      (by rw [hto]; simp only [client_init, server_init, List.nil_append]) hrec
      (by rw [hans]; simp only [client_init, server_init, List.nil_append])
  obtain ⟨st', hfin, hview, hinp, hsi, hci, hall, _⟩ :=
    session_induction sfile.length rfile.length hv hvl cs rs hl hwf (client_init to_client) stc
      (server_init rfile to_server) rfl hcl
      (by rw [hto]; simp only [client_init, server_init, List.nil_append])
      (by rw [hrec]; rfl)
      (by rw [hrec]; simp only [server_result.state, client_init, server_init, List.nil_append]
          exact hans)
  refine ⟨hl, hle, hcs, ?_, st', ?_, hview, hinp, ?_, ?_, hall⟩
  · rw [hl]; exact hrs'
  · rw [← h.receiver, hfin]
  · simpa [client_init, server_init] using hsi
  · simpa [client_init] using hci

/-- The receiver's file at the end of a session between files of equal
length, whatever the thread schedules: it is the sender's file up to the end
of the last chunk the sender's worker uploaded, and the receiver's old bytes
from there on. It is the sender's file when the worker uploaded every chunk;
when it left its loop after `k` chunks, fewer than the file has, the bytes
from `k * QC_CHUNK_SIZE` on are not synchronised. -/
theorem scheduled_session_file {ver : List Nat} {X : List Nat → XXH128_hash_t}
    {sfile rfile : List Nat} {sched_s sched_r : List queue_action} {cs rs : List chunk}
    {to_server to_client : List Nat} {R : server_result}
    (hv : ∀ b ∈ ver, b ≠ 0) (hvl : ver.length < VERSION_LENGTH)
    (hlen : sfile.length = rfile.length) (hF : sfile.length < 2 ^ 63)
    (hhash : ∀ p ∈ cs.zip rs, p.1.data ≠ p.2.data → p.1.hash ≠ p.2.hash)
    (h : scheduled_session ver X sfile rfile sched_s sched_r cs rs to_server to_client R) :
    R.state.file = sfile.take R.state.offset ++ rfile.drop R.state.offset ∧
    (cs.length = chunk_count sfile.length → R.state.file = sfile) ∧
    (cs.length < chunk_count sfile.length →
      R.state.offset = cs.length * QC_CHUNK_SIZE ∧ cs.length * QC_CHUNK_SIZE < sfile.length ∧
      R.state.file = sfile.take (cs.length * QC_CHUNK_SIZE)
        ++ rfile.drop (cs.length * QC_CHUNK_SIZE)) := by
  obtain ⟨hl, hle, hcs, hrs, st', hR, hview, _⟩ := scheduled_session_facts hv hvl hlen hF h
  have hf : R.state.file = st'.view.file := by rw [hR]; rfl
  have ho : R.state.offset = st'.view.offset := by rw [hR]; rfl
  rw [hf, ho, hview]
  rw [hcs, hrs] at hhash
  generalize cs.length = k at hcs hrs hhash hle ⊢
  subst hcs hrs
  obtain ⟨e1, e2, e3⟩ := sync_view_prefix_file X sfile rfile hF hlen k 0 0 0
    (server_init rfile to_server).view (Nat.zero_le _) (by rw [Nat.sub_zero]; exact hle) hhash
    (by simp only [server_init, server_state.view, List.take_zero, List.drop_zero,
      List.nil_append]) rfl
  rw [Nat.sub_zero] at e2 e3
  refine ⟨e1, fun hk => ?_, fun hk => ?_⟩
  · rw [e1, e2 hk, List.take_length, hlen, List.drop_length, List.append_nil]
  · obtain ⟨e4, e5⟩ := e3 hk
    rw [Nat.zero_add] at e4 e5
    exact ⟨e4, e5, by rw [e1, e4]⟩

theorem chunk_count_two {len : Nat} (h1 : QC_CHUNK_SIZE < len) (h2 : len ≤ 2 * QC_CHUNK_SIZE) :
    chunk_count len = 2 := by
  rw [chunk_count_eq]
  rw [QC_CHUNK_SIZE_eq] at h1 h2
  omega

/-- The chunks `reader_thr` builds for a file of two chunks. -/
theorem reader_thr_two_chunks (X : List Nat → XXH128_hash_t) (file : List Nat)
    (h1 : QC_CHUNK_SIZE < file.length) (h2 : file.length ≤ 2 * QC_CHUNK_SIZE) :
    reader_thr X file = some [chunk_at X file 0 0, chunk_at X file QC_CHUNK_SIZE 1] := by
  have hF : file.length < 2 ^ 63 := by
    rw [QC_CHUNK_SIZE_eq] at h2
    have : (400000000 : Nat) < 2 ^ 63 := by norm_num
    omega
  rw [reader_thr_eq X file hF, chunk_count_two h1 h2, chunks_from_succ, chunks_from_succ]
  have hs : reader_chunk_size file.length 0 = QC_CHUNK_SIZE :=
    reader_chunk_size_of_lt hF (by omega)
  rw [hs]
  simp only [chunks_from, Nat.zero_add]
  rfl

/-- On files of two chunks and equal length there is a session in which both
workers leave their loops after the first chunk, the second still in the
queue, and both processes end without a fatal error. -/
theorem early_exit_session {ver : List Nat} (X : List Nat → XXH128_hash_t)
    (sfile rfile : List Nat) (hv : ∀ b ∈ ver, b ≠ 0) (hvl : ver.length < VERSION_LENGTH)
    (hlen : sfile.length = rfile.length)
    (h1 : QC_CHUNK_SIZE < sfile.length) (h2 : sfile.length ≤ 2 * QC_CHUNK_SIZE)
    (hz : ¬ ((chunk_at X sfile 0 0).hash.low64 = 0 ∧ (chunk_at X sfile 0 0).hash.high64 = 0)) :
    ∃ to_server to_client R,
      scheduled_session ver X sfile rfile early_exit_schedule early_exit_schedule
        [chunk_at X sfile 0 0] [chunk_at X rfile 0 0] to_server to_client R := by
  have hF : sfile.length < 2 ^ 63 := by
    rw [QC_CHUNK_SIZE_eq] at h2
    have : (400000000 : Nat) < 2 ^ 63 := by norm_num
    omega
  have hpos : 0 < sfile.length := by omega
  have hrs := reader_thr_two_chunks X sfile h1 h2
  have hrr := reader_thr_two_chunks X rfile (by rw [← hlen]; exact h1) (by rw [← hlen]; exact h2)
  obtain ⟨b1, b2, _⟩ := reader_chunk_size_bounds hF hpos
  have hwf1 : (chunk_at X sfile 0 0).wf := chunk_at_wf X sfile 0 0 hF hpos
  have hok : header_ok (chunk_at X sfile 0 0) (chunk_at X rfile 0 0) := by
    refine ⟨?_, ?_, ?_, ?_, hz⟩
    · rw [chunk_at_num X sfile 0 0 (by norm_num), chunk_at_num X rfile 0 0 (by norm_num)]
    · rw [chunk_at_num X sfile 0 0 (by norm_num)]
      exact Int.ofNat_nonneg _
    · rw [chunk_at_size]; exact b1
    · rw [chunk_at_size]; exact b2
  generalize hc1 : chunk_at X sfile 0 0 = c1 at hrs hwf1 hok ⊢
  generalize hr1 : chunk_at X rfile 0 0 = r1 at hrr hok ⊢
  generalize chunk_at X sfile QC_CHUNK_SIZE 1 = c2 at hrs
  generalize chunk_at X rfile QC_CHUNK_SIZE 1 = r2 at hrr
  have hall : List.Forall₂ header_ok [c1] [r1] := List.Forall₂.cons hok List.Forall₂.nil
  have hwf : ∀ c ∈ [c1], c.wf := by
    intro c hc
    rw [List.mem_singleton] at hc
    rw [hc]; exact hwf1
  have hmod : sfile.length % 2 ^ 64 = rfile.length := by
    rw [Nat.mod_eq_of_lt (by omega), hlen]
  obtain ⟨stc', st', hw, hwo, hsv, hsvo⟩ :=
    session_forward sfile.length rfile.length hv hvl [c1] [r1] hall hwf
      (client_init (replies [c1] [r1]))
      (server_init rfile (frames ver sfile.length false [c1] [r1] ++ bytes_i64 (-1)))
      rfl (fun _ => hmod) (fun hc => by cases hc) rfl rfl
  have e1 : (client_init (replies [c1] [r1])).output = [] := rfl
  have e2 : (server_init rfile (frames ver sfile.length false [c1] [r1]
      ++ bytes_i64 (-1))).output = [] := rfl
  have e3 : (server_init rfile (frames ver sfile.length false [c1] [r1]
      ++ bytes_i64 (-1))).input = frames ver sfile.length false [c1] [r1] ++ bytes_i64 (-1) :=
    rfl
  have e4 : (client_init (replies [c1] [r1])).input = replies [c1] [r1] := rfl
  have ho1 : stc'.output = frames ver sfile.length false [c1] [r1] ++ bytes_i64 (-1) :=
    hwo.trans (by rw [e1, e3, List.nil_append])
  have ho2 : st'.output = replies [c1] [r1] :=
    hsvo.trans (by rw [e2, e4, List.nil_append])
  exact ⟨_, _, .waiting st',
    { sender_popped := ⟨_, hrs, (worker_thr_popped_early_exit c1 c2).1⟩
      receiver_popped := ⟨_, hrr, (worker_thr_popped_early_exit r1 r2).1⟩
      sender := ⟨stc', hw, ho1⟩
      receiver := hsv
      served := ⟨st', rfl⟩
      answered := ho2 }⟩

theorem two_chunk_file_length (b : Nat) : (two_chunk_file b).length = QC_CHUNK_SIZE + 1 := by
  unfold two_chunk_file
  rw [List.length_append, List.length_replicate, List.length_singleton]

theorem two_chunk_file_bounds (b : Nat) :
    QC_CHUNK_SIZE < (two_chunk_file b).length ∧ (two_chunk_file b).length ≤ 2 * QC_CHUNK_SIZE ∧
      (two_chunk_file b).length < 2 ^ 63 := by
  rw [two_chunk_file_length, QC_CHUNK_SIZE_eq]
  refine ⟨by omega, by omega, by norm_num⟩

/-- The two chunks of a file made of `QC_CHUNK_SIZE` bytes `z` that sum to 0
and one more byte `b`, under `sample_hash`. -/
theorem chunk_at_two_chunks (z : List Nat) (b : Nat) (hl : z.length = QC_CHUNK_SIZE)
    (hsum : z.sum = 0) (hb : b + 1 < 2 ^ 64) :
    (chunk_at sample_hash (z ++ [b]) 0 0).data = z ∧
    (chunk_at sample_hash (z ++ [b]) 0 0).hash.low64 = 1 ∧
    (chunk_at sample_hash (z ++ [b]) QC_CHUNK_SIZE 1).data = [b] ∧
    (chunk_at sample_hash (z ++ [b]) QC_CHUNK_SIZE 1).hash.low64 = b + 1 := by
  have hlen : (z ++ [b]).length = QC_CHUNK_SIZE + 1 := by
    rw [List.length_append, hl, List.length_singleton]
  have hF : (z ++ [b]).length < 2 ^ 63 := by
    rw [hlen, QC_CHUNK_SIZE_eq]; norm_num
  have hs1 : reader_chunk_size (z ++ [b]).length 0 = QC_CHUNK_SIZE :=
    reader_chunk_size_of_lt hF (by rw [hlen]; omega)
  have hs2 : reader_chunk_size (z ++ [b]).length QC_CHUNK_SIZE = 1 := by
    have e : reader_chunk_size (z ++ [b]).length QC_CHUNK_SIZE
        = (z ++ [b]).length - QC_CHUNK_SIZE :=
      reader_chunk_size_of_ge hF (by rw [hlen]; omega) (by rw [hlen, QC_CHUNK_SIZE_eq]; omega)
    rw [e, hlen]
    omega
  have hd1 : fread (z ++ [b]) 0 QC_CHUNK_SIZE = z := by
    unfold fread
    rw [List.drop_zero, List.take_left' hl]
  have hd2 : fread (z ++ [b]) QC_CHUNK_SIZE 1 = [b] := by
    unfold fread
    rw [List.drop_left' hl]
    rfl
  have ht : z.take QC_CHUNK_SIZE = z := List.take_of_length_le (by rw [hl])
  refine ⟨?_, ?_, ?_, ?_⟩
  · rw [chunk_at_data, hs1, hd1]
  · simp only [chunk_at]
    rw [hs1, hd1, ht]
    simp only [sample_hash]
    rw [hsum]
    norm_num
  · rw [chunk_at_data, hs2, hd2]
  · simp only [chunk_at]
    rw [hs2, hd2]
    simp only [sample_hash, List.take_succ_cons, List.take_zero, List.sum_cons, List.sum_nil,
      Nat.add_zero]
    exact Nat.mod_eq_of_lt hb

theorem sum_replicate_zero : ∀ (n : Nat), (List.replicate n 0 : List Nat).sum = 0 := by
  intro n
  induction n with
  | zero => rfl
  | succ n ih => rw [List.replicate_succ, List.sum_cons, ih]

theorem two_chunk_file_chunks (b : Nat) (hb : b + 1 < 2 ^ 64) :
    (chunk_at sample_hash (two_chunk_file b) 0 0).data = List.replicate QC_CHUNK_SIZE 0 ∧
    (chunk_at sample_hash (two_chunk_file b) 0 0).hash.low64 = 1 ∧
    (chunk_at sample_hash (two_chunk_file b) QC_CHUNK_SIZE 1).data = [b] ∧
    (chunk_at sample_hash (two_chunk_file b) QC_CHUNK_SIZE 1).hash.low64 = b + 1 :=
  chunk_at_two_chunks (List.replicate QC_CHUNK_SIZE 0) b (List.length_replicate _ _)
    (sum_replicate_zero _) hb

/-- C1 on the code. The sender holds `QC_CHUNK_SIZE` zero bytes followed by
the byte 1, the receiver the same bytes followed by the byte 2: two chunks
each, the second ones different, with different hashes. In each process the
worker deals with the first chunk and reads the queue length 0 in its loop
test before the reader has pushed the second chunk; the reader then pushes it
and sets `is_readthread_finished`, and the worker reads the flag and leaves its
loop with the second chunk still in the queue. The sender has uploaded one
chunk with result 0 and sent the end-of-stream mark, the handler has served
that chunk and no `g_error` was raised: both processes end normally, and the
receiver's file is what it was, not the sender's file. Under another schedule
of the same threads the worker pops both chunks. -/
theorem early_exit_leaves_chunk_stale :
    ∃ cs rs to_server to_client R,
      scheduled_session sample_version sample_hash (two_chunk_file 1) (two_chunk_file 2)
        early_exit_schedule early_exit_schedule cs rs to_server to_client R ∧
      (two_chunk_file 1).length = (two_chunk_file 2).length ∧
      (∀ all_s all_r, reader_thr sample_hash (two_chunk_file 1) = some all_s →
        reader_thr sample_hash (two_chunk_file 2) = some all_r →
        all_s.length = 2 ∧ all_r.length = 2 ∧
        (∀ p ∈ all_s.zip all_r, p.1.data ≠ p.2.data → p.1.hash ≠ p.2.hash) ∧
        worker_thr_popped all_s early_exit_schedule = some cs ∧
        worker_thr_popped all_r early_exit_schedule = some rs ∧
        worker_thr_popped all_s drain_schedule = some all_s ∧
        worker_thr_popped all_r drain_schedule = some all_r) ∧
      cs.length = 1 ∧ rs.length = 1 ∧
      R.is_aborted = false ∧
      R.state.file = two_chunk_file 2 ∧ R.state.file ≠ two_chunk_file 1 := by
  obtain ⟨s1, s2, sF⟩ := two_chunk_file_bounds 1
  obtain ⟨r1, r2, rF⟩ := two_chunk_file_bounds 2
  have hlen : (two_chunk_file 1).length = (two_chunk_file 2).length := by
    rw [two_chunk_file_length, two_chunk_file_length]
  obtain ⟨sd1, sh1, sd2, sh2⟩ := two_chunk_file_chunks 1 (by norm_num)
  obtain ⟨rd1, rh1, rd2, rh2⟩ := two_chunk_file_chunks 2 (by norm_num)
  obtain ⟨to_server, to_client, R, hS⟩ :=
    @early_exit_session sample_version sample_hash (two_chunk_file 1) (two_chunk_file 2)
      sample_version_ok.1 sample_version_ok.2 hlen s1 s2
      (by rw [sh1]; rintro ⟨h, _⟩; exact absurd h (by decide))
  have hhash1 : ∀ p ∈ [chunk_at sample_hash (two_chunk_file 1) 0 0].zip
      [chunk_at sample_hash (two_chunk_file 2) 0 0], p.1.data ≠ p.2.data → p.1.hash ≠ p.2.hash := by
    intro p hp hne
    simp only [List.zip_cons_cons, List.zip_nil_right, List.mem_singleton] at hp
    rw [hp] at hne
    exact absurd (sd1.trans rd1.symm) hne
  obtain ⟨_, _, hfile⟩ := scheduled_session_file sample_version_ok.1 sample_version_ok.2 hlen sF
    hhash1 hS
  have hcc : chunk_count (two_chunk_file 1).length = 2 := chunk_count_two s1 s2
  obtain ⟨_, _, hf⟩ := hfile (by rw [hcc]; decide)
  have hstale : R.state.file = two_chunk_file 2 := by
    rw [hf]
    simp only [List.length_singleton, Nat.one_mul]
    unfold two_chunk_file
    rw [List.take_left' (List.length_replicate _ _), List.drop_left' (List.length_replicate _ _)]
  obtain ⟨st, hR⟩ := hS.served
  refine ⟨_, _, to_server, to_client, R, hS, hlen, ?_, rfl, rfl, by rw [hR]; rfl, hstale, ?_⟩
  · intro all_s all_r hs hr
    rw [reader_thr_two_chunks sample_hash _ s1 s2, Option.some.injEq] at hs
    rw [reader_thr_two_chunks sample_hash _ r1 r2, Option.some.injEq] at hr
    rw [← hs, ← hr]
    refine ⟨rfl, rfl, ?_, (worker_thr_popped_early_exit _ _).1,
      (worker_thr_popped_early_exit _ _).1, worker_thr_popped_drain _ _,
      worker_thr_popped_drain _ _⟩
    intro p hp hne
    simp only [List.zip_cons_cons, List.zip_nil_right, List.mem_cons, List.mem_singleton,
      List.not_mem_nil, or_false] at hp
    rcases hp with hp | hp
    · rw [hp] at hne
      exact absurd (sd1.trans rd1.symm) hne
    · rw [hp]
      intro he
      have := congrArg XXH128_hash_t.low64 he
      simp only at this
      rw [sh2, rh2] at this
      exact absurd this (by decide)
  · rw [hstale]
    unfold two_chunk_file
    intro he
    have := List.append_cancel_left he
    exact absurd this (by decide)

/-- A session in which both workers have popped every chunk of their readers
is a session in the sense of `session`. -/
theorem scheduled_session_drained {ver : List Nat} {X : List Nat → XXH128_hash_t}
    {sfile rfile : List Nat} {sched_s sched_r : List queue_action} {cs rs : List chunk}
    {to_server to_client : List Nat} {R : server_result}
    (h : scheduled_session ver X sfile rfile sched_s sched_r cs rs to_server to_client R)
    (hs : reader_thr X sfile = some cs) (hr : reader_thr X rfile = some rs) :
    session ver X sfile rfile cs rs to_server to_client R :=
  { sender_chunks := hs
    receiver_chunks := hr
    sender := h.sender
    receiver := h.receiver
    not_aborted := by obtain ⟨st, hR⟩ := h.served; rw [hR]; rfl
    answered := h.answered }

/-- The handler on the pairs `p1 ++ p2`: it serves `p1` and, if that leaves it
in its wait, goes on with `p2` from the state it has reached. -/
theorem on_incoming_connection_append (ver : List Nat) (F : Nat) :
    ∀ (p1 p2 : List (Int × XXH128_hash_t)) (st : server_state),
      on_incoming_connection ver F (p1 ++ p2) st =
        match on_incoming_connection ver F p1 st with
        | .waiting st1 => on_incoming_connection ver F p2 st1
        | r => r := by
  intro p1
  induction p1 with
  | nil => intro p2 st; simp only [List.nil_append, on_incoming_connection]
  | cons p p1 ih =>
    intro p2 st
    obtain ⟨cn, ch⟩ := p
    simp only [List.cons_append]
    rw [on_incoming_connection, on_incoming_connection]
    cases server_preamble ver F st with
    | none => rfl
    | some st1 =>
      simp only
      cases server_header cn st1.input with
      | error => rfl
      | eot rest => rfl
      | header num size hash rest =>
        simp only
        cases server_serve ch num size hash { st1 with input := rest } with
        | none => rfl
        | some st2 => exact ih p2 st2

theorem server_preamble_input {ver : List Nat} {F : Nat} {st st1 : server_state}
    (h : server_preamble ver F st = some st1) : ∃ pre, st.input = pre ++ st1.input := by
  unfold server_preamble at h
  split at h
  · cases hr : read_all VERSION_LENGTH st.input with
    | none => rw [hr] at h; cases h
    | some q =>
      obtain ⟨a, b⟩ := q
      rw [hr] at h
      simp only at h
      split at h
      · cases h
      · cases hr2 : read_all 8 b with
        | none => rw [hr2] at h; cases h
        | some q2 =>
          obtain ⟨a2, b2⟩ := q2
          rw [hr2] at h
          simp only at h
          split at h
          · cases h
          · simp only [Option.some.injEq] at h
            rw [← h]
            obtain ⟨e1, _⟩ := read_all_eq_some hr
            obtain ⟨e2, _⟩ := read_all_eq_some hr2
            exact ⟨a ++ a2, by simp only; rw [e1, e2, List.append_assoc]⟩
  · simp only [Option.some.injEq] at h
    rw [h]
    exact ⟨[], rfl⟩

theorem server_header_input {current_num num : Int} {size : Nat} {hash : XXH128_hash_t}
    {input rest : List Nat} (h : server_header current_num input = .header num size hash rest) :
    ∃ hdr, input = hdr ++ rest := by
  unfold server_header at h
  cases hr : read_all 8 input with
  | none => rw [hr] at h; cases h
  | some q =>
    obtain ⟨a, b⟩ := q
    rw [hr] at h
    simp only at h
    split at h
    · cases h
    · split at h
      · cases h
      · cases hr2 : read_all 8 b with
        | none => rw [hr2] at h; cases h
        | some q2 =>
          obtain ⟨a2, b2⟩ := q2
          rw [hr2] at h
          simp only at h
          split at h
          · cases h
          · cases hr3 : read_all 16 b2 with
            | none => rw [hr3] at h; cases h
            | some q3 =>
              obtain ⟨a3, b3⟩ := q3
              rw [hr3] at h
              simp only at h
              split at h
              · cases h
              · simp only [header_result.header.injEq] at h
                obtain ⟨e1, _⟩ := read_all_eq_some hr
                obtain ⟨e2, _⟩ := read_all_eq_some hr2
                obtain ⟨e3, _⟩ := read_all_eq_some hr3
                refine ⟨a ++ a2 ++ a3, ?_⟩
                rw [e1, e2, e3, ← h.2.2.2]
                simp only [List.append_assoc]

/-- What `fseek`/`fwrite` leave in the file: the bytes before `offset` as they
were (a gap past the old end reads as zeros), then `data`, then the old bytes
from `offset + data.length` on. -/
theorem fwrite_at_spec (file : List Nat) (offset : Nat) (data : List Nat) :
    (fwrite_at file offset data).take offset
      = file.take offset ++ List.replicate (offset - file.length) 0 ∧
    ((fwrite_at file offset data).drop offset).take data.length = data ∧
    (fwrite_at file offset data).drop (offset + data.length)
      = file.drop (offset + data.length) := by
  have hA : (file.take offset ++ List.replicate (offset - file.length) 0).length = offset := by
    rw [List.length_append, List.length_take, List.length_replicate]
    omega
  have hB : (file.take offset ++ List.replicate (offset - file.length) 0 ++ data).length
      = offset + data.length := by
    rw [List.length_append, hA]
  unfold fwrite_at
  refine ⟨?_, ?_, ?_⟩
  · rw [List.append_assoc (file.take offset ++ List.replicate (offset - file.length) 0),
      List.take_left' hA]
  · rw [List.append_assoc (file.take offset ++ List.replicate (offset - file.length) 0),
      List.drop_left' hA, List.take_left' rfl]
  · rw [List.drop_left' hB]

/-- The effect of the hash comparison and what follows it in one pass
(server.c, lines 165-224) on the handler's file, cursor and input. -/
theorem server_serve_pass {cur hash : XXH128_hash_t} {num : Int} {size : Nat}
    {st st2 : server_state} (h : server_serve cur num size hash st = some st2) :
    ∃ (r : served) (data : List Nat),
      st.input = data ++ st2.input ∧ st2.log = st.log ++ [r] ∧
      r.num = num ∧ r.size = size ∧ r.hash = hash ∧ r.offset = st.offset ∧
      st2.offset = st.offset + size ∧
      ((are_hashes_equal cur hash = true ∧ r.reply = QC_EQL_MESSAGE ∧ r.written = none ∧
          data = [] ∧ st2.file = st.file) ∨
       (are_hashes_equal cur hash = false ∧ r.reply = QC_ACK_MESSAGE ∧
          r.written = some (st.offset, data) ∧ data.length = size ∧
          st2.file.take st.offset
            = st.file.take st.offset ++ List.replicate (st.offset - st.file.length) 0 ∧
          (st2.file.drop st.offset).take size = data ∧
          st2.file.drop (st.offset + size) = st.file.drop (st.offset + size))) := by
  unfold server_serve at h
  split at h
  · rename_i he
    simp only [Option.some.injEq] at h
    rw [← h]
    exact ⟨_, [], rfl, rfl, rfl, rfl, rfl, rfl, rfl, Or.inl ⟨he, rfl, rfl, rfl, rfl⟩⟩
  · rename_i he
    cases hr : read_all size st.input with
    | none => rw [hr] at h; cases h
    | some q =>
      obtain ⟨data, rest⟩ := q
      rw [hr] at h
      simp only [Option.some.injEq] at h
      obtain ⟨e1, e2⟩ := read_all_eq_some hr
      obtain ⟨f1, f2, f3⟩ := fwrite_at_spec st.file st.offset data
      rw [e2] at f2 f3
      rw [← h]
      exact ⟨_, data, e1, rfl, rfl, rfl, rfl, rfl, rfl,
        Or.inr ⟨by simpa using he, rfl, rfl, e2, f1, f2, f3⟩⟩

/-- One pass of the handler's loop that ends back in the wait: what it read,
what it logged, where the cursor went, and what became of the file. Only the
`size` bytes at the cursor can change, and they change to the payload. -/
theorem on_incoming_connection_pass {ver : List Nat} {F : Nat} {p : Int × XXH128_hash_t}
    {st st' : server_state} (h : on_incoming_connection ver F [p] st = .waiting st') :
    ∃ (r : served) (hdr data : List Nat),
      st.input = hdr ++ data ++ st'.input ∧ st'.log = st.log ++ [r] ∧
      r.num = p.1 ∧ r.offset = st.offset ∧ st'.offset = st.offset + r.size ∧
      ((are_hashes_equal p.2 r.hash = true ∧ r.reply = QC_EQL_MESSAGE ∧ r.written = none ∧
          data = [] ∧ st'.file = st.file) ∨
       (are_hashes_equal p.2 r.hash = false ∧ r.reply = QC_ACK_MESSAGE ∧
          r.written = some (st.offset, data) ∧ data.length = r.size ∧
          st'.file.take st.offset
            = st.file.take st.offset ++ List.replicate (st.offset - st.file.length) 0 ∧
          (st'.file.drop st.offset).take r.size = data ∧
          st'.file.drop (st.offset + r.size) = st.file.drop (st.offset + r.size))) := by
  obtain ⟨cn, ch⟩ := p
  rw [on_incoming_connection] at h
  cases hp : server_preamble ver F st with
  | none => rw [hp] at h; cases h
  | some st1 =>
    rw [hp] at h
    simp only at h
    obtain ⟨k1, k2, k3, _⟩ := server_preamble_keeps hp
    obtain ⟨pre, hpre⟩ := server_preamble_input hp
    cases hh : server_header cn st1.input with
    | error => rw [hh] at h; cases h
    | eot rest => rw [hh] at h; cases h
    | header num size hash rest =>
      rw [hh] at h
      simp only at h
      obtain ⟨hdr, hhdr⟩ := server_header_input hh
      have hnum : num = cn := by
        unfold server_header at hh
        cases hr : read_all 8 st1.input with
        | none => rw [hr] at hh; cases hh
        | some q =>
          rw [hr] at hh
          simp only at hh
          split at hh
          · cases hh
          · split at hh
            · cases hh
            · rename_i hne
              cases hr2 : read_all 8 q.2 with
              | none => rw [hr2] at hh; cases hh
              | some q2 =>
                rw [hr2] at hh
                simp only at hh
                split at hh
                · cases hh
                · cases hr3 : read_all 16 q2.2 with
                  | none => rw [hr3] at hh; cases hh
                  | some q3 =>
                    rw [hr3] at hh
                    simp only at hh
                    split at hh
                    · cases hh
                    · simp only [header_result.header.injEq] at hh
                      rw [← hh.1]
                      exact not_not.mp hne
      cases hs : server_serve ch num size hash { st1 with input := rest } with
      | none => rw [hs] at h; cases h
      | some st2 =>
        rw [hs] at h
        simp only [on_incoming_connection, server_result.waiting.injEq] at h
        subst h
        obtain ⟨r, data, e1, e2, e3, e4, e5, e6, e7, e8⟩ := server_serve_pass hs
        simp only at e1 e2 e6 e7 e8
        rw [k1] at e2
        rw [k2] at e6 e7 e8
        rw [k3] at e8
        rw [← e5, ← e4] at e8
        rw [← e4] at e7
        refine ⟨r, pre ++ hdr, data, ?_, e2, ?_, e6, e7, e8⟩
        · rw [hpre, hhdr, e1]; simp only [List.append_assoc]
        · rw [e3, hnum]

/-- A handler run that ends in the wait has added one record per pair to its
log. -/
theorem on_incoming_connection_log_append (ver : List Nat) (F : Nat) :
    ∀ (ps : List (Int × XXH128_hash_t)) (st st' : server_state),
      on_incoming_connection ver F ps st = .waiting st' →
      ∃ l, st'.log = st.log ++ l ∧ l.length = ps.length := by
  intro ps
  induction ps with
  | nil =>
    intro st st' h
    simp only [on_incoming_connection, server_result.waiting.injEq] at h
    rw [← h]
    exact ⟨[], (List.append_nil _).symm, rfl⟩
  | cons p ps ih =>
    intro st st' h
    have ha := on_incoming_connection_append ver F [p] ps st
    rw [List.singleton_append, h] at ha
    cases h1 : on_incoming_connection ver F [p] st with
    | closed x => rw [h1] at ha; cases ha
    | aborted x => rw [h1] at ha; cases ha
    | waiting st1 =>
      rw [h1] at ha
      simp only at ha
      obtain ⟨r, _, _, _, hl, _⟩ := on_incoming_connection_pass h1
      obtain ⟨l, e1, e2⟩ := ih st1 st' ha.symm
      refine ⟨r :: l, ?_, by rw [List.length_cons, List.length_cons, e2]⟩
      rw [e1, hl, List.append_assoc, List.singleton_append]

/-- A handler run that ends in the wait was in the wait after every prefix of
its pairs. -/
theorem on_incoming_connection_take (ver : List Nat) (F : Nat)
    (ps : List (Int × XXH128_hash_t)) (k : Nat) {st st' : server_state}
    (h : on_incoming_connection ver F ps st = .waiting st') :
    ∃ st_k, on_incoming_connection ver F (ps.take k) st = .waiting st_k ∧
      on_incoming_connection ver F (ps.drop k) st_k = .waiting st' := by
  have ha := on_incoming_connection_append ver F (ps.take k) (ps.drop k) st
  rw [List.take_append_drop, h] at ha
  cases h1 : on_incoming_connection ver F (ps.take k) st with
  | closed x => rw [h1] at ha; cases ha
  | aborted x => rw [h1] at ha; cases ha
  | waiting st1 =>
    rw [h1] at ha
    exact ⟨st1, rfl, ha.symm⟩

/-- Where the chunks of a file lie in it: the chunk at index `k` (from 0) of
the reader's first `q` chunks holds the bytes from `k * QC_CHUNK_SIZE` on. -/
theorem chunks_from_get (X : List Nat → XXH128_hash_t) (file : List Nat)
    (hF : file.length < 2 ^ 63) :
    ∀ (q pos n k : Nat) (c : chunk), pos ≤ file.length →
      q ≤ chunk_count (file.length - pos) → (chunks_from X file q pos n)[k]? = some c →
      c.data = fread file (pos + k * QC_CHUNK_SIZE) c.size := by
  intro q
  induction q with
  | zero => intro pos n k c _ _ h; simp [chunks_from] at h
  | succ q ih =>
    intro pos n k c hp hq h
    have hlt : pos < file.length := by
      by_contra hge
      have h0 : file.length - pos = 0 := by omega
      rw [h0, chunk_count_zero] at hq
      omega
    obtain ⟨h1, h2, h3⟩ := reader_chunk_size_bounds hF hlt
    have hstep := chunk_count_step hF hlt
    rw [chunks_from_succ] at h
    cases k with
    | zero =>
      simp only [List.getElem?_cons_zero, Option.some.injEq] at h
      rw [← h, chunk_at_data, chunk_at_size, Nat.zero_mul, Nat.add_zero]
    | succ k =>
      simp only [List.getElem?_cons_succ] at h
      have hq1 : 1 ≤ q := by
        cases q with
        | zero => simp [chunks_from] at h
        | succ q => omega
      have hcc : 2 ≤ chunk_count (file.length - pos) := by omega
      rw [chunk_count_ge_two] at hcc
      have hsz : reader_chunk_size file.length pos = QC_CHUNK_SIZE :=
        reader_chunk_size_of_lt hF (by omega)
      rw [hsz] at h h3 hstep
      have := ih (pos + QC_CHUNK_SIZE) _ k c h3 (by omega) h
      rw [this, Nat.succ_mul]
      congr 1
      omega

/-- The sizes of the first `m` chunks of a file, `m` at most the number of
its chunks: the first `k < m` of them are full chunks. -/
theorem chunks_from_sizes_take_sum (X : List Nat → XXH128_hash_t) (file : List Nat)
    (hF : file.length < 2 ^ 63) (m k : Nat) (hm : m ≤ chunk_count file.length) (hk : k < m) :
    (((chunks_from X file m 0 0).map chunk.size).take k).sum = k * QC_CHUNK_SIZE := by
  have hpos : 0 < file.length := by
    rcases Nat.eq_zero_or_pos file.length with h0 | h0
    · rw [h0, chunk_count_zero] at hm; omega
    · exact h0
  obtain ⟨q, hq⟩ := chunk_count_pos _ hpos
  have hsz := chunks_from_sizes X file hF q 0 0 hpos (by rw [Nat.sub_zero]; exact hq)
  rw [Nat.sub_zero] at hsz
  have ht := chunks_from_take X file m (q + 1) 0 0 (by omega)
  rw [← ht, List.map_take, hsz, List.take_take, Nat.min_eq_left (by omega)]
  exact chunk_sizes_take_sum q _ k (by omega)

theorem worker_thr_popped_sample (c : chunk) :
    worker_thr_popped [c] sample_schedule = some [c] := by
  have h : queue_run (queue_init [c]) sample_schedule
      = some { pending := [], queue := [], waiting_threads := 0,
               is_readthread_finished := true, reader := .finished, worker := .exited,
               popped := [c] } := by
    simp [sample_schedule, queue_run, queue_step, queue_init, g_async_queue_length,
      QC_MAX_READER_QUEUE]
  unfold worker_thr_popped
  rw [h]
  simp

/-- The example session under the schedule in which each worker pops its one
chunk. -/
theorem sample_scheduled_session :
    scheduled_session sample_version sample_hash [1, 2, 3] [1, 2, 4] sample_schedule
      sample_schedule [sample_chunk_s] [sample_chunk_r] sample_to_server sample_to_client
      (.waiting sample_final) :=
  { sender_popped := ⟨_, sample_reader_s, worker_thr_popped_sample _⟩
    receiver_popped := ⟨_, sample_reader_r, worker_thr_popped_sample _⟩
    sender := ⟨_, sample_sender, rfl⟩
    receiver := sample_receiver
    served := ⟨_, rfl⟩
    answered := rfl }

/-- C5. The handler's offset cursor starts at 0. Whenever the handler is back
in its wait after `k` dialogues, on any input, the cursor is the sum of the
`size` fields it received in them, whether they were answered "EQL" or "ACK".
The next dialogue leaves the file alone if it answers "EQL"; if it answers
"ACK" it reads `size` payload bytes and the file afterwards has them at the
cursor and is unchanged before and after them; either way the cursor advances
by `size`. In a session between files of equal length the cursor at the start
of the dialogue for the sender's chunk at index `k` (from 0) is `k *
QC_CHUNK_SIZE`, where that chunk's bytes lie in the sender's file. -/
theorem receiver_write_offset {ver : List Nat} {X : List Nat → XXH128_hash_t}
    {sfile rfile : List Nat} {sched_s sched_r : List queue_action} {cs rs : List chunk}
    {to_server to_client : List Nat} {R : server_result}
    (h : scheduled_session ver X sfile rfile sched_s sched_r cs rs to_server to_client R)
    (hv : ∀ b ∈ ver, b ≠ 0) (hvl : ver.length < VERSION_LENGTH)
    (hlen : sfile.length = rfile.length) (hF : sfile.length < 2 ^ 63) :
    (∀ (v : List Nat) (F : Nat) (pairs : List (Int × XXH128_hash_t)) (file input : List Nat)
        (k : Nat) (st_k : server_state),
      on_incoming_connection v F (pairs.take k) (server_init file input) = .waiting st_k →
      (server_init file input).offset = 0 ∧
      st_k.log.length = (pairs.take k).length ∧
      st_k.offset = (st_k.log.map served.size).sum ∧
      ∀ (p : Int × XXH128_hash_t) (st' : server_state), pairs[k]? = some p →
        on_incoming_connection v F (pairs.take (k + 1)) (server_init file input)
          = .waiting st' →
        ∃ (r : served) (hdr data : List Nat),
          st_k.input = hdr ++ data ++ st'.input ∧ st'.log = st_k.log ++ [r] ∧
          r.offset = st_k.offset ∧ st'.offset = st_k.offset + r.size ∧
          ((are_hashes_equal p.2 r.hash = true ∧ r.reply = QC_EQL_MESSAGE ∧
              r.written = none ∧ data = [] ∧ st'.file = st_k.file) ∨
           (are_hashes_equal p.2 r.hash = false ∧ r.reply = QC_ACK_MESSAGE ∧
              r.written = some (st_k.offset, data) ∧ data.length = r.size ∧
              st'.file.take st_k.offset
                = st_k.file.take st_k.offset
                  ++ List.replicate (st_k.offset - st_k.file.length) 0 ∧
              (st'.file.drop st_k.offset).take r.size = data ∧
              st'.file.drop (st_k.offset + r.size)
                = st_k.file.drop (st_k.offset + r.size)))) ∧
    (∀ (k : Nat) (c : chunk), cs[k]? = some c →
      c.data = fread sfile (k * QC_CHUNK_SIZE) c.size ∧
      ∃ st_k, on_incoming_connection ver rfile.length ((worker_thr_server rs).take k)
          (server_init rfile to_server) = .waiting st_k ∧
        st_k.log.length = k ∧ st_k.offset = k * QC_CHUNK_SIZE) := by
  constructor
  · intro v F pairs file input k st_k hk
    have hinv : offset_inv st_k := by
      have := on_incoming_connection_offset_inv v F (pairs.take k) (server_init file input)
        ⟨trivial, rfl⟩
      rw [hk] at this
      exact this
    obtain ⟨l, hl1, hl2⟩ := on_incoming_connection_log_append v F _ _ _ hk
    refine ⟨rfl, ?_, hinv.2, ?_⟩
    · rw [hl1, ← hl2]
      simp only [server_init, List.nil_append]
    · intro p st' hp hk1
      have ht : pairs.take (k + 1) = pairs.take k ++ [p] := by
        rw [List.take_succ, hp]
        rfl
      rw [ht, on_incoming_connection_append, hk] at hk1
      simp only at hk1
      obtain ⟨r, hdr, data, e1, e2, _, e4, e5, e6⟩ := on_incoming_connection_pass hk1
      exact ⟨r, hdr, data, e1, e2, e4, e5, e6⟩
  · intro k c hc
    obtain ⟨hl, hle, hcs, hrs, st', hR, hview, _⟩ := scheduled_session_facts hv hvl hlen hF h
    have hkl : k < cs.length := by
      by_contra hge
      rw [List.getElem?_eq_none (by omega)] at hc
      cases hc
    constructor
    · have hc' := hc
      rw [hcs] at hc'
      have := chunks_from_get X sfile hF cs.length 0 0 k c (Nat.zero_le _)
        (by rw [Nat.sub_zero]; exact hle) hc'
      rw [Nat.zero_add] at this
      exact this
    · have hrec := h.receiver
      rw [hR] at hrec
      obtain ⟨st_k, hk1, hk2⟩ := on_incoming_connection_take ver rfile.length
        (worker_thr_server rs) k hrec
      have hinv : offset_inv st_k := by
        have := on_incoming_connection_offset_inv ver rfile.length
          ((worker_thr_server rs).take k) (server_init rfile to_server) ⟨trivial, rfl⟩
        rw [hk1] at this
        exact this
      obtain ⟨l1, a1, a2⟩ := on_incoming_connection_log_append ver rfile.length _ _ _ hk1
      obtain ⟨l2, b1, b2⟩ := on_incoming_connection_log_append ver rfile.length _ _ _ hk2
      have hlk : st_k.log.length = k := by
        rw [a1, List.length_append, a2, List.length_take]
        simp only [server_init, List.length_nil, worker_thr_server, List.length_map]
        omega
      have hlog : st'.log = session_log cs rs 0 := by
        have e : st'.log = st'.view.log := rfl
        rw [e, hview, sync_view_log]
        simp only [server_init, server_state.view, List.nil_append]
      have htake : st_k.log = (session_log cs rs 0).take k := by
        rw [← hlog, b1, List.take_left' hlk]
      refine ⟨st_k, hk1, hlk, ?_⟩
      rw [hinv.2, htake, List.map_take, session_log_sizes cs rs 0 hl, hcs]
      exact chunks_from_sizes_take_sum X sfile hF cs.length k hle hkl

set_option maxRecDepth 100000 in
theorem receiver_write_offset_witness :
    (∃ (r : served) (hdr data : List Nat),
      (server_init [1, 2, 4] sample_to_server).input = hdr ++ data ++ sample_final.input ∧
      sample_final.log = (server_init [1, 2, 4] sample_to_server).log ++ [r] ∧
      r.offset = (server_init [1, 2, 4] sample_to_server).offset ∧
      sample_final.offset = (server_init [1, 2, 4] sample_to_server).offset + r.size ∧
      ((are_hashes_equal sample_chunk_r.hash r.hash = true ∧ r.reply = QC_EQL_MESSAGE ∧
          r.written = none ∧ data = [] ∧
          sample_final.file = (server_init [1, 2, 4] sample_to_server).file) ∨
       (are_hashes_equal sample_chunk_r.hash r.hash = false ∧ r.reply = QC_ACK_MESSAGE ∧
          r.written = some ((server_init [1, 2, 4] sample_to_server).offset, data) ∧
          data.length = r.size ∧
          sample_final.file.take (server_init [1, 2, 4] sample_to_server).offset
            = (server_init [1, 2, 4] sample_to_server).file.take
                (server_init [1, 2, 4] sample_to_server).offset
              ++ List.replicate ((server_init [1, 2, 4] sample_to_server).offset
                  - (server_init [1, 2, 4] sample_to_server).file.length) 0 ∧
          (sample_final.file.drop (server_init [1, 2, 4] sample_to_server).offset).take r.size
            = data ∧
          sample_final.file.drop ((server_init [1, 2, 4] sample_to_server).offset + r.size)
            = (server_init [1, 2, 4] sample_to_server).file.drop
                ((server_init [1, 2, 4] sample_to_server).offset + r.size)))) ∧
    (∀ (k : Nat) (c : chunk), [sample_chunk_s][k]? = some c →
      c.data = fread [1, 2, 3] (k * QC_CHUNK_SIZE) c.size ∧
      ∃ st_k, on_incoming_connection sample_version [1, 2, 4].length
          ((worker_thr_server [sample_chunk_r]).take k)
          (server_init [1, 2, 4] sample_to_server) = .waiting st_k ∧
        st_k.log.length = k ∧ st_k.offset = k * QC_CHUNK_SIZE) :=
  have h := receiver_write_offset sample_scheduled_session sample_version_ok.1
    sample_version_ok.2 rfl (by decide)
  ⟨(h.1 sample_version 3 (worker_thr_server [sample_chunk_r]) [1, 2, 4] sample_to_server 0
      (server_init [1, 2, 4] sample_to_server) rfl).2.2.2 (sample_chunk_r.num, sample_chunk_r.hash)
      sample_final rfl sample_receiver, h.2⟩

end QuickChunk
